import Mathlib

/-!
A shallow embedding of `html-parser.go`.

The Go program scans a `string` byte by byte: `p.html[p.pos]` is a byte, and
`rune(p.html[p.pos])` reads that byte as a code point below 256.  A buffer is
therefore a list of bytes (`Nat` values below 256) and the cursor is a `Nat`.

A Go call can end in three ways, all kept apart in `Outcome`:
it returns, it panics (index or slice out of range), or it runs forever
(the embedding runs out of fuel).
-/

namespace HtmlParser

/-! ## Data model -/

/-- The Go type `NodeType` with its two constants. -/
inductive NodeType where
  | ElementNode
  | TextNode
deriving DecidableEq

/-- The Go struct `Node`.  The fields are, in order, `Type`, `Tag`, `Attributes`,
`Children` and `Content`.  A Go map is a list of key/value pairs with distinct
keys (see `mapSet`); a nil map and an empty map are both `[]`, as are a nil
slice and an empty slice of children. -/
inductive Node where
  | mk (Type_ : NodeType) (Tag : List Nat) (Attributes : List (List Nat × List Nat))
      (Children : List Node) (Content : List Nat)

/-- Field `Type` of a node. -/
def Node.Type_ : Node → NodeType
  | .mk t _ _ _ _ => t

/-- Field `Tag` of a node. -/
def Node.Tag : Node → List Nat
  | .mk _ t _ _ _ => t

/-- Field `Attributes` of a node. -/
def Node.Attributes : Node → List (List Nat × List Nat)
  | .mk _ _ a _ _ => a

/-- Field `Children` of a node. -/
def Node.Children : Node → List Node
  | .mk _ _ _ c _ => c

/-- Field `Content` of a node. -/
def Node.Content : Node → List Nat
  | .mk _ _ _ _ c => c

/-- How a Go call ends: it returns a value, it panics at run time, or the
embedding ran out of fuel before the call finished. -/
inductive Outcome (α : Type) where
  | ret (a : α)
  | panic
  | fuelOut

/-- The Go interface `error`, reduced to its message. -/
abbrev GoError := String

/-- The bytes of an ASCII string literal. -/
def ascii (s : String) : List Nat := s.toList.map Char.toNat

/-! ## The Go library functions the parser calls -/

/-- Go `unicode.IsLetter(rune(b))` for a byte `b`: the letters of Latin-1. -/
def isLetter (b : Nat) : Bool :=
  (65 ≤ b && b ≤ 90) || (97 ≤ b && b ≤ 122) || b == 170 || b == 181 || b == 186 ||
  (192 ≤ b && b ≤ 214) || (216 ≤ b && b ≤ 246) || (248 ≤ b && b ≤ 255)

/-- Go `unicode.IsDigit(rune(b))` for a byte `b`. -/
def isDigit (b : Nat) : Bool := 48 ≤ b && b ≤ 57

/-- The loop condition of `parseTagName`: letter or digit. -/
def isAlnum (b : Nat) : Bool := isLetter b || isDigit b

/-- Go `unicode.IsSpace(r)` for a code point `r`. -/
def isSpaceRune (r : Nat) : Bool :=
  if r ≤ 255 then
    r == 9 || r == 10 || r == 11 || r == 12 || r == 13 || r == 32 || r == 133 || r == 160
  else
    r == 5760 || (8192 ≤ r && r ≤ 8202) || r == 8232 || r == 8233 || r == 8239 ||
    r == 8287 || r == 12288

/-- Go `unicode.IsSpace(rune(b))` for a byte `b`, as `skipWhitespace` calls it. -/
def isSpace (b : Nat) : Bool := isSpaceRune b

/-- The table `asciiSpace` of package `strings`. -/
def asciiSpace (b : Nat) : Bool :=
  b == 9 || b == 10 || b == 11 || b == 12 || b == 13 || b == 32

/-- The code point `utf8.RuneError`. -/
def RuneError : Nat := 65533

/-- Continuation byte of UTF-8 (`locb ≤ b ≤ hicb`). -/
def isCont (b : Nat) : Bool := 128 ≤ b && b ≤ 191

/-- Go `utf8.DecodeRuneInString`: the first code point of `s` and its width in
bytes; an invalid or short encoding is `RuneError` of width 1, the empty string
`RuneError` of width 0. -/
def DecodeRuneInString (s : List Nat) : Nat × Nat :=
  match s with
  | [] => (RuneError, 0)
  | s0 :: t =>
    if s0 < 128 then (s0, 1)
    else if s0 < 194 then (RuneError, 1)
    else if s0 < 224 then
      match t with
      | s1 :: _ => if isCont s1 then ((s0 % 32) * 64 + s1 % 64, 2) else (RuneError, 1)
      | _ => (RuneError, 1)
    else if s0 < 240 then
      match t with
      | s1 :: s2 :: _ =>
        let lo := if s0 == 224 then 160 else 128
        let hi := if s0 == 237 then 159 else 191
        if lo ≤ s1 && s1 ≤ hi then
          if isCont s2 then ((s0 % 16) * 4096 + (s1 % 64) * 64 + s2 % 64, 3)
          else (RuneError, 1)
        else (RuneError, 1)
      | _ => (RuneError, 1)
    else if s0 < 245 then
      match t with
      | s1 :: s2 :: s3 :: _ =>
        let lo := if s0 == 240 then 144 else 128
        let hi := if s0 == 244 then 143 else 191
        if lo ≤ s1 && s1 ≤ hi then
          if isCont s2 then
            if isCont s3 then
              ((s0 % 8) * 262144 + (s1 % 64) * 4096 + (s2 % 64) * 64 + s3 % 64, 4)
            else (RuneError, 1)
          else (RuneError, 1)
        else (RuneError, 1)
      | _ => (RuneError, 1)
    else (RuneError, 1)

/-- Go `utf8.RuneStart`. -/
def RuneStart (b : Nat) : Bool := !isCont b

/-- The backward search of `utf8.DecodeLastRuneInString`: from `start`, step
down while `start ≥ lim` and the byte is not a rune start; the result is the
integer `start`, shifted by one so that `0` stands for `-1`. -/
def lastRuneStart (s : List Nat) (lim : Nat) : Nat → Nat
  | 0 => 0
  | start + 1 =>
    if start < lim then start + 1
    else if RuneStart (s.getD start 0) then start + 1
    else lastRuneStart s lim start

/-- Go `utf8.DecodeLastRuneInString`: the last code point of `s` and its width. -/
def DecodeLastRuneInString (s : List Nat) : Nat × Nat :=
  let stop := s.length
  if stop = 0 then (RuneError, 0)
  else
    let r := s.getD (stop - 1) 0
    if r < 128 then (r, 1)
    else
      let lim := stop - 4
      let start := lastRuneStart s lim (stop - 1) - 1
      let d := DecodeRuneInString ((s.drop start).take (stop - start))
      if start + d.2 ≠ stop then (RuneError, 1) else d

/-- The loop `for i, r := range s` of `indexFunc(s, unicode.IsSpace, false)`
from byte offset `i` on: the offset of the first code point that is not white
space, `none` for `-1`.  The first argument bounds the number of iterations. -/
def indexFunc (s : List Nat) : Nat → Nat → Option Nat
  | 0, _ => none
  | n + 1, i =>
    if i < s.length then
      let d := DecodeRuneInString (s.drop i)
      if isSpaceRune d.1 then indexFunc s n (i + d.2) else some i
    else none

/-- Go `strings.TrimLeftFunc(s, unicode.IsSpace)`. -/
def TrimLeftFunc (s : List Nat) : List Nat :=
  match indexFunc s s.length 0 with
  | none => []
  | some i => s.drop i

/-- The loop of `lastIndexFunc(s, unicode.IsSpace, false)` from `i` down: the
offset of the last code point that is not white space, `none` for `-1`.  The
first argument bounds the number of iterations. -/
def lastIndexFunc (s : List Nat) : Nat → Nat → Option Nat
  | 0, _ => none
  | n + 1, i =>
    if 0 < i then
      let d := DecodeLastRuneInString (s.take i)
      let i := i - d.2
      if isSpaceRune d.1 then lastIndexFunc s n i else some i
    else none

/-- Go `strings.TrimRightFunc(s, unicode.IsSpace)`. -/
def TrimRightFunc (s : List Nat) : List Nat :=
  match lastIndexFunc s s.length s.length with
  | some i =>
    if 128 ≤ s.getD i 0 then s.take (i + (DecodeRuneInString (s.drop i)).2)
    else s.take (i + 1)
  | none => []

/-- The second loop of `strings.TrimSpace`: trailing ASCII white space is
dropped byte by byte, a byte `≥ 0x80` hands over to `TrimRightFunc`. -/
def trimSpaceRight : Nat → List Nat → List Nat
  | 0, s => s
  | n + 1, s =>
    match s.getLast? with
    | none => []
    | some c =>
      if 128 ≤ c then TrimRightFunc s
      else if asciiSpace c then trimSpaceRight n s.dropLast
      else s

/-- Go `strings.TrimSpace`: the first loop drops leading ASCII white space, a
byte `≥ 0x80` hands over to `TrimFunc`; then the trailing white space goes. -/
def TrimSpace : List Nat → List Nat
  | [] => []
  | c :: t =>
    if 128 ≤ c then TrimRightFunc (TrimLeftFunc (c :: t))
    else if asciiSpace c then TrimSpace t
    else trimSpaceRight (c :: t).length (c :: t)

/-- Go map assignment `m[k] = v`. -/
def mapSet (m : List (List Nat × List Nat)) (k v : List Nat) : List (List Nat × List Nat) :=
  match m with
  | [] => [(k, v)]
  | (k', v') :: r => if k' = k then (k, v) :: r else (k', v') :: mapSet r k v

/-- Go map lookup: the value stored under `k`, if any. -/
def mapGet (m : List (List Nat × List Nat)) (k : List Nat) : Option (List Nat) :=
  match m with
  | [] => none
  | (k', v') :: r => if k' = k then some v' else mapGet r k

/-- Go slice expression `s[lo:hi]`, which panics unless `lo ≤ hi ≤ len(s)`. -/
def slice (s : List Nat) (lo hi : Nat) : Outcome (List Nat) :=
  if lo ≤ hi ∧ hi ≤ s.length then .ret ((s.drop lo).take (hi - lo)) else .panic

/-! ## The parser

Every function takes the buffer `html` and the cursor `pos` and returns the
new cursor next to its result. -/

/-- A loop `for p.pos < len(p.html) && f(p.html[p.pos]) { p.pos++ }`; it runs at
most `len(p.html) - p.pos` times, which is the first argument. -/
def scanWhile (f : Nat → Bool) (html : List Nat) : Nat → Nat → Nat
  | 0, pos => pos
  | n + 1, pos =>
    match html[pos]? with
    | some b => if f b then scanWhile f html n (pos + 1) else pos
    | none => pos

/-- Go `skipWhitespace`. -/
def skipWhitespace (html : List Nat) (pos : Nat) : Nat :=
  scanWhile isSpace html (html.length - pos) pos

/-- Go `parseTagName`: the tag name and the new cursor. -/
def parseTagName (html : List Nat) (pos : Nat) : Outcome (List Nat × Nat) :=
  let start := pos
  let pos := scanWhile isAlnum html (html.length - pos) pos
  match slice html start pos with
  | .ret name => .ret (name, pos)
  | .panic => .panic
  | .fuelOut => .fuelOut

/-- Go `parseAttributeValue`: the value and the new cursor. -/
def parseAttributeValue (html : List Nat) (pos : Nat) : Outcome (List Nat × Nat) :=
  match html[pos]? with
  | some 34 =>
    let pos := pos + 1
    let start := pos
    let pos := scanWhile (fun b => b != 34) html (html.length - pos) pos
    match slice html start pos with
    | .ret value => .ret (value, pos + 1)
    | .panic => .panic
    | .fuelOut => .fuelOut
  | _ => .ret ([], pos)

/-- Go `parseAttributes`: the loop, with the map built so far; one unit of
fuel per iteration. -/
def parseAttributes (html : List Nat) :
    Nat → Nat → List (List Nat × List Nat) → Outcome (List (List Nat × List Nat) × Nat)
  | 0, _, _ => .fuelOut
  | fuel + 1, pos, attributes =>
    match html[pos]? with
    | none => .ret (attributes, pos)
    | some 62 => .ret (attributes, pos)
    | some _ =>
      let pos := skipWhitespace html pos
      match parseTagName html pos with
      | .ret (name, pos) =>
        match html[pos]? with
        | some 61 =>
          match parseAttributeValue html (pos + 1) with
          | .ret (value, pos) => parseAttributes html fuel pos (mapSet attributes name value)
          | .panic => .panic
          | .fuelOut => .fuelOut
        | _ => parseAttributes html fuel pos (mapSet attributes name [])
      | .panic => .panic
      | .fuelOut => .fuelOut

/-- Go `parseText`: the text node (or nil) and the new cursor. -/
def parseText (html : List Nat) (pos : Nat) : Outcome (Option Node × Nat) :=
  let start := pos
  let pos := scanWhile (fun b => b != 60) html (html.length - pos) pos
  match slice html start pos with
  | .ret s =>
    let content := TrimSpace s
    if content = [] then .ret (none, pos)
    else .ret (some (.mk .TextNode [] [] [] content), pos)
  | .panic => .panic
  | .fuelOut => .fuelOut

mutual

/-- Go `parseNodes`: the loop, with `root.Children` built so far; one unit of
fuel per iteration. -/
def parseNodes (html : List Nat) :
    Nat → Nat → List Node → Outcome (Except GoError Node × Nat)
  | 0, _, _ => .fuelOut
  | fuel + 1, pos, children =>
    if pos < html.length then
      let pos := skipWhitespace html pos
      match html[pos]? with
      | some 60 =>
        match html[pos + 1]? with
        | none => .panic
        | some 47 =>
          match parseTagName html (pos + 2) with
          | .ret (_, pos) => .ret (.ok (.mk .ElementNode (ascii "root") [] children []), pos + 1)
          | .panic => .panic
          | .fuelOut => .fuelOut
        | some _ =>
          match parseElement html fuel pos with
          | .ret (.ok child, pos) => parseNodes html fuel pos (children ++ [child])
          | .ret (.error err, pos) => .ret (.error err, pos)
          | .panic => .panic
          | .fuelOut => .fuelOut
      | _ =>
        match parseText html pos with
        | .ret (some textNode, pos) => parseNodes html fuel pos (children ++ [textNode])
        | .ret (none, pos) => parseNodes html fuel pos children
        | .panic => .panic
        | .fuelOut => .fuelOut
    else .ret (.ok (.mk .ElementNode (ascii "root") [] children []), pos)

/-- Go `parseElement`. -/
def parseElement (html : List Nat) :
    Nat → Nat → Outcome (Except GoError Node × Nat)
  | 0, _ => .fuelOut
  | fuel + 1, pos =>
    match parseTagName html (pos + 1) with
    | .ret (tag, pos) =>
      match parseAttributes html (fuel + 1) pos [] with
      | .ret (attributes, pos) =>
        match html[pos]? with
        | some 62 =>
          match parseNodes html fuel (pos + 1) [] with
          | .ret (.ok childNodes, pos) =>
            .ret (.ok (.mk .ElementNode tag attributes childNodes.Children []), pos)
          | .ret (.error err, pos) => .ret (.error err, pos)
          | .panic => .panic
          | .fuelOut => .fuelOut
        | _ => .ret (.ok (.mk .ElementNode tag attributes [] []), pos)
      | .panic => .panic
      | .fuelOut => .fuelOut
    | .panic => .panic
    | .fuelOut => .fuelOut

end

/-- Go `NewParser(html).Parse()`: what the call does, without the cursor. -/
def Parse (fuel : Nat) (html : List Nat) : Outcome (Except GoError Node) :=
  match parseNodes html fuel 0 [] with
  | .ret (r, _) => .ret r
  | .panic => .panic
  | .fuelOut => .fuelOut



/-! ## The trees and the texts the statements speak of -/

/-- The node `parseNodes` returns: an element tagged `root` around the children. -/
def rootNode (children : List Node) : Node :=
  .mk .ElementNode (ascii "root") [] children []

/-- An element node as `parseElement` builds it. -/
def element (tag : List Nat) (attributes : List (List Nat × List Nat))
    (children : List Node) : Node :=
  .mk .ElementNode tag attributes children []

/-- A text node as `parseText` builds it. -/
def text (content : List Nat) : Node :=
  .mk .TextNode [] [] [] content

/-- A string with its leading and its trailing white space removed, white
space being the bytes `unicode.IsSpace` accepts. -/
def trimWhitespace (c : List Nat) : List Nat :=
  ((c.dropWhile isSpace).reverse.dropWhile isSpace).reverse

/-- The text ` name="value"` of one attribute in an opening tag. -/
def attributeText (nv : List Nat × List Nat) : List Nat :=
  ascii " " ++ nv.1 ++ ascii "=\"" ++ nv.2 ++ ascii "\""

/-- The text of a list of attributes in an opening tag. -/
def attributesText : List (List Nat × List Nat) → List Nat
  | [] => []
  | nv :: l => attributeText nv ++ attributesText l

/-! ## The serializer -/

/-- Go `strings.Repeat(s, count)`. -/
def Repeat (s : List Nat) : Nat → List Nat
  | 0 => []
  | count + 1 => s ++ Repeat s count

mutual

/-- Go `printNode`, returning the bytes it writes to standard output.  Go
leaves the order in which `range` visits a map unspecified: `order path m` is
the order in which the attributes `m` of the node at `path` (the child indices
from the printed node down) are visited. -/
def printNode (order : List Nat → List (List Nat × List Nat) → List (List Nat × List Nat))
    (path : List Nat) : Node → Nat → List Nat
  | .mk .ElementNode tag attributes children _, indent =>
    Repeat (ascii "  ") indent ++ ascii "<" ++ tag ++
      attributesText (order path attributes) ++ ascii ">\n" ++
      printChildren order path 0 children (indent + 1) ++
      Repeat (ascii "  ") indent ++ ascii "</" ++ tag ++ ascii ">\n"
  | .mk .TextNode _ _ _ content, indent =>
    Repeat (ascii "  ") indent ++ content ++ ascii "\n"

/-- The loop `for _, child := range node.Children` of `printNode`, from the
child of index `i` on. -/
def printChildren (order : List Nat → List (List Nat × List Nat) → List (List Nat × List Nat))
    (path : List Nat) (i : Nat) : List Node → Nat → List Nat
  | [], _ => []
  | child :: rest, indent =>
    printNode order (path ++ [i]) child indent ++ printChildren order path (i + 1) rest indent

end

/-- Two attribute maps hold the same pairs. -/
def mapEquiv (a b : List (List Nat × List Nat)) : Bool :=
  a.all (fun kv => mapGet b kv.1 == some kv.2) && b.all (fun kv => mapGet a kv.1 == some kv.2)

mutual

/-- Structural equality of two trees, the attributes compared as mappings. -/
def Node.equiv : Node → Node → Bool
  | .mk t1 tag1 a1 c1 s1, .mk t2 tag2 a2 c2 s2 =>
    decide (t1 = t2) && decide (tag1 = tag2) && mapEquiv a1 a2 && equivList c1 c2 &&
      decide (s1 = s2)

/-- Structural equality of two sequences of children. -/
def equivList : List Node → List Node → Bool
  | [], [] => true
  | x :: xs, y :: ys => x.equiv y && equivList xs ys
  | _, _ => false

end

/-- The text of a text node `parseText` builds from an ASCII buffer: not
empty, ASCII, without `<`, without white space at either end. -/
def TextOK (content : List Nat) : Prop :=
  content ≠ [] ∧ (∀ b ∈ content, b ≠ 60 ∧ b < 128) ∧
    (∀ b, content.head? = some b → isSpace b = false) ∧
    (∀ b, content.getLast? = some b → isSpace b = false)

/-- The attribute map `parseAttributes` builds: distinct alphanumeric names
(possibly empty) and values without a double quote. -/
def AttrsOK (m : List (List Nat × List Nat)) : Prop :=
  (m.map Prod.fst).Nodup ∧ ∀ kv ∈ m, (∀ b ∈ kv.1, isAlnum b = true) ∧ ∀ b ∈ kv.2, b ≠ 34

/-- No two neighbours in a sequence of children are both text nodes. -/
def NoAdjText (cs : List Node) : Prop :=
  List.Chain' (fun a b => ¬ (a.Type_ = .TextNode ∧ b.Type_ = .TextNode)) cs

mutual

/-- The shape of the nodes `Parse` builds from an ASCII buffer. -/
def Node.WF : Node → Prop
  | .mk .ElementNode tag attributes children content =>
    (∀ b ∈ tag, isAlnum b = true) ∧ AttrsOK attributes ∧ content = [] ∧
      WFList children ∧ NoAdjText children
  | .mk .TextNode tag attributes children content =>
    tag = [] ∧ attributes = [] ∧ children = [] ∧ TextOK content

/-- Every node of a sequence of children has the shape `Node.WF`. -/
def WFList : List Node → Prop
  | [] => True
  | c :: cs => c.WF ∧ WFList cs

end

mutual

/-- The number of nodes of a tree. -/
def Node.size : Node → Nat
  | .mk _ _ _ children _ => 1 + sizeList children

/-- The number of nodes of a sequence of trees. -/
def sizeList : List Node → Nat
  | [] => 0
  | c :: cs => c.size + sizeList cs

end

/-- What `parseNodes` has built so far: nodes of the right shape, no two text
nodes side by side, and after a text node the cursor is at a `<` or at the
end of the buffer. -/
def AccOK (html : List Nat) (acc : List Node) (pos : Nat) : Prop :=
  WFList acc ∧ NoAdjText acc ∧
    ∀ l, acc.getLast? = some l → l.Type_ = .TextNode →
      html[pos]? = none ∨ html[pos]? = some 60

/-- The opening tags `<t1>...<tn>` of a list of tag names. -/
def openTags : List (List Nat) → List Nat
  | [] => []
  | t :: ts => ascii "<" ++ t ++ ascii ">" ++ openTags ts

/-- The closing tags `</tn>...</t1>` of a list of tag names `t1..tn`. -/
def closeTags : List (List Nat) → List Nat
  | [] => []
  | t :: ts => closeTags ts ++ ascii "</" ++ t ++ ascii ">"

/-- The children sequence holding the elements `t1..tn` nested in one another
around the children `inner` of `tn`. -/
def nest : List (List Nat) → List Node → List Node
  | [], inner => inner
  | t :: ts, inner => [element t [] (nest ts inner)]

/-- The children `parseNodes` builds from text `c` without `<`: nothing, or
one text node. -/
def textChildren (c : List Nat) : List Node :=
  if TrimSpace (c.dropWhile isSpace) = [] then []
  else [text (TrimSpace (c.dropWhile isSpace))]

/-- The lines of a text: the segments its newlines end, and what follows the
last newline when that is not empty. -/
def lines : List Nat → List (List Nat)
  | [] => []
  | b :: s =>
    if b = 10 then [] :: lines s
    else
      match lines s with
      | [] => [[b]]
      | l :: ls => (b :: l) :: ls

mutual

/-- The lines the serializer is to emit for a node at depth `indent`, one per
text node and two per element, each after two spaces per depth level; `order`
as in `printNode`. -/
def renderLines (order : List Nat → List (List Nat × List Nat) → List (List Nat × List Nat))
    (path : List Nat) : Node → Nat → List (List Nat)
  | .mk .ElementNode tag attributes children _, indent =>
    (Repeat (ascii "  ") indent ++ ascii "<" ++ tag ++
        attributesText (order path attributes) ++ ascii ">") ::
      (renderChildrenLines order path 0 children (indent + 1) ++
        [Repeat (ascii "  ") indent ++ ascii "</" ++ tag ++ ascii ">"])
  | .mk .TextNode _ _ _ content, indent => [Repeat (ascii "  ") indent ++ content]

/-- The lines for the children of a node, from the child of index `i` on. -/
def renderChildrenLines
    (order : List Nat → List (List Nat × List Nat) → List (List Nat × List Nat))
    (path : List Nat) (i : Nat) : List Node → Nat → List (List Nat)
  | [], _ => []
  | child :: rest, indent =>
    renderLines order (path ++ [i]) child indent ++
      renderChildrenLines order path (i + 1) rest indent

end

mutual

/-- No text that the serializer prints for the tree holds a newline: no tag,
attribute name or attribute value of an element, no content of a text node. -/
def Node.NoNewline : Node → Prop
  | .mk .ElementNode tag attributes children _ =>
    10 ∉ tag ∧ (∀ kv ∈ attributes, 10 ∉ kv.1 ∧ 10 ∉ kv.2) ∧ NoNewlineList children
  | .mk .TextNode _ _ _ content => 10 ∉ content

/-- No node of a sequence of trees prints a newline of its own. -/
def NoNewlineList : List Node → Prop
  | [] => True
  | c :: cs => c.NoNewline ∧ NoNewlineList cs

end

/-- The content of a text node as the invariant has it: not empty, without
`<`, and neither the first nor the last code point of it, as Go decodes its
UTF-8, is white space for `unicode.IsSpace`. -/
def TextShape (content : List Nat) : Prop :=
  content ≠ [] ∧ 60 ∉ content ∧
    isSpaceRune (DecodeRuneInString content).1 = false ∧
    isSpaceRune (DecodeLastRuneInString content).1 = false

mutual

/-- The invariant of the tree at every node: a text node has an empty tag, no
attribute, no child and a content of the shape `TextShape`; an element has an
empty content and children that satisfy the invariant. -/
def Node.Shaped : Node → Prop
  | .mk .ElementNode _ _ children content => content = [] ∧ ShapedList children
  | .mk .TextNode tag attributes children content =>
    tag = [] ∧ attributes = [] ∧ children = [] ∧ TextShape content

/-- Every node of a sequence of children satisfies `Node.Shaped`. -/
def ShapedList : List Node → Prop
  | [] => True
  | c :: cs => c.Shaped ∧ ShapedList cs

end

/-- The cursor `pos` is inside the buffer and `rest` is what is left to read. -/
def At (html : List Nat) (pos : Nat) (rest : List Nat) : Prop :=
  pos ≤ html.length ∧ html.drop pos = rest

/-! ## Reading the buffer at the cursor -/

theorem At.start (html : List Nat) : At html 0 html := ⟨Nat.zero_le _, rfl⟩

theorem At.length_eq {html : List Nat} {pos : Nat} {rest : List Nat} (h : At html pos rest) :
    html.length = pos + rest.length := by
  obtain ⟨h1, h2⟩ := h
  subst h2
  simp
  omega

theorem At.advance {html : List Nat} {pos : Nat} {a rest : List Nat}
    (h : At html pos (a ++ rest)) : At html (pos + a.length) rest := by
  have hl := h.length_eq
  obtain ⟨h1, h2⟩ := h
  refine ⟨by simp at hl; omega, ?_⟩
  rw [← List.drop_drop, h2]
  simp

theorem At.next {html : List Nat} {pos b : Nat} {rest : List Nat}
    (h : At html pos (b :: rest)) : At html (pos + 1) rest :=
  At.advance (a := [b]) h

theorem At.get {html : List Nat} {pos b : Nat} {r : List Nat}
    (h : At html pos (b :: r)) : html[pos]? = some b := by
  obtain ⟨_, h2⟩ := h
  have := congrArg List.head? h2
  simpa [List.head?_drop] using this

theorem At.get_nil {html : List Nat} {pos : Nat} (h : At html pos []) :
    html[pos]? = none := by
  have := h.length_eq
  simp at this
  simp [this]

theorem At.unique {html : List Nat} {p q : Nat} {rest : List Nat}
    (hp : At html p rest) (hq : At html q rest) : p = q := by
  have := hp.length_eq
  have := hq.length_eq
  omega

theorem At.lt {html : List Nat} {pos b : Nat} {rest : List Nat}
    (h : At html pos (b :: rest)) : pos < html.length := by
  have := h.length_eq
  simp at this
  omega

/-! ## The scanning loops -/

theorem scanWhile_eq (f : Nat → Bool) (html : List Nat) :
    ∀ n pos, html.length - pos ≤ n →
      scanWhile f html n pos = pos + ((html.drop pos).takeWhile f).length := by
  intro n
  induction n with
  | zero =>
    intro pos h
    have : html.drop pos = [] := by simp; omega
    simp [scanWhile, this]
  | succ n ih =>
    intro pos h
    unfold scanWhile
    cases hb : html[pos]? with
    | none =>
      have : html.drop pos = [] := by
        rw [List.getElem?_eq_none_iff] at hb
        simp; omega
      simp [this]
    | some b =>
      obtain ⟨hlt, hget⟩ := List.getElem?_eq_some_iff.mp hb
      have hd : html.drop pos = b :: html.drop (pos + 1) := by
        rw [← hget]; exact List.drop_eq_getElem_cons hlt
      by_cases hf : f b = true
      · simp only [hf, if_true]
        rw [ih (pos + 1) (by omega), hd, List.takeWhile_cons, hf]
        simp; omega
      · simp [hf, hd, List.takeWhile_cons]

theorem takeWhile_run (f : Nat → Bool) (w rest : List Nat)
    (hw : ∀ b ∈ w, f b = true) (hr : ∀ b, rest.head? = some b → f b = false) :
    (w ++ rest).takeWhile f = w := by
  induction w with
  | nil =>
    cases rest with
    | nil => rfl
    | cons b r => simp [List.takeWhile_cons, hr b]
  | cons a w ih =>
    have ha := hw a (by simp)
    simp only [List.cons_append, List.takeWhile_cons, ha, if_true]
    rw [ih (fun b hb => hw b (by simp [hb]))]

/-- A scanning loop that starts before a run `w` of bytes satisfying `f`,
followed by the end of the buffer or by a byte that fails `f`, stops right
after `w`. -/
theorem scanWhile_at {f : Nat → Bool} {html : List Nat} {pos : Nat} {w rest : List Nat}
    (h : At html pos (w ++ rest)) (hw : ∀ b ∈ w, f b = true)
    (hr : ∀ b, rest.head? = some b → f b = false) :
    scanWhile f html (html.length - pos) pos = pos + w.length := by
  rw [scanWhile_eq f html _ pos (le_refl _), h.2, takeWhile_run f w rest hw hr]

theorem slice_at {html : List Nat} {pos : Nat} {w rest : List Nat}
    (h : At html pos (w ++ rest)) : slice html pos (pos + w.length) = .ret w := by
  have hl := h.length_eq
  simp at hl
  unfold slice
  rw [if_pos ⟨by omega, by omega⟩, h.2]
  simp

theorem skipWhitespace_at {html : List Nat} {pos : Nat} {w rest : List Nat}
    (h : At html pos (w ++ rest)) (hw : ∀ b ∈ w, isSpace b = true)
    (hr : ∀ b, rest.head? = some b → isSpace b = false) :
    skipWhitespace html pos = pos + w.length :=
  scanWhile_at h hw hr

theorem parseTagName_at {html : List Nat} {pos : Nat} {name rest : List Nat}
    (h : At html pos (name ++ rest)) (hn : ∀ b ∈ name, isAlnum b = true)
    (hr : ∀ b, rest.head? = some b → isAlnum b = false) :
    parseTagName html pos = .ret (name, pos + name.length) := by
  unfold parseTagName
  simp only [scanWhile_at h hn hr, slice_at h]

theorem parseAttributeValue_at {html : List Nat} {pos : Nat} {v rest : List Nat}
    (h : At html pos (34 :: (v ++ 34 :: rest))) (hv : ∀ b ∈ v, b ≠ 34) :
    parseAttributeValue html pos = .ret (v, pos + 1 + v.length + 1) := by
  unfold parseAttributeValue
  have h1 : At html (pos + 1) (v ++ 34 :: rest) := h.next
  simp only [h.get]
  rw [scanWhile_at h1 (by simpa using hv) (by simp), slice_at h1]

theorem parseText_at {html : List Nat} {pos : Nat} {c rest : List Nat}
    (h : At html pos (c ++ rest)) (hc : ∀ b ∈ c, b ≠ 60)
    (hr : ∀ b, rest.head? = some b → b = 60) :
    parseText html pos =
      .ret (if TrimSpace c = [] then none else some (.mk .TextNode [] [] [] (TrimSpace c)),
        pos + c.length) := by
  unfold parseText
  simp only [scanWhile_at h (f := fun b => b != 60) (by simpa using hc) (by simpa using hr),
    slice_at h]
  by_cases ht : TrimSpace c = [] <;> simp [ht]


/-! ## One step of each production -/

theorem isSpace_not_62 {b : Nat} (h : isSpace b = true) : b ≠ 62 := by
  rintro rfl; revert h; decide

theorem isAlnum_not_62 {b : Nat} (h : isAlnum b = true) : b ≠ 62 := by
  rintro rfl; revert h; decide

theorem isAlnum_not_47 {b : Nat} (h : isAlnum b = true) : b ≠ 47 := by
  rintro rfl; revert h; decide

theorem isAlnum_not_space {b : Nat} (h : isAlnum b = true) : isSpace b = false := by
  simp only [isAlnum, isLetter, isDigit, Bool.or_eq_true, Bool.and_eq_true,
    decide_eq_true_eq, beq_iff_eq] at h
  simp only [isSpace, isSpaceRune, Bool.or_eq_false_iff, Bool.and_eq_false_iff,
    decide_eq_false_iff_not, beq_eq_false_iff_ne]
  split <;> simp <;> omega

/-- The loop of `parseNodes` ends when the cursor is at or past the end. -/
theorem parseNodes_end (html : List Nat) (fuel pos : Nat) (children : List Node)
    (h : html.length ≤ pos) :
    parseNodes html (fuel + 1) pos children = .ret (.ok (rootNode children), pos) := by
  rw [parseNodes, if_neg (by omega)]
  rfl

/-- A closing tag ends the loop of `parseNodes`: white space, `</`, a name and
one more byte are consumed. -/
theorem parseNodes_close {html : List Nat} {pos p : Nat} {w name rest : List Nat}
    (fuel : Nat) (children : List Node)
    (h : At html pos (w ++ 60 :: 47 :: (name ++ rest))) (hp : At html p rest)
    (hw : ∀ b ∈ w, isSpace b = true) (hn : ∀ b ∈ name, isAlnum b = true)
    (hr : ∀ b, rest.head? = some b → isAlnum b = false) :
    parseNodes html (fuel + 1) pos children = .ret (.ok (rootNode children), p + 1) := by
  have hlen := h.length_eq
  simp at hlen
  have h1 : At html (pos + w.length) (60 :: 47 :: (name ++ rest)) := h.advance
  have h2 : At html (pos + w.length + 1 + 1) (name ++ rest) := h1.next.next
  have e : p = pos + w.length + 1 + 1 + name.length := At.unique hp h2.advance
  rw [parseNodes, if_pos (by omega)]
  simp only [skipWhitespace_at h hw (by simp; decide), h1.get, h1.next.get]
  rw [show pos + w.length + 2 = pos + w.length + 1 + 1 from rfl, parseTagName_at h2 hn hr, e]
  rfl

/-- An opening `<` sends the loop of `parseNodes` to `parseElement`. -/
theorem parseNodes_elem {html : List Nat} {pos q : Nat} {w rest : List Nat} {b : Nat}
    (fuel : Nat) (children : List Node)
    (h : At html pos (w ++ 60 :: rest)) (hq : At html q (60 :: rest))
    (hw : ∀ b ∈ w, isSpace b = true) (hb0 : rest.head? = some b) (hb : b ≠ 47)
    {child : Node} {p : Nat}
    (hE : parseElement html fuel q = .ret (.ok child, p)) :
    parseNodes html (fuel + 1) pos children = parseNodes html fuel p (children ++ [child]) := by
  have hlen := h.length_eq
  simp at hlen
  have h1 : At html (pos + w.length) (60 :: rest) := h.advance
  have e : q = pos + w.length := At.unique hq h1
  subst e
  obtain ⟨r', rfl⟩ : ∃ r', rest = b :: r' := by
    cases rest with
    | nil => simp at hb0
    | cons x r' => simp at hb0; exact ⟨r', by rw [hb0]⟩
  rw [parseNodes, if_pos (by omega)]
  simp only [skipWhitespace_at h hw (by simp; decide), h1.get, h1.next.get, hE]

/-- Text up to the next `<` (or the end) is handed to `parseText`. -/
theorem parseNodes_text {html : List Nat} {pos p : Nat} {w c rest : List Nat}
    (fuel : Nat) (children : List Node)
    (h : At html pos (w ++ (c ++ rest))) (hp : At html p rest)
    (hw : ∀ b ∈ w, isSpace b = true)
    (hc : ∀ b ∈ c, b ≠ 60) (hc0 : ∀ b, c.head? = some b → isSpace b = false)
    (hne : c ≠ []) (hr : ∀ b, rest.head? = some b → b = 60) :
    parseNodes html (fuel + 1) pos children =
      parseNodes html fuel p
        (if TrimSpace c = [] then children else children ++ [text (TrimSpace c)]) := by
  have hlen := h.length_eq
  have hcl : 0 < c.length := List.length_pos.mpr hne
  simp at hlen
  have h1 : At html (pos + w.length) (c ++ rest) := h.advance
  have e : p = pos + w.length + c.length := At.unique hp h1.advance
  obtain ⟨b, c', rfl⟩ := List.exists_cons_of_ne_nil hne
  have hb60 : b ≠ 60 := hc b (by simp)
  rw [parseNodes, if_pos (by omega)]
  have hsk : skipWhitespace html pos = pos + w.length :=
    skipWhitespace_at h hw (by simpa using hc0)
  have hget : html[pos + w.length]? = some b := At.get (r := c' ++ rest) (by simpa using h1)
  simp only [hsk, hget, parseText_at h1 hc hr, e, text]
  split
  · rename_i heq; simp at heq; exact absurd heq hb60
  · by_cases ht : TrimSpace (b :: c') = [] <;> simp [ht]

/-- White space up to the end of the buffer: `parseText` finds nothing and the
loop ends. -/
theorem parseNodes_trailing {html : List Nat} {pos : Nat} {w : List Nat}
    (fuel : Nat) (children : List Node)
    (h : At html pos w) (hw : ∀ b ∈ w, isSpace b = true) (hne : w ≠ []) :
    parseNodes html (fuel + 2) pos children =
      .ret (.ok (rootNode children), html.length) := by
  have hlen := h.length_eq
  have hwl : 0 < w.length := List.length_pos.mpr hne
  have h0 : At html pos (w ++ []) := by simpa using h
  have h1 : At html (pos + w.length) ([] ++ []) := by simpa using h0.advance
  rw [parseNodes, if_pos (by omega)]
  have hT : TrimSpace [] = [] := rfl
  simp only [skipWhitespace_at h0 hw (by simp), At.get_nil (by simpa using h1),
    parseText_at h1 (by simp) (by simp), hT, if_true]
  simp only [List.length_nil, Nat.add_zero]
  rw [parseNodes_end html fuel _ children (by omega)]
  rw [hlen]

/-- The attribute loop ends at `>` and at the end of the buffer. -/
theorem parseAttributes_done {html : List Nat} {pos : Nat} (fuel : Nat)
    (m : List (List Nat × List Nat))
    (h : html[pos]? = none ∨ html[pos]? = some 62) :
    parseAttributes html (fuel + 1) pos m = .ret (m, pos) := by
  rw [parseAttributes]
  rcases h with h | h <;> simp [h]

/-- One round of the attribute loop over `name="value"`. -/
theorem parseAttributes_pair {html : List Nat} {pos p : Nat} {w name v rest : List Nat}
    (fuel : Nat) (m : List (List Nat × List Nat))
    (h : At html pos (w ++ (name ++ 61 :: 34 :: (v ++ 34 :: rest)))) (hp : At html p rest)
    (hw : ∀ b ∈ w, isSpace b = true) (hn : ∀ b ∈ name, isAlnum b = true)
    (hv : ∀ b ∈ v, b ≠ 34) :
    parseAttributes html (fuel + 1) pos m = parseAttributes html fuel p (mapSet m name v) := by
  have h1 : At html (pos + w.length) (name ++ 61 :: 34 :: (v ++ 34 :: rest)) := h.advance
  have h2 : At html (pos + w.length + name.length) (61 :: 34 :: (v ++ 34 :: rest)) := h1.advance
  have h3 : At html (pos + w.length + name.length + 1) (34 :: (v ++ 34 :: rest)) := h2.next
  have e : p = pos + w.length + name.length + 1 + 1 + v.length + 1 :=
    At.unique hp h3.next.advance.next
  have hfirst : ∃ b r, w ++ (name ++ 61 :: 34 :: (v ++ 34 :: rest)) = b :: r ∧ b ≠ 62 := by
    cases w with
    | cons b w' => exact ⟨b, _, rfl, isSpace_not_62 (hw b (by simp))⟩
    | nil =>
      cases name with
      | cons b n' => exact ⟨b, _, rfl, isAlnum_not_62 (hn b (by simp))⟩
      | nil => exact ⟨61, _, rfl, by decide⟩
  obtain ⟨b, r, hbr, hb⟩ := hfirst
  have hget : html[pos]? = some b := At.get (r := r) (by rw [← hbr]; exact h)
  have hsk : skipWhitespace html pos = pos + w.length := by
    refine skipWhitespace_at h hw ?_
    cases name with
    | cons b n' => intro b' hb'; simp at hb'; subst hb'; exact isAlnum_not_space (hn _ (by simp))
    | nil => simp; decide
  rw [parseAttributes]
  simp only [hget, hsk, parseTagName_at h1 hn (by simp; decide), h2.get,
    parseAttributeValue_at h3 hv, e]

/-- The body of `parseElement` on `<tag`, an attribute list, `>` and children. -/
theorem parseElement_open {html : List Nat} {pos q : Nat} {tag rest : List Nat}
    (fuel : Nat)
    (h : At html pos (60 :: (tag ++ rest))) (hq : At html q rest)
    (ht : ∀ b ∈ tag, isAlnum b = true) (hr : ∀ b, rest.head? = some b → isAlnum b = false)
    {attrs : List (List Nat × List Nat)} {p1 p2 : Nat} {childNodes : Node}
    (hA : parseAttributes html (fuel + 1) q [] = .ret (attrs, p1))
    (hgt : html[p1]? = some 62)
    (hN : parseNodes html fuel (p1 + 1) [] = .ret (.ok childNodes, p2)) :
    parseElement html (fuel + 1) pos =
      .ret (.ok (element tag attrs childNodes.Children), p2) := by
  have e : q = pos + 1 + tag.length := At.unique hq h.next.advance
  subst e
  rw [parseElement]
  simp only [parseTagName_at h.next ht hr, hA, hgt, hN, element]

/-- The body of `parseElement` when the buffer ends after the attribute list. -/
theorem parseElement_degraded {html : List Nat} {pos q : Nat} {tag rest : List Nat}
    (fuel : Nat)
    (h : At html pos (60 :: (tag ++ rest))) (hq : At html q rest)
    (ht : ∀ b ∈ tag, isAlnum b = true) (hr : ∀ b, rest.head? = some b → isAlnum b = false)
    {attrs : List (List Nat × List Nat)} {p1 : Nat}
    (hA : parseAttributes html (fuel + 1) q [] = .ret (attrs, p1))
    (hgt : html[p1]? = none) :
    parseElement html (fuel + 1) pos = .ret (.ok (element tag attrs []), p1) := by
  have e : q = pos + 1 + tag.length := At.unique hq h.next.advance
  subst e
  rw [parseElement]
  simp only [parseTagName_at h.next ht hr, hA, hgt, element]

/-- An element without attributes: `<tag>`, then the children. -/
theorem parseElement_plain {html : List Nat} {pos q : Nat} {tag rest : List Nat}
    (fuel : Nat)
    (h : At html pos (60 :: (tag ++ 62 :: rest))) (hq : At html q rest)
    (ht : ∀ b ∈ tag, isAlnum b = true)
    {p2 : Nat} {childNodes : Node}
    (hN : parseNodes html fuel q [] = .ret (.ok childNodes, p2)) :
    parseElement html (fuel + 1) pos =
      .ret (.ok (element tag [] childNodes.Children), p2) := by
  have h1 : At html (pos + 1 + tag.length) (62 :: rest) := h.next.advance
  have e : q = pos + 1 + tag.length + 1 := At.unique hq h1.next
  subst e
  exact parseElement_open fuel h h1 ht (by simp; decide)
    (parseAttributes_done fuel [] (Or.inr h1.get)) h1.get hN


/-! ## Whole buffers -/

theorem head_of_alnum {a : List Nat} (X : List Nat) (ha : a ≠ [])
    (haa : ∀ x ∈ a, isAlnum x = true) :
    ∃ b, (a ++ X).head? = some b ∧ b ≠ 47 := by
  obtain ⟨b, a', rfl⟩ := List.exists_cons_of_ne_nil ha
  exact ⟨b, by simp, isAlnum_not_47 (haa b (by simp))⟩

theorem Parse_of_parseNodes {html : List Nat} {fuel : Nat} {r : Except GoError Node} {p : Nat}
    (h : parseNodes html fuel 0 [] = .ret (r, p)) : Parse fuel html = .ret r := by
  simp only [Parse, h]

/-- C2: for non-empty alphanumeric tag names `a` and `b`, `Parse` on
`<a><b></b></a>` returns a root whose only child is the element `a` without
attributes, whose only child is the element `b` without attributes and without
children. -/
theorem Parse_nested_pair (a b : List Nat) (ha : a ≠ []) (hb : b ≠ [])
    (haa : ∀ x ∈ a, isAlnum x = true) (hbb : ∀ x ∈ b, isAlnum x = true)
    (fuel : Nat) (hf : 5 ≤ fuel) :
    Parse fuel (ascii "<" ++ a ++ ascii ">" ++ ascii "<" ++ b ++ ascii ">" ++
        ascii "</" ++ b ++ ascii ">" ++ ascii "</" ++ a ++ ascii ">") =
      .ret (.ok (rootNode [element a [] [element b [] []]])) := by
  obtain ⟨n, rfl⟩ : ∃ n, fuel = n + 5 := ⟨fuel - 5, by omega⟩
  have e : ascii "<" ++ a ++ ascii ">" ++ ascii "<" ++ b ++ ascii ">" ++
        ascii "</" ++ b ++ ascii ">" ++ ascii "</" ++ a ++ ascii ">" =
      60 :: (a ++ 62 :: 60 :: (b ++ 62 :: 60 :: 47 :: (b ++ 62 :: 60 :: 47 :: (a ++ [62])))) := by
    simp [show ascii "<" = [60] from rfl, show ascii ">" = [62] from rfl,
      show ascii "</" = [60, 47] from rfl]
  rw [e]
  generalize hh : 60 :: (a ++ 62 :: 60 :: (b ++ 62 :: 60 :: 47 ::
    (b ++ 62 :: 60 :: 47 :: (a ++ [62])))) = html
  have h0 : At html 0 (60 :: (a ++ 62 :: 60 :: (b ++ 62 :: 60 :: 47 ::
      (b ++ 62 :: 60 :: 47 :: (a ++ [62]))))) := hh ▸ At.start _
  have h1 := h0.next.advance.next
  have h2 := h1.next.advance.next
  have h3 := h2.next.next.advance
  have h4 := h3.next.next.next.advance
  have h5 := h4.next
  obtain ⟨a0, ha0, ha47⟩ := head_of_alnum (62 :: 60 :: (b ++ 62 :: 60 :: 47 ::
      (b ++ 62 :: 60 :: 47 :: (a ++ [62])))) ha haa
  obtain ⟨b0, hb0, hb47⟩ := head_of_alnum (62 :: 60 :: 47 ::
      (b ++ 62 :: 60 :: 47 :: (a ++ [62]))) hb hbb
  -- the children of `b`: the closing tag `</b>`
  have k1 := parseNodes_close (w := []) n [] h2 h3 (by simp) hbb (by simp; decide)
  have k2 := parseElement_plain (n + 1) h1 h2 hbb k1
  -- the children of `a`: the element `b`, then the closing tag `</a>`
  have k3 := parseNodes_elem (w := []) (n + 2) [] h1 h1 (by simp) hb0 hb47 k2
  rw [parseNodes_close (w := []) (n + 1) _ h3.next h4 (by simp) haa (by simp; decide)] at k3
  have k4 := parseElement_plain (n + 3) h0 h1 haa k3
  -- the top level: the element `a`, then the end of the buffer
  have k5 := parseNodes_elem (w := []) (n + 4) [] h0 h0 (by simp) ha0 ha47 k4
  rw [parseNodes_end html (n + 3) _ _ (by have := h5.length_eq; simp at this; omega)] at k5
  exact Parse_of_parseNodes k5


theorem Parse_nested_pair_witness :
    Parse 5 (ascii "<a><b></b></a>") =
      .ret (.ok (rootNode [element (ascii "a") [] [element (ascii "b") [] []]])) :=
  Parse_nested_pair (ascii "a") (ascii "b") (by decide) (by decide) (by decide) (by decide)
    5 (by decide)

/-- The tree of `<a><b></c></d>`, whatever the names `c` and `d` in the two
closing tags. -/
theorem Parse_pair_any_close (a b c d : List Nat) (ha : a ≠ []) (hb : b ≠ [])
    (haa : ∀ x ∈ a, isAlnum x = true) (hbb : ∀ x ∈ b, isAlnum x = true)
    (hcc : ∀ x ∈ c, isAlnum x = true) (hdd : ∀ x ∈ d, isAlnum x = true) (n : Nat) :
    Parse (n + 5) (60 :: (a ++ 62 :: 60 :: (b ++ 62 :: 60 :: 47 ::
        (c ++ 62 :: 60 :: 47 :: (d ++ [62]))))) =
      .ret (.ok (rootNode [element a [] [element b [] []]])) := by
  generalize hh : 60 :: (a ++ 62 :: 60 :: (b ++ 62 :: 60 :: 47 ::
    (c ++ 62 :: 60 :: 47 :: (d ++ [62])))) = html
  have h0 : At html 0 (60 :: (a ++ 62 :: 60 :: (b ++ 62 :: 60 :: 47 ::
      (c ++ 62 :: 60 :: 47 :: (d ++ [62]))))) := hh ▸ At.start _
  have h1 := h0.next.advance.next
  have h2 := h1.next.advance.next
  have h3 := h2.next.next.advance
  have h4 := h3.next.next.next.advance
  have h5 := h4.next
  obtain ⟨a0, ha0, ha47⟩ := head_of_alnum (62 :: 60 :: (b ++ 62 :: 60 :: 47 ::
      (c ++ 62 :: 60 :: 47 :: (d ++ [62])))) ha haa
  obtain ⟨b0, hb0, hb47⟩ := head_of_alnum (62 :: 60 :: 47 ::
      (c ++ 62 :: 60 :: 47 :: (d ++ [62]))) hb hbb
  have k1 := parseNodes_close (w := []) n [] h2 h3 (by simp) hcc (by simp; decide)
  have k2 := parseElement_plain (n + 1) h1 h2 hbb k1
  have k3 := parseNodes_elem (w := []) (n + 2) [] h1 h1 (by simp) hb0 hb47 k2
  rw [parseNodes_close (w := []) (n + 1) _ h3.next h4 (by simp) hdd (by simp; decide)] at k3
  have k4 := parseElement_plain (n + 3) h0 h1 haa k3
  have k5 := parseNodes_elem (w := []) (n + 4) [] h0 h0 (by simp) ha0 ha47 k4
  rw [parseNodes_end html (n + 3) _ _ (by have := h5.length_eq; simp at this; omega)] at k5
  exact Parse_of_parseNodes k5

/-- C8: for non-empty alphanumeric names `a`, `b` and `c`, `Parse` on
`<a><b></c>` returns, without panic and without a failure, the tree
root → `a` → `b` with `b` childless, which is the tree of `<a><b></b></a>`:
the name in the closing tag is read and dropped. -/
theorem Parse_mismatched_close (a b c : List Nat) (ha : a ≠ []) (hb : b ≠ [])
    (haa : ∀ x ∈ a, isAlnum x = true) (hbb : ∀ x ∈ b, isAlnum x = true)
    (hcc : ∀ x ∈ c, isAlnum x = true) (fuel : Nat) (hf : 5 ≤ fuel) :
    Parse fuel (ascii "<" ++ a ++ ascii ">" ++ ascii "<" ++ b ++ ascii ">" ++
        ascii "</" ++ c ++ ascii ">") =
      .ret (.ok (rootNode [element a [] [element b [] []]])) ∧
    Parse fuel (ascii "<" ++ a ++ ascii ">" ++ ascii "<" ++ b ++ ascii ">" ++
        ascii "</" ++ c ++ ascii ">") =
      Parse fuel (ascii "<" ++ a ++ ascii ">" ++ ascii "<" ++ b ++ ascii ">" ++
        ascii "</" ++ b ++ ascii ">" ++ ascii "</" ++ a ++ ascii ">") := by
  have main : Parse fuel (ascii "<" ++ a ++ ascii ">" ++ ascii "<" ++ b ++ ascii ">" ++
        ascii "</" ++ c ++ ascii ">") =
      .ret (.ok (rootNode [element a [] [element b [] []]])) := by
    obtain ⟨n, rfl⟩ : ∃ n, fuel = n + 5 := ⟨fuel - 5, by omega⟩
    have e : ascii "<" ++ a ++ ascii ">" ++ ascii "<" ++ b ++ ascii ">" ++
          ascii "</" ++ c ++ ascii ">" =
        60 :: (a ++ 62 :: 60 :: (b ++ 62 :: 60 :: 47 :: (c ++ [62]))) := by
      simp [show ascii "<" = [60] from rfl, show ascii ">" = [62] from rfl,
        show ascii "</" = [60, 47] from rfl]
    rw [e]
    generalize hh : 60 :: (a ++ 62 :: 60 :: (b ++ 62 :: 60 :: 47 :: (c ++ [62]))) = html
    have h0 : At html 0 (60 :: (a ++ 62 :: 60 :: (b ++ 62 :: 60 :: 47 :: (c ++ [62])))) :=
      hh ▸ At.start _
    have h1 := h0.next.advance.next
    have h2 := h1.next.advance.next
    have h3 := h2.next.next.advance
    have h4 := h3.next
    obtain ⟨a0, ha0, ha47⟩ :=
      head_of_alnum (62 :: 60 :: (b ++ 62 :: 60 :: 47 :: (c ++ [62]))) ha haa
    obtain ⟨b0, hb0, hb47⟩ := head_of_alnum (62 :: 60 :: 47 :: (c ++ [62])) hb hbb
    have hend : ∀ k ch, parseNodes html (k + 1) (0 + 1 + a.length + 1 + 1 + b.length + 1 + 1 + 1
        + c.length + 1) ch = .ret (.ok (rootNode ch), _) := fun k ch =>
      parseNodes_end html k _ ch (by have := h4.length_eq; simp at this; omega)
    -- the children of `b`: the closing tag `</c>`
    have k1 := parseNodes_close (w := []) n [] h2 h3 (by simp) hcc (by simp; decide)
    have k2 := parseElement_plain (n + 1) h1 h2 hbb k1
    -- the children of `a`: the element `b`, then the end of the buffer
    have k3 := parseNodes_elem (w := []) (n + 2) [] h1 h1 (by simp) hb0 hb47 k2
    rw [hend] at k3
    have k4 := parseElement_plain (n + 3) h0 h1 haa k3
    -- the top level: the element `a`, then the end of the buffer
    have k5 := parseNodes_elem (w := []) (n + 4) [] h0 h0 (by simp) ha0 ha47 k4
    rw [hend] at k5
    exact Parse_of_parseNodes k5
  refine ⟨main, ?_⟩
  obtain ⟨n, rfl⟩ : ∃ n, fuel = n + 5 := ⟨fuel - 5, by omega⟩
  have e : ascii "<" ++ a ++ ascii ">" ++ ascii "<" ++ b ++ ascii ">" ++
        ascii "</" ++ b ++ ascii ">" ++ ascii "</" ++ a ++ ascii ">" =
      60 :: (a ++ 62 :: 60 :: (b ++ 62 :: 60 :: 47 :: (b ++ 62 :: 60 :: 47 :: (a ++ [62])))) := by
    simp [show ascii "<" = [60] from rfl, show ascii ">" = [62] from rfl,
      show ascii "</" = [60, 47] from rfl]
  rw [main, e, Parse_pair_any_close a b b a ha hb haa hbb hbb haa n]

theorem Parse_mismatched_close_witness :
    Parse 5 (ascii "<a><b></a>") =
      .ret (.ok (rootNode [element (ascii "a") [] [element (ascii "b") [] []]])) ∧
    Parse 5 (ascii "<a><b></a>") = Parse 5 (ascii "<a><b></b></a>") :=
  Parse_mismatched_close (ascii "a") (ascii "b") (ascii "a") (by decide) (by decide)
    (by decide) (by decide) (by decide) 5 (by decide)

/-- C4: for a non-empty alphanumeric tag name `a` and a string `w` of spaces,
tabs, newlines and carriage returns (possibly empty), `Parse` on `<a>w</a>`
returns a root whose only child is the element `a` with no children: the white
space creates no text node. -/
theorem Parse_whitespace_only (a w : List Nat) (ha : a ≠ [])
    (haa : ∀ x ∈ a, isAlnum x = true)
    (hw : ∀ x ∈ w, x = 32 ∨ x = 9 ∨ x = 10 ∨ x = 13) (fuel : Nat) (hf : 3 ≤ fuel) :
    Parse fuel (ascii "<" ++ a ++ ascii ">" ++ w ++ ascii "</" ++ a ++ ascii ">") =
      .ret (.ok (rootNode [element a [] []])) := by
  obtain ⟨n, rfl⟩ : ∃ n, fuel = n + 3 := ⟨fuel - 3, by omega⟩
  have e : ascii "<" ++ a ++ ascii ">" ++ w ++ ascii "</" ++ a ++ ascii ">" =
      60 :: (a ++ 62 :: (w ++ 60 :: 47 :: (a ++ [62]))) := by
    simp [show ascii "<" = [60] from rfl, show ascii ">" = [62] from rfl,
      show ascii "</" = [60, 47] from rfl]
  rw [e]
  generalize hh : 60 :: (a ++ 62 :: (w ++ 60 :: 47 :: (a ++ [62]))) = html
  have h0 : At html 0 (60 :: (a ++ 62 :: (w ++ 60 :: 47 :: (a ++ [62])))) := hh ▸ At.start _
  have h1 := h0.next.advance.next
  have h2 := h1.advance.next.next.advance
  have h3 := h2.next
  obtain ⟨a0, ha0, ha47⟩ := head_of_alnum (62 :: (w ++ 60 :: 47 :: (a ++ [62]))) ha haa
  have hws : ∀ x ∈ w, isSpace x = true := by
    intro x hx
    rcases hw x hx with h | h | h | h <;> subst h <;> decide
  have k1 := parseNodes_close n [] h1 h2 hws haa (by simp; decide)
  have k2 := parseElement_plain (n + 1) h0 h1 haa k1
  have k3 := parseNodes_elem (w := []) (n + 2) [] h0 h0 (by simp) ha0 ha47 k2
  rw [parseNodes_end html (n + 1) _ _ (by have := h3.length_eq; simp at this; omega)] at k3
  exact Parse_of_parseNodes k3

theorem Parse_whitespace_only_witness :
    Parse 3 (ascii "<a>   \n  </a>") = .ret (.ok (rootNode [element (ascii "a") [] []])) :=
  Parse_whitespace_only (ascii "a") (ascii "   \n  ") (by decide) (by decide) (by decide)
    3 (by decide)


/-! ## `strings.TrimSpace` on ASCII text -/

theorem isSpace_eq_asciiSpace {b : Nat} (h : b < 128) : isSpace b = asciiSpace b := by
  have h255 : b ≤ 255 := by omega
  have h1 : (b == 133) = false := by simp; omega
  have h2 : (b == 160) = false := by simp; omega
  simp [isSpace, isSpaceRune, asciiSpace, h255, h1, h2]

theorem dropWhile_congr_mem {f g : Nat → Bool} :
    ∀ l : List Nat, (∀ b ∈ l, f b = g b) → l.dropWhile f = l.dropWhile g := by
  intro l
  induction l with
  | nil => intro _; rfl
  | cons a l ih =>
    intro h
    have ha := h a (by simp)
    simp only [List.dropWhile_cons, ha]
    rw [ih (fun b hb => h b (by simp [hb]))]

theorem trimSpaceRight_ascii :
    ∀ n (s : List Nat), s.length ≤ n → (∀ b ∈ s, b < 128) →
      trimSpaceRight n s = (s.reverse.dropWhile asciiSpace).reverse := by
  intro n
  induction n with
  | zero =>
    intro s hn _
    have : s = [] := List.length_eq_zero.mp (by omega)
    subst this
    rfl
  | succ n ih =>
    intro s hn hs
    rcases List.eq_nil_or_concat s with rfl | ⟨L, b, rfl⟩
    · rfl
    · rw [List.concat_eq_append] at hn hs ⊢
      have hb : b < 128 := hs b (by simp)
      have hL : ∀ x ∈ L, x < 128 := fun x hx => hs x (by simp [hx])
      rw [trimSpaceRight]
      simp only [List.getLast?_concat, List.dropLast_concat, List.reverse_concat]
      rw [if_neg (by omega)]
      by_cases hsp : asciiSpace b = true
      · rw [if_pos hsp, ih L (by simp at hn; omega) hL, List.dropWhile_cons_of_pos hsp]
      · rw [if_neg hsp, List.dropWhile_cons_of_neg hsp]
        simp

theorem TrimSpace_ascii :
    ∀ s : List Nat, (∀ b ∈ s, b < 128) →
      TrimSpace s = ((s.dropWhile asciiSpace).reverse.dropWhile asciiSpace).reverse := by
  intro s
  induction s with
  | nil => intro _; rfl
  | cons c t ih =>
    intro hs
    have hc : c < 128 := hs c (by simp)
    rw [TrimSpace, if_neg (by omega)]
    by_cases hsp : asciiSpace c = true
    · rw [if_pos hsp, ih (fun b hb => hs b (by simp [hb])), List.dropWhile_cons_of_pos hsp]
    · rw [if_neg hsp, List.dropWhile_cons_of_neg hsp, trimSpaceRight_ascii _ _ (le_refl _) hs]

/-- On ASCII text `strings.TrimSpace` removes the leading and the trailing
white space. -/
theorem TrimSpace_eq_trimWhitespace (s : List Nat) (hs : ∀ b ∈ s, b < 128) :
    TrimSpace s = trimWhitespace s := by
  rw [TrimSpace_ascii s hs, trimWhitespace]
  have h1 : s.dropWhile asciiSpace = s.dropWhile isSpace :=
    dropWhile_congr_mem s (fun b hb => (isSpace_eq_asciiSpace (hs b hb)).symm)
  have hmem : ∀ b ∈ (s.dropWhile isSpace).reverse, b < 128 := by
    intro b hb
    exact hs b ((List.dropWhile_sublist _).subset (List.mem_reverse.mp hb))
  rw [h1, dropWhile_congr_mem _ (fun b hb => (isSpace_eq_asciiSpace (hmem b hb)).symm)]

theorem trimWhitespace_dropWhile (c : List Nat) :
    trimWhitespace (c.dropWhile isSpace) = trimWhitespace c := by
  simp [trimWhitespace, List.dropWhile_idempotent]

theorem trimWhitespace_ne_nil (c : List Nat) (h : ∃ b ∈ c, isSpace b = false) :
    trimWhitespace c ≠ [] := by
  obtain ⟨b, hb, hbs⟩ := h
  have h1 : c.dropWhile isSpace ≠ [] := by
    intro h0
    rw [List.dropWhile_eq_nil_iff] at h0
    simp [h0 b hb] at hbs
  obtain ⟨x, r, hx⟩ := List.exists_cons_of_ne_nil h1
  have hxs : isSpace x = false := by
    have := List.head?_dropWhile_not isSpace c
    rw [hx] at this
    simpa using this
  intro h0
  rw [trimWhitespace, List.reverse_eq_nil_iff, List.dropWhile_eq_nil_iff] at h0
  have := h0 x (by rw [hx]; simp)
  simp [hxs] at this

/-- A string without white space at either end is its own trimmed form. -/
theorem trimWhitespace_self (c : List Nat) (h0 : ∀ b, c.head? = some b → isSpace b = false)
    (h1 : ∀ b, c.getLast? = some b → isSpace b = false) : trimWhitespace c = c := by
  unfold trimWhitespace
  have e1 : c.dropWhile isSpace = c := by
    cases c with
    | nil => rfl
    | cons a t => exact List.dropWhile_cons_of_neg (by simp [h0 a rfl])
  rw [e1]
  rcases List.eq_nil_or_concat c with rfl | ⟨L, b, rfl⟩
  · rfl
  · rw [List.concat_eq_append] at h1 ⊢
    have hb := h1 b (by simp)
    rw [List.reverse_concat, List.dropWhile_cons_of_neg (by simp [hb])]
    simp


/-! ## C1: a single element around text -/

/-- C1, as amended: for a non-empty alphanumeric tag name `t` and ASCII text
`c` without `<` that has a byte other than white space, `Parse` on `<t>c</t>`
returns a root whose only child is the element `t` without attributes, whose
only child is the text node holding `c` without its leading and trailing white
space, which is `c` itself when `c` has none. -/
theorem Parse_single_element (t c : List Nat) (ht : t ≠ [])
    (htt : ∀ x ∈ t, isAlnum x = true) (hc : ∀ b ∈ c, b ≠ 60) (hascii : ∀ b ∈ c, b < 128)
    (hns : ∃ b ∈ c, isSpace b = false) (fuel : Nat) (hf : 4 ≤ fuel) :
    Parse fuel (ascii "<" ++ t ++ ascii ">" ++ c ++ ascii "</" ++ t ++ ascii ">") =
      .ret (.ok (rootNode [element t [] [text (trimWhitespace c)]])) ∧
    ((∀ b, c.head? = some b → isSpace b = false) →
      (∀ b, c.getLast? = some b → isSpace b = false) → trimWhitespace c = c) := by
  refine ⟨?_, trimWhitespace_self c⟩
  obtain ⟨n, rfl⟩ : ∃ n, fuel = n + 4 := ⟨fuel - 4, by omega⟩
  have hsplit : c.takeWhile isSpace ++ c.dropWhile isSpace = c :=
    List.takeWhile_append_dropWhile isSpace c
  generalize hw : c.takeWhile isSpace = w at hsplit
  generalize hd : c.dropWhile isSpace = d at hsplit
  have hws : ∀ b ∈ w, isSpace b = true := by
    intro b hb; rw [← hw] at hb; exact (List.mem_takeWhile_imp hb)
  have hd0 : ∀ b, d.head? = some b → isSpace b = false := by
    intro b hb
    have := List.head?_dropWhile_not isSpace c
    rw [hd, hb] at this
    simpa using this
  have hdmem : ∀ b ∈ d, b ∈ c := fun b hb => by rw [← hsplit]; simp [hb]
  have htrim : TrimSpace d = trimWhitespace c := by
    rw [TrimSpace_eq_trimWhitespace d (fun b hb => hascii b (hdmem b hb)), ← hd,
      trimWhitespace_dropWhile]
  have hne : trimWhitespace c ≠ [] := trimWhitespace_ne_nil c hns
  have hdne : d ≠ [] := by
    rintro rfl
    exact hne (by rw [← htrim]; rfl)
  have e : ascii "<" ++ t ++ ascii ">" ++ c ++ ascii "</" ++ t ++ ascii ">" =
      60 :: (t ++ 62 :: (w ++ (d ++ 60 :: 47 :: (t ++ [62])))) := by
    rw [← hsplit]
    simp [show ascii "<" = [60] from rfl, show ascii ">" = [62] from rfl,
      show ascii "</" = [60, 47] from rfl]
  rw [e]
  generalize hh : 60 :: (t ++ 62 :: (w ++ (d ++ 60 :: 47 :: (t ++ [62])))) = html
  have h0 : At html 0 (60 :: (t ++ 62 :: (w ++ (d ++ 60 :: 47 :: (t ++ [62]))))) :=
    hh ▸ At.start _
  have h1 := h0.next.advance.next
  have h2 := h1.advance.advance
  have h3 := h2.next.next.advance
  have h4 := h3.next
  obtain ⟨t0, ht0, ht47⟩ :=
    head_of_alnum (62 :: (w ++ (d ++ 60 :: 47 :: (t ++ [62])))) ht htt
  -- the children of `t`: the text, then the closing tag
  have k1 := parseNodes_text (n + 1) [] h1 h2 hws (fun b hb => hc b (hdmem b hb)) hd0 hdne
    (by simp)
  rw [htrim, if_neg hne,
    parseNodes_close (w := []) n _ h2 h3 (by simp) htt (by simp; decide)] at k1
  have k2 := parseElement_plain (n + 2) h0 h1 htt k1
  have k3 := parseNodes_elem (w := []) (n + 3) [] h0 h0 (by simp) ht0 ht47 k2
  rw [parseNodes_end html (n + 2) _ _ (by have := h4.length_eq; simp at this; omega)] at k3
  exact Parse_of_parseNodes k3

theorem Parse_single_element_witness :
    Parse 4 (ascii "<p> Hello, world </p>") =
      .ret (.ok (rootNode [element (ascii "p") [] [text (trimWhitespace (ascii " Hello, world "))]])) ∧
    ((∀ b, (ascii " Hello, world ").head? = some b → isSpace b = false) →
      (∀ b, (ascii " Hello, world ").getLast? = some b → isSpace b = false) →
      trimWhitespace (ascii " Hello, world ") = ascii " Hello, world ") :=
  Parse_single_element (ascii "p") (ascii " Hello, world ") (by decide) (by decide) (by decide)
    (by decide) (by decide) 4 (by decide)

/-- C1 fails outside ASCII: in `<a>c</a>` with `c` the bytes `85 78 85` (hex),
which has no `<` and holds the letter `x`, the scanner skips the leading byte
`85` as white space while `strings.TrimSpace` keeps the trailing one, so the
text node holds `78 85`, which is `c` trimmed under no reading of white space.
Likewise the bytes `C2 A0`, a letter and a no-break space when read byte by
byte, are one white space character for `strings.TrimSpace`: no text node. -/
theorem Parse_non_ascii_text_differs :
    Parse 4 (ascii "<a>" ++ [133, 120, 133] ++ ascii "</a>") =
      .ret (.ok (rootNode [element (ascii "a") [] [text [120, 133]]])) ∧
    (∀ b ∈ [133, 120, 133], b ≠ 60) ∧ (∃ b ∈ [133, 120, 133], isSpace b = false) ∧
    [120, 133] ≠ trimWhitespace [133, 120, 133] ∧ [120, 133] ≠ TrimSpace [133, 120, 133] ∧
    Parse 4 (ascii "<a>" ++ [194, 160] ++ ascii "</a>") =
      .ret (.ok (rootNode [element (ascii "a") [] []])) ∧
    isSpace 194 = false ∧ trimWhitespace [194, 160] = [194] :=
  ⟨rfl, by decide, by decide, by decide, by decide, rfl, rfl, rfl⟩


/-! ## C3: attributes -/

theorem mapSet_fresh (m : List (List Nat × List Nat)) (k v : List Nat)
    (h : k ∉ m.map Prod.fst) : mapSet m k v = m ++ [(k, v)] := by
  induction m with
  | nil => rfl
  | cons a m ih =>
    obtain ⟨k', v'⟩ := a
    simp only [List.map_cons, List.mem_cons, not_or] at h
    rw [mapSet, if_neg (fun e => h.1 e.symm), ih h.2]
    rfl

theorem foldl_mapSet_fresh (l : List (List Nat × List Nat)) :
    ∀ m : List (List Nat × List Nat), ((m ++ l).map Prod.fst).Nodup →
      l.foldl (fun m nv => mapSet m nv.1 nv.2) m = m ++ l := by
  induction l with
  | nil => intro m _; simp
  | cons a l ih =>
    intro m h
    have hfresh : a.1 ∉ m.map Prod.fst := by
      intro hmem
      rw [List.map_append, List.map_cons, List.nodup_append] at h
      exact h.2.2 hmem (by simp)
    rw [List.foldl_cons, mapSet_fresh m a.1 a.2 hfresh, ih _ (by simpa using h)]
    simp

theorem mapGet_iff_mem (l : List (List Nat × List Nat)) (h : (l.map Prod.fst).Nodup)
    (k v : List Nat) : mapGet l k = some v ↔ (k, v) ∈ l := by
  induction l with
  | nil => simp [mapGet]
  | cons a l ih =>
    obtain ⟨k', v'⟩ := a
    rw [List.map_cons, List.nodup_cons] at h
    rw [mapGet]
    by_cases hk : k' = k
    · subst hk
      rw [if_pos rfl]
      constructor
      · intro e; simp at e; subst e; simp
      · intro hm
        rcases List.mem_cons.mp hm with e | hm'
        · simp at e; simp [e]
        · exact absurd (List.mem_map_of_mem Prod.fst hm') h.1
    · rw [if_neg hk, ih h.2]
      constructor
      · intro hm; exact List.mem_cons_of_mem _ hm
      · intro hm
        rcases List.mem_cons.mp hm with e | hm'
        · simp at e; exact absurd e.1.symm hk
        · exact hm'

/-- The attribute loop over a list of `name="value"` texts up to `>`. -/
theorem parseAttributes_list {html : List Nat} {p : Nat} {rest : List Nat}
    (hp : At html p (62 :: rest)) :
    ∀ (l : List (List Nat × List Nat)) (fuel pos : Nat) (m : List (List Nat × List Nat)),
      At html pos (attributesText l ++ 62 :: rest) →
      (∀ nv ∈ l, ∀ b ∈ nv.1, isAlnum b = true) → (∀ nv ∈ l, ∀ b ∈ nv.2, b ≠ 34) →
      parseAttributes html (fuel + 1 + l.length) pos m =
        .ret (l.foldl (fun m nv => mapSet m nv.1 nv.2) m, p) := by
  intro l
  induction l with
  | nil =>
    intro fuel pos m h _ _
    have e : pos = p := At.unique h hp
    subst e
    exact parseAttributes_done fuel m (Or.inr hp.get)
  | cons a l ih =>
    intro fuel pos m h hn hv
    obtain ⟨name, v⟩ := a
    have h' : At html pos ([32] ++ (name ++ 61 :: 34 :: (v ++ 34 ::
        (attributesText l ++ 62 :: rest)))) := by
      have e : attributesText ((name, v) :: l) ++ 62 :: rest =
          [32] ++ (name ++ 61 :: 34 :: (v ++ 34 :: (attributesText l ++ 62 :: rest))) := by
        simp [attributesText, attributeText, show ascii " " = [32] from rfl,
          show ascii "=\"" = [61, 34] from rfl, show ascii "\"" = [34] from rfl]
      rw [← e]; exact h
    have h1 := h'.advance.advance.next.next.advance.next
    rw [show fuel + 1 + ((name, v) :: l).length = (fuel + 1 + l.length) + 1 from rfl,
      parseAttributes_pair (fuel + 1 + l.length) m h' h1 (by simp; decide)
        (hn (name, v) (by simp)) (hv (name, v) (by simp)),
      ih fuel _ _ h1 (fun nv hnv => hn nv (by simp [hnv])) (fun nv hnv => hv nv (by simp [hnv]))]
    rfl

/-- C3: for a non-empty alphanumeric tag name `t` and attributes with pairwise
distinct non-empty alphanumeric names and values without `"`, `Parse` on `<t`,
then ` name="value"` for each attribute, then `>` returns a root whose only
child is the element `t` without children whose attribute map holds exactly the
given pairs. -/
theorem Parse_attributes (t : List Nat) (l : List (List Nat × List Nat)) (ht : t ≠ [])
    (htt : ∀ x ∈ t, isAlnum x = true)
    (hn : ∀ nv ∈ l, nv.1 ≠ [] ∧ ∀ b ∈ nv.1, isAlnum b = true)
    (hv : ∀ nv ∈ l, ∀ b ∈ nv.2, b ≠ 34) (hd : (l.map Prod.fst).Nodup)
    (fuel : Nat) (hf : l.length + 3 ≤ fuel) :
    ∃ m, Parse fuel (ascii "<" ++ t ++ attributesText l ++ ascii ">") =
        .ret (.ok (rootNode [element t m []])) ∧
      ∀ k v, mapGet m k = some v ↔ (k, v) ∈ l := by
  refine ⟨l, ?_, mapGet_iff_mem l hd⟩
  obtain ⟨n, rfl⟩ : ∃ n, fuel = n + l.length + 1 + 1 + 1 := ⟨fuel - l.length - 3, by omega⟩
  have e : ascii "<" ++ t ++ attributesText l ++ ascii ">" =
      60 :: (t ++ (attributesText l ++ 62 :: [])) := by
    simp [show ascii "<" = [60] from rfl, show ascii ">" = [62] from rfl]
  rw [e]
  generalize hh : 60 :: (t ++ (attributesText l ++ 62 :: [])) = html
  have h0 : At html 0 (60 :: (t ++ (attributesText l ++ 62 :: []))) := hh ▸ At.start _
  have h1 := h0.next.advance
  have h2 := h1.advance
  have h3 := h2.next
  obtain ⟨t0, ht0, ht47⟩ := head_of_alnum (attributesText l ++ 62 :: []) ht htt
  have hrest : ∀ b, (attributesText l ++ 62 :: []).head? = some b → isAlnum b = false := by
    cases l with
    | nil => simp [attributesText]; decide
    | cons a l =>
      simp [attributesText, attributeText, show ascii " " = [32] from rfl]
      decide
  have kA := parseAttributes_list h2 l (n + 1) _ [] h1 (fun nv hnv => (hn nv hnv).2) hv
  rw [foldl_mapSet_fresh l [] (by simpa using hd),
    show n + 1 + 1 + l.length = n + l.length + 1 + 1 by omega] at kA
  have kN := parseNodes_end html (n + l.length)
    (0 + 1 + t.length + (attributesText l).length + 1) []
    (by have := h3.length_eq; simp at this; omega)
  have k2 := parseElement_open (n + l.length + 1) h0 h1 htt hrest kA h2.get kN
  have k3 := parseNodes_elem (w := []) (n + l.length + 1 + 1) [] h0 h0 (by simp) ht0 ht47 k2
  rw [parseNodes_end html (n + l.length + 1) _ _
    (by have := h3.length_eq; simp at this; omega)] at k3
  exact Parse_of_parseNodes k3

theorem Parse_attributes_witness :
    ∃ m, Parse 5 (ascii "<img src=\"x.png\" alt=\"a logo\">") =
        .ret (.ok (rootNode [element (ascii "img") m []])) ∧
      ∀ k v, mapGet m k = some v ↔
        (k, v) ∈ [(ascii "src", ascii "x.png"), (ascii "alt", ascii "a logo")] :=
  Parse_attributes (ascii "img") [(ascii "src", ascii "x.png"), (ascii "alt", ascii "a logo")]
    (by decide) (by decide) (by decide) (by decide) (by decide) 5 (by decide)


/-! ## C6 and C7: a loop without progress and a read past the end -/

/-- At the `/` of `<a / >` one round of the attribute loop reads an empty name
and leaves the cursor where it was: the loop never ends. -/
theorem parseAttributes_stuck :
    ∀ (fuel : Nat) (m : List (List Nat × List Nat)),
      parseAttributes (ascii "<a / >") fuel 3 m = .fuelOut := by
  intro fuel
  induction fuel with
  | zero => intro m; rfl
  | succ fuel ih =>
    intro m
    have e1 : (ascii "<a / >")[3]? = some 47 := rfl
    have e2 : skipWhitespace (ascii "<a / >") 3 = 3 := rfl
    have e3 : parseTagName (ascii "<a / >") 3 = .ret ([], 3) := rfl
    rw [parseAttributes]
    simp only [e1, e2, e3]
    exact ih _

/-- C6 fails on the code: on `<a / >` the call of `Parse` does not return,
whatever the fuel. -/
theorem Parse_stray_slash_diverges (fuel : Nat) : Parse fuel (ascii "<a / >") = .fuelOut := by
  have e1 : (ascii "<a / >")[2]? = some 32 := rfl
  have e2 : skipWhitespace (ascii "<a / >") 2 = 3 := rfl
  have e3 : parseTagName (ascii "<a / >") 3 = .ret ([], 3) := rfl
  have e4 : (ascii "<a / >")[3]? = some 47 := rfl
  have e5 : parseTagName (ascii "<a / >") (0 + 1) = .ret (ascii "a", 2) := rfl
  have e6 : skipWhitespace (ascii "<a / >") 0 = 0 := rfl
  have e7 : (ascii "<a / >")[0]? = some 60 := rfl
  have e8 : (ascii "<a / >")[0 + 1]? = some 97 := rfl
  have hA : ∀ f, parseAttributes (ascii "<a / >") f 2 [] = .fuelOut := by
    intro f
    cases f with
    | zero => rfl
    | succ f =>
      rw [parseAttributes]
      simp only [e1, e2, e3, e4]
      exact parseAttributes_stuck f _
  have hE : ∀ f, parseElement (ascii "<a / >") f 0 = .fuelOut := by
    intro f
    cases f with
    | zero => rfl
    | succ f =>
      rw [parseElement]
      simp only [e5, hA]
  unfold Parse
  cases fuel with
  | zero => rfl
  | succ f =>
    rw [parseNodes, if_pos (by decide)]
    simp only [e6, e7, e8, hE]

/-- C7 fails on the code: when the buffer ends right after a `<`, at top
level or inside an unclosed element, `parseNodes` reads `p.html[p.pos+1]` past
the end and `Parse` panics. -/
theorem Parse_trailing_lt_panics (n : Nat) :
    Parse (n + 1) (ascii "<") = .panic ∧ Parse (n + 3) (ascii "<a><") = .panic := by
  constructor
  · unfold Parse
    rw [parseNodes, if_pos (by decide)]
    rfl
  · have e1 : skipWhitespace (ascii "<a><") 0 = 0 := rfl
    have e2 : (ascii "<a><")[0]? = some 60 := rfl
    have e3 : (ascii "<a><")[0 + 1]? = some 97 := rfl
    have e4 : parseTagName (ascii "<a><") (0 + 1) = .ret (ascii "a", 2) := rfl
    have e5 : (ascii "<a><")[2]? = some 62 := rfl
    have e6 : skipWhitespace (ascii "<a><") (2 + 1) = 3 := rfl
    have e7 : (ascii "<a><")[3]? = some 60 := rfl
    have e8 : (ascii "<a><")[3 + 1]? = none := rfl
    unfold Parse
    rw [parseNodes, if_pos (by decide)]
    simp only [e1, e2, e3]
    rw [parseElement]
    simp only [e4]
    rw [parseAttributes]
    simp only [e5]
    rw [parseNodes, if_pos (by decide)]
    simp only [e6, e7, e8]

/-! ## C9 and C10: what the productions return -/

/-- What `parseNodes` returns is never a failure and always a `root` element;
what `parseElement` returns is never a failure. -/
theorem productions_return_ok (html : List Nat) :
    ∀ fuel : Nat,
      (∀ pos children r p, parseNodes html fuel pos children = .ret (r, p) →
        ∃ ch, r = .ok (rootNode ch)) ∧
      (∀ pos r p, parseElement html fuel pos = .ret (r, p) → ∃ n, r = .ok n) := by
  intro fuel
  induction fuel with
  | zero =>
    constructor
    · intro pos children r p h; simp [parseNodes] at h
    · intro pos r p h; simp [parseElement] at h
  | succ fuel ih =>
    constructor
    · intro pos children r p h
      rw [parseNodes] at h
      split at h
      · dsimp only at h
        split at h
        · split at h
          · cases h
          · split at h
            · cases h; exact ⟨_, rfl⟩
            · cases h
            · cases h
          · split at h
            · exact ih.1 _ _ _ _ h
            · rename_i heq
              obtain ⟨n, hn⟩ := ih.2 _ _ _ heq
              cases hn
            · cases h
            · cases h
        · split at h
          · exact ih.1 _ _ _ _ h
          · exact ih.1 _ _ _ _ h
          · cases h
          · cases h
      · cases h; exact ⟨_, rfl⟩
    · intro pos r p h
      rw [parseElement] at h
      split at h
      · split at h
        · split at h
          · split at h
            · cases h; exact ⟨_, rfl⟩
            · rename_i heq
              obtain ⟨ch, hch⟩ := ih.1 _ _ _ _ heq
              cases hch
            · cases h
            · cases h
          · cases h; exact ⟨_, rfl⟩
        · cases h
        · cases h
      · cases h
      · cases h


/-- C9: the failure channel is unreachable.  Whenever `Parse` returns, it
returns a node and no error, and so do the productions `parseNodes` and
`parseElement` from every cursor position. -/
theorem failure_channel_unreachable (html : List Nat) (fuel : Nat) :
    (∀ r, Parse fuel html = .ret r → ∃ n, r = .ok n) ∧
    (∀ pos children r p, parseNodes html fuel pos children = .ret (r, p) → ∃ n, r = .ok n) ∧
    (∀ pos r p, parseElement html fuel pos = .ret (r, p) → ∃ n, r = .ok n) := by
  have hN : ∀ pos children r p, parseNodes html fuel pos children = .ret (r, p) →
      ∃ n, r = .ok n := by
    intro pos children r p h
    obtain ⟨ch, hch⟩ := (productions_return_ok html fuel).1 pos children r p h
    exact ⟨_, hch⟩
  refine ⟨?_, hN, (productions_return_ok html fuel).2⟩
  intro r h
  unfold Parse at h
  split at h
  · rename_i r' p heq
    cases h
    exact hN _ _ _ _ heq
  · cases h
  · cases h

theorem failure_channel_unreachable_witness :
    ∃ n, (.ok (rootNode [element (ascii "a") [] [text (ascii "x")]]) : Except GoError Node)
      = .ok n :=
  (failure_channel_unreachable (ascii "<a>x</a>") 4).1 _ rfl

/-- C10: whenever `Parse` returns, the node it returns is an element tagged
`root` with no attributes and no text content, whatever the buffer holds; for
the empty buffer it has no children. -/
theorem Parse_returns_root (html : List Nat) (fuel : Nat) (r : Except GoError Node)
    (h : Parse fuel html = .ret r) :
    (∃ children, r = .ok (.mk .ElementNode (ascii "root") [] children [])) ∧
    (html = [] → r = .ok (.mk .ElementNode (ascii "root") [] [] [])) := by
  constructor
  · unfold Parse at h
    split at h
    · rename_i r' p heq
      cases h
      exact (productions_return_ok html fuel).1 _ _ _ _ heq
    · cases h
    · cases h
  · rintro rfl
    cases fuel with
    | zero => cases h
    | succ f => cases h; rfl

theorem Parse_returns_root_witness :
    (∃ children, (.ok (rootNode [element (ascii "a") [] [text (ascii "x")]]) :
        Except GoError Node) = .ok (.mk .ElementNode (ascii "root") [] children [])) ∧
    (ascii "<a>x</a>" = [] → (.ok (rootNode [element (ascii "a") [] [text (ascii "x")]]) :
        Except GoError Node) = .ok (.mk .ElementNode (ascii "root") [] [] [])) :=
  Parse_returns_root (ascii "<a>x</a>") 4 _ rfl


/-! ## What the scanning operations return at any cursor -/

theorem take_length_takeWhile (f : Nat → Bool) :
    ∀ l : List Nat, l.take (l.takeWhile f).length = l.takeWhile f := by
  intro l
  induction l with
  | nil => rfl
  | cons a l ih =>
    by_cases h : f a = true
    · simp [List.takeWhile_cons, h, ih]
    · simp [List.takeWhile_cons, h]

theorem drop_length_takeWhile (f : Nat → Bool) :
    ∀ l : List Nat, l.drop (l.takeWhile f).length = l.dropWhile f := by
  intro l
  induction l with
  | nil => rfl
  | cons a l ih =>
    by_cases h : f a = true
    · simp [List.takeWhile_cons, List.dropWhile_cons, h, ih]
    · simp [List.takeWhile_cons, List.dropWhile_cons, h]

theorem slice_scanWhile {f : Nat → Bool} {html : List Nat} {pos : Nat} {name : List Nat}
    (h : slice html pos (scanWhile f html (html.length - pos) pos) = .ret name) :
    name = (html.drop pos).takeWhile f ∧ pos ≤ html.length := by
  rw [scanWhile_eq f html _ pos (le_refl _)] at h
  unfold slice at h
  split at h
  · rename_i hc
    have hle : pos ≤ html.length := by
      have h1 := (List.takeWhile_sublist f (l := html.drop pos)).length_le
      have h2 := List.length_drop pos html
      omega
    refine ⟨?_, hle⟩
    cases h
    rw [Nat.add_sub_cancel_left]
    exact take_length_takeWhile f _
  · cases h

theorem parseTagName_ret {html : List Nat} {pos p : Nat} {name : List Nat}
    (h : parseTagName html pos = .ret (name, p)) :
    name = (html.drop pos).takeWhile isAlnum ∧ p = pos + name.length ∧ pos ≤ html.length := by
  unfold parseTagName at h
  dsimp only at h
  split at h
  · rename_i nm heq
    cases h
    obtain ⟨h1, h2⟩ := slice_scanWhile heq
    refine ⟨h1, ?_, h2⟩
    rw [scanWhile_eq isAlnum html _ pos (le_refl _), h1]
  · cases h
  · cases h

theorem parseTagName_alnum {html : List Nat} {pos p : Nat} {name : List Nat}
    (h : parseTagName html pos = .ret (name, p)) : ∀ b ∈ name, isAlnum b = true := by
  intro b hb
  rw [(parseTagName_ret h).1] at hb
  exact List.mem_takeWhile_imp hb

theorem parseAttributeValue_noquote {html : List Nat} {pos p : Nat} {v : List Nat}
    (h : parseAttributeValue html pos = .ret (v, p)) : ∀ b ∈ v, b ≠ 34 := by
  unfold parseAttributeValue at h
  split at h
  · dsimp only at h
    split at h
    · rename_i value heq
      cases h
      intro b hb
      rw [(slice_scanWhile heq).1] at hb
      simpa using List.mem_takeWhile_imp hb
    · cases h
    · cases h
  · cases h
    simp

theorem trimWhitespace_textOK (s : List Nat) (hs : ∀ b ∈ s, b ≠ 60 ∧ b < 128)
    (hne : trimWhitespace s ≠ []) : TextOK (trimWhitespace s) := by
  have hr : trimWhitespace s = (s.dropWhile isSpace).rdropWhile isSpace := rfl
  have hpre : trimWhitespace s <+: s.dropWhile isSpace := by
    rw [hr]; exact List.rdropWhile_prefix _ _
  refine ⟨hne, ?_, ?_, ?_⟩
  · intro b hb
    exact hs b ((List.dropWhile_sublist _).subset (hpre.subset hb))
  · intro b hb
    obtain ⟨x, t, hx⟩ := List.exists_cons_of_ne_nil hne
    rw [hx] at hb hpre
    simp at hb
    subst hb
    obtain ⟨r, hr'⟩ := hpre
    have := List.head?_dropWhile_not isSpace s
    rw [← hr'] at this
    simpa using this
  · intro b hb
    have h1 := List.rdropWhile_last_not isSpace (s.dropWhile isSpace) (by rw [← hr]; exact hne)
    have h2 : (trimWhitespace s).getLast? = some ((trimWhitespace s).getLast hne) :=
      List.getLast?_eq_getLast _ hne
    rw [h2] at hb
    simp only [Option.some.injEq] at hb
    rw [← hb]
    simpa using h1

theorem parseText_ret {html : List Nat} (hascii : ∀ b ∈ html, b < 128) {pos p : Nat} {n : Node}
    (h : parseText html pos = .ret (some n, p)) :
    ∃ content, n = text content ∧ TextOK content ∧
      (html[p]? = none ∨ html[p]? = some 60) := by
  unfold parseText at h
  dsimp only at h
  split at h
  · rename_i s heq
    obtain ⟨h1, h2⟩ := slice_scanWhile heq
    split at h
    · cases h
    · rename_i hne
      cases h
      have hsub : ∀ b ∈ s, b ∈ html := by
        intro b hb
        rw [h1] at hb
        exact (List.drop_sublist _ _).subset ((List.takeWhile_sublist _).subset hb)
      have hs : ∀ b ∈ s, b ≠ 60 ∧ b < 128 := by
        intro b hb
        refine ⟨?_, hascii b (hsub b hb)⟩
        rw [h1] at hb
        simpa using List.mem_takeWhile_imp hb
      have ht : TrimSpace s = trimWhitespace s :=
        TrimSpace_eq_trimWhitespace s (fun b hb => (hs b hb).2)
      refine ⟨TrimSpace s, rfl, ?_, ?_⟩
      · rw [ht]; exact trimWhitespace_textOK s hs (by rw [← ht]; exact hne)
      · rw [scanWhile_eq _ html _ pos (le_refl _)]
        have hd : html.drop (pos + ((html.drop pos).takeWhile (fun b => b != 60)).length) =
            (html.drop pos).dropWhile (fun b => b != 60) := by
          rw [← List.drop_drop]
          exact drop_length_takeWhile _ _
        have hh := List.head?_dropWhile_not (fun b => b != 60) (html.drop pos)
        rw [← hd, List.head?_drop] at hh
        cases hg : html[pos + ((html.drop pos).takeWhile (fun b => b != 60)).length]? with
        | none => exact Or.inl rfl
        | some b =>
          rw [hg] at hh
          simp at hh
          exact Or.inr (by rw [hh])
  · cases h
  · cases h


/-! ## The shape of the trees `Parse` builds -/

theorem mem_mapSet {m : List (List Nat × List Nat)} {k v : List Nat} {kv : List Nat × List Nat}
    (h : kv ∈ mapSet m k v) : kv ∈ m ∨ kv = (k, v) := by
  induction m with
  | nil => simp [mapSet] at h; exact Or.inr h
  | cons a m ih =>
    obtain ⟨k', v'⟩ := a
    rw [mapSet] at h
    split at h
    · rcases List.mem_cons.mp h with e | hm
      · exact Or.inr e
      · exact Or.inl (List.mem_cons_of_mem _ hm)
    · rcases List.mem_cons.mp h with e | hm
      · exact Or.inl (by rw [e]; simp)
      · rcases ih hm with h1 | h1
        · exact Or.inl (List.mem_cons_of_mem _ h1)
        · exact Or.inr h1

theorem keys_mapSet (m : List (List Nat × List Nat)) (k v : List Nat) :
    (mapSet m k v).map Prod.fst =
      if k ∈ m.map Prod.fst then m.map Prod.fst else m.map Prod.fst ++ [k] := by
  induction m with
  | nil => simp [mapSet]
  | cons a m ih =>
    obtain ⟨k', v'⟩ := a
    rw [mapSet]
    by_cases hk : k' = k
    · subst hk; simp
    · rw [if_neg hk, List.map_cons, ih]
      have hk' : ¬ k = k' := fun e => hk e.symm
      by_cases hm : k ∈ m.map Prod.fst
      · simp [hm]
      · simp [hm, hk']

theorem AttrsOK_mapSet {m : List (List Nat × List Nat)} {k v : List Nat} (hm : AttrsOK m)
    (hk : ∀ b ∈ k, isAlnum b = true) (hv : ∀ b ∈ v, b ≠ 34) : AttrsOK (mapSet m k v) := by
  refine ⟨?_, ?_⟩
  · rw [keys_mapSet]
    split
    · exact hm.1
    · rename_i hnot
      rw [List.nodup_append]
      refine ⟨hm.1, List.nodup_singleton k, ?_⟩
      intro a ha hb
      simp at hb
      subst hb
      exact hnot ha
  · intro kv hkv
    rcases mem_mapSet hkv with h | h
    · exact hm.2 kv h
    · subst h; exact ⟨hk, hv⟩

theorem AttrsOK_nil : AttrsOK [] := ⟨by simp, by simp⟩

theorem parseAttributes_inv (html : List Nat) :
    ∀ (fuel pos : Nat) (m m' : List (List Nat × List Nat)) (p : Nat),
      parseAttributes html fuel pos m = .ret (m', p) → AttrsOK m → AttrsOK m' := by
  intro fuel
  induction fuel with
  | zero => intro pos m m' p h; simp [parseAttributes] at h
  | succ fuel ih =>
    intro pos m m' p h hm
    rw [parseAttributes] at h
    split at h
    · cases h; exact hm
    · cases h; exact hm
    · dsimp only at h
      split at h
      · rename_i name p1 hname
        split at h
        · split at h
          · rename_i value p2 hval
            exact ih _ _ _ _ h (AttrsOK_mapSet hm (parseTagName_alnum hname)
              (parseAttributeValue_noquote hval))
          · cases h
          · cases h
        · exact ih _ _ _ _ h (AttrsOK_mapSet hm (parseTagName_alnum hname) (by simp))
      · cases h
      · cases h

theorem WFList_append (a b : List Node) : WFList (a ++ b) ↔ WFList a ∧ WFList b := by
  induction a with
  | nil => simp [WFList]
  | cons c a ih => simp [WFList, ih, and_assoc]

theorem skipWhitespace_stay {html : List Nat} {pos b : Nat} (h : html[pos]? = some b)
    (hb : isSpace b = false) : skipWhitespace html pos = pos := by
  unfold skipWhitespace
  cases hn : html.length - pos with
  | zero => rfl
  | succ n => rw [scanWhile]; simp [h, hb]

theorem text_WF {content : List Nat} (h : TextOK content) : (text content).WF := by
  simp [text, Node.WF, h]

theorem productions_wf (html : List Nat) (hascii : ∀ b ∈ html, b < 128) :
    ∀ fuel : Nat,
      (∀ pos acc n p, parseNodes html fuel pos acc = .ret (.ok n, p) → AccOK html acc pos →
        ∃ ch, n = rootNode ch ∧ WFList ch ∧ NoAdjText ch) ∧
      (∀ pos n p, parseElement html fuel pos = .ret (.ok n, p) →
        n.WF ∧ n.Type_ = .ElementNode) := by
  intro fuel
  induction fuel with
  | zero =>
    constructor
    · intro pos acc n p h; simp [parseNodes] at h
    · intro pos n p h; simp [parseElement] at h
  | succ fuel ih =>
    constructor
    · intro pos acc n p h hacc
      rw [parseNodes] at h
      split at h
      · rename_i hlt
        dsimp only at h
        -- after a text node the cursor is at `<`, which is not skipped
        have hnotext : (∀ b, html[skipWhitespace html pos]? = some b → b ≠ 60) →
            ∀ l, acc.getLast? = some l → l.Type_ ≠ .TextNode := by
          intro hx l hl ht
          rcases hacc.2.2 l hl ht with h0 | h0
          · rw [List.getElem?_eq_none_iff] at h0; omega
          · have := skipWhitespace_stay h0 (by decide)
            rw [this] at hx
            exact hx 60 h0 rfl
        split at h
        · split at h
          · cases h
          · split at h
            · cases h; exact ⟨acc, rfl, hacc.1, hacc.2.1⟩
            · cases h
            · cases h
          · split at h
            · rename_i child p1 hE
              obtain ⟨hcw, hct⟩ := ih.2 _ _ _ hE
              refine ih.1 _ _ _ _ h ⟨?_, ?_, ?_⟩
              · exact (WFList_append _ _).2 ⟨hacc.1, by simp [WFList, hcw]⟩
              · refine List.Chain'.append hacc.2.1 (List.chain'_singleton _) ?_
                intro x _ y hy
                simp at hy
                subst hy
                simp [hct]
              · intro l hl ht
                simp at hl
                subst hl
                rw [hct] at ht
                cases ht
            · cases h
            · cases h
            · cases h
        · rename_i hx
          have hx' : ∀ b, html[skipWhitespace html pos]? = some b → b ≠ 60 := by
            intro b hb e
            subst e
            exact hx hb
          split at h
          · rename_i textNode p1 hT
            obtain ⟨content, hn, hok, hp1⟩ := parseText_ret hascii hT
            subst hn
            refine ih.1 _ _ _ _ h ⟨?_, ?_, ?_⟩
            · exact (WFList_append _ _).2 ⟨hacc.1, by simp [WFList, text_WF hok]⟩
            · refine List.Chain'.append hacc.2.1 (List.chain'_singleton _) ?_
              intro x hxl y _ hboth
              exact hnotext hx' x hxl hboth.1
            · intro l _ _
              exact hp1
          · exact ih.1 _ _ _ _ h ⟨hacc.1, hacc.2.1,
              fun l hl ht => absurd ht (hnotext hx' l hl)⟩
          · cases h
          · cases h
      · cases h; exact ⟨acc, rfl, hacc.1, hacc.2.1⟩
    · intro pos n p h
      rw [parseElement] at h
      split at h
      · rename_i tag p1 hname
        split at h
        · rename_i attrs p2 hA
          have hattrs := parseAttributes_inv html _ _ _ _ _ hA AttrsOK_nil
          split at h
          · split at h
            · rename_i childNodes p3 hN
              cases h
              obtain ⟨ch, hch, hw, hna⟩ := ih.1 _ _ _ _ hN
                ⟨by simp [WFList], List.chain'_nil, by simp⟩
              subst hch
              exact ⟨⟨parseTagName_alnum hname, hattrs, rfl, hw, hna⟩, rfl⟩
            · cases h
            · cases h
            · cases h
          · cases h
            exact ⟨⟨parseTagName_alnum hname, hattrs, rfl, by simp [WFList],
              List.chain'_nil⟩, rfl⟩
        · cases h
        · cases h
      · cases h
      · cases h

/-! ## Parsing what the serializer printed -/

theorem asciiSpace_isSpace {b : Nat} (h : asciiSpace b = true) : isSpace b = true := by
  simp only [asciiSpace, Bool.or_eq_true, beq_iff_eq] at h
  rcases h with ((((h | h) | h) | h) | h) | h <;> subst h <;> decide

theorem asciiSpace_lt {b : Nat} (h : asciiSpace b = true) : b < 128 := by
  simp only [asciiSpace, Bool.or_eq_true, beq_iff_eq] at h
  omega

theorem asciiSpace_ne_60 {b : Nat} (h : asciiSpace b = true) : b ≠ 60 := by
  simp only [asciiSpace, Bool.or_eq_true, beq_iff_eq] at h
  omega

theorem not_asciiSpace_of_not_isSpace {b : Nat} (h : isSpace b = false) :
    asciiSpace b = false := by
  cases hb : asciiSpace b with
  | false => rfl
  | true => rw [asciiSpace_isSpace hb] at h; cases h

theorem Repeat_spaces (d : Nat) : ∀ b ∈ Repeat (ascii "  ") d, asciiSpace b = true := by
  induction d with
  | zero => simp [Repeat]
  | succ d ih =>
    intro b hb
    rw [Repeat, List.mem_append] at hb
    rcases hb with hb | hb
    · have : b = 32 := by
        rw [show ascii "  " = [32, 32] from rfl] at hb
        simpa using hb
      subst this; decide
    · exact ih b hb

theorem printNode_element (order : List Nat → List (List Nat × List Nat) → List (List Nat × List Nat))
    (path tag : List Nat) (attrs : List (List Nat × List Nat)) (children : List Node)
    (content : List Nat) (d : Nat) :
    printNode order path (.mk .ElementNode tag attrs children content) d =
      Repeat (ascii "  ") d ++ 60 :: (tag ++ (attributesText (order path attrs) ++ 62 :: 10 ::
        (printChildren order path 0 children (d + 1) ++
          (Repeat (ascii "  ") d ++ 60 :: 47 :: (tag ++ [62, 10]))))) := by
  rw [printNode]
  simp [show ascii "<" = [60] from rfl, show ascii ">\n" = [62, 10] from rfl,
    show ascii "</" = [60, 47] from rfl]

theorem printNode_text (order : List Nat → List (List Nat × List Nat) → List (List Nat × List Nat))
    (path tag : List Nat) (attrs : List (List Nat × List Nat)) (children : List Node)
    (content : List Nat) (d : Nat) :
    printNode order path (.mk .TextNode tag attrs children content) d =
      Repeat (ascii "  ") d ++ (content ++ [10]) := by
  rw [printNode]
  simp [show ascii "\n" = [10] from rfl]

/-- What is left of the input is `w ++ X` with `w` ASCII white space. -/
theorem split_of_dropWhile {rem X : List Nat} (h : rem.dropWhile asciiSpace = X) :
    ∃ w, (∀ b ∈ w, asciiSpace b = true) ∧ rem = w ++ X := by
  refine ⟨rem.takeWhile asciiSpace, fun b hb => List.mem_takeWhile_imp hb, ?_⟩
  rw [← h, List.takeWhile_append_dropWhile]

theorem dropWhile_stop {f : Nat → Bool} {b : Nat} (l : List Nat) (h : f b = false) :
    (b :: l).dropWhile f = b :: l := by
  simp [List.dropWhile_cons, h]

theorem trimWhitespace_append_ws {content ws : List Nat} (hne : content ≠ [])
    (h0 : ∀ b, content.head? = some b → isSpace b = false)
    (h1 : ∀ b, content.getLast? = some b → isSpace b = false)
    (hws : ∀ b ∈ ws, isSpace b = true) : trimWhitespace (content ++ ws) = content := by
  unfold trimWhitespace
  obtain ⟨a, t, rfl⟩ := List.exists_cons_of_ne_nil hne
  have e1 : (a :: t ++ ws).dropWhile isSpace = a :: t ++ ws := by
    rw [List.cons_append]; exact dropWhile_stop _ (h0 a rfl)
  rw [e1, List.reverse_append,
    List.dropWhile_append_of_pos (fun b hb => hws b (List.mem_reverse.mp hb))]
  rcases List.eq_nil_or_concat (a :: t) with h | ⟨L, b, h⟩
  · cases h
  · rw [List.concat_eq_append] at h
    rw [h] at h1 ⊢
    have hb := h1 b (by simp)
    rw [List.reverse_concat, dropWhile_stop _ hb]
    simp

theorem mapEquiv_perm {A attrs : List (List Nat × List Nat)} (hp : A.Perm attrs)
    (hn : (attrs.map Prod.fst).Nodup) : mapEquiv A attrs = true := by
  have hnA : (A.map Prod.fst).Nodup := (hp.map Prod.fst).nodup_iff.mpr hn
  simp only [mapEquiv, Bool.and_eq_true, List.all_eq_true, beq_iff_eq]
  constructor
  · intro kv hkv
    exact (mapGet_iff_mem attrs hn kv.1 kv.2).2 (hp.mem_iff.1 hkv)
  · intro kv hkv
    exact (mapGet_iff_mem A hnA kv.1 kv.2).2 (hp.mem_iff.2 hkv)

theorem equiv_text (content : List Nat) : (text content).equiv (text content) = true := by
  simp [text, Node.equiv, mapEquiv, equivList]

theorem sizeList_cons_lt (c : Node) (cs : List Node) : sizeList cs < sizeList (c :: cs) := by
  cases c with
  | mk t tag a ch s => simp [sizeList, Node.size]

theorem sizeList_children_lt (t : NodeType) (tag : List Nat) (a : List (List Nat × List Nat))
    (ch : List Node) (s : List Nat) (cs : List Node) :
    sizeList ch < sizeList (Node.mk t tag a ch s :: cs) := by
  simp [sizeList, Node.size]; omega


theorem head_after_text (order : List Nat → List (List Nat × List Nat) → List (List Nat × List Nat))
    (path : List Nat) (i d : Nat) (c : Node) (cs : List Node) (tail : List Nat)
    (hc : c.Type_ = .TextNode) (hna : NoAdjText (c :: cs))
    (htail : ∀ b, (tail.dropWhile asciiSpace).head? = some b → b = 60) :
    ∀ b, ((printChildren order path i cs d ++ tail).dropWhile asciiSpace).head? = some b →
      b = 60 := by
  cases cs with
  | nil => simpa [printChildren] using htail
  | cons c2 cs3 =>
    have h2 : c2.Type_ ≠ .TextNode := by
      intro h2
      exact (List.chain'_cons.mp hna).1 ⟨hc, h2⟩
    obtain ⟨t, tag, a, ch, s⟩ := c2
    cases t with
    | TextNode => exact absurd rfl h2
    | ElementNode =>
      rw [printChildren, printNode_element]
      simp only [List.append_assoc]
      rw [List.dropWhile_append_of_pos (Repeat_spaces d)]
      intro b hb
      simp [List.dropWhile_cons, show asciiSpace 60 = false from rfl] at hb
      exact hb.symm

/-- The loop of `parseNodes` run on the printed form of well-shaped children
`cs` (up to leading white space) rebuilds them, whatever follows them, as long
as that is a `<` or the end of the buffer after white space. -/
theorem parse_printChildren
    (order : List Nat → List (List Nat × List Nat) → List (List Nat × List Nat))
    (horder : ∀ path m, (order path m).Perm m) (html : List Nat) :
    ∀ (n : Nat) (cs : List Node), sizeList cs < n → WFList cs → NoAdjText cs →
    ∀ (path : List Nat) (i d pos : Nat) (rem tail : List Nat) (acc : List Node),
      At html pos rem →
      rem.dropWhile asciiSpace =
        (printChildren order path i cs d ++ tail).dropWhile asciiSpace →
      (∀ b, (tail.dropWhile asciiSpace).head? = some b → b = 60) →
      ∃ cs' p rem', equivList cs' cs = true ∧ At html p rem' ∧
        rem'.dropWhile asciiSpace = tail.dropWhile asciiSpace ∧
        ∀ x F0, (∀ fuel, F0 ≤ fuel → parseNodes html fuel p (acc ++ cs') = .ret x) →
          ∃ F, ∀ fuel, F ≤ fuel → parseNodes html fuel pos acc = .ret x := by
  intro n
  induction n with
  | zero => intro cs h; omega
  | succ n ih =>
    intro cs hsize hwf hna path i d pos rem tail acc hAt hrem htail
    cases cs with
    | nil =>
      refine ⟨[], pos, rem, rfl, hAt, by simpa [printChildren] using hrem, ?_⟩
      intro x F0 h
      exact ⟨F0, by simpa using h⟩
    | cons c cs2 =>
      have hwf2 : WFList cs2 := by simp [WFList] at hwf; exact hwf.2
      have hcwf : c.WF := by simp [WFList] at hwf; exact hwf.1
      have hna2 : NoAdjText cs2 := List.Chain'.tail hna
      have hsz2 : sizeList cs2 < n := by
        have := sizeList_cons_lt c cs2
        omega
      obtain ⟨t, tag, attrs, children, content⟩ := c
      cases t with
      | TextNode =>
        obtain ⟨rfl, rfl, rfl, hne, hmem, hhead, hlast⟩ := hcwf
        rw [printChildren, printNode_text] at hrem
        obtain ⟨a, ct, rfl⟩ := List.exists_cons_of_ne_nil hne
        have hrem' : rem.dropWhile asciiSpace =
            (a :: ct) ++ 10 :: (printChildren order path (i + 1) cs2 d ++ tail) := by
          rw [hrem]
          simp only [List.append_assoc]
          rw [List.dropWhile_append_of_pos (Repeat_spaces d)]
          simp only [List.cons_append]
          rw [dropWhile_stop _ (not_asciiSpace_of_not_isSpace (hhead a rfl))]
          simp
        obtain ⟨w, hw, rfl⟩ := split_of_dropWhile hrem'
        obtain ⟨w2, hw2, hrest2⟩ := split_of_dropWhile
          (rfl : (printChildren order path (i + 1) cs2 d ++ tail).dropWhile asciiSpace = _)
        have hr2 := head_after_text order path (i + 1) d (.mk .TextNode [] [] [] (a :: ct))
          cs2 tail rfl hna htail
        generalize (printChildren order path (i + 1) cs2 d ++ tail).dropWhile asciiSpace = r2
          at hrest2 hr2
        have hAt' : At html pos (w ++ (((a :: ct) ++ 10 :: w2) ++ r2)) := by
          have e : w ++ ((a :: ct) ++ 10 :: (printChildren order path (i + 1) cs2 d ++ tail)) =
              w ++ (((a :: ct) ++ 10 :: w2) ++ r2) := by
            rw [hrest2]; simp
          rw [← e]; exact hAt
        have hp1 := hAt'.advance.advance
        have hTrim : TrimSpace ((a :: ct) ++ 10 :: w2) = a :: ct := by
          rw [TrimSpace_eq_trimWhitespace]
          · exact trimWhitespace_append_ws (by simp) hhead hlast (by
              intro b hb
              rcases List.mem_cons.mp hb with e | hb'
              · subst e; decide
              · exact asciiSpace_isSpace (hw2 b hb'))
          · intro b hb
            rcases List.mem_append.mp hb with hb' | hb'
            · exact (hmem b hb').2
            · rcases List.mem_cons.mp hb' with e | hb''
              · subst e; decide
              · exact asciiSpace_lt (hw2 b hb'')
        have hstep : ∀ f, parseNodes html (f + 1) pos acc =
            parseNodes html f (pos + w.length + ((a :: ct) ++ 10 :: w2).length)
              (acc ++ [text (a :: ct)]) := by
          intro f
          rw [parseNodes_text f acc hAt' hp1 (fun b hb => asciiSpace_isSpace (hw b hb))
            (by
              intro b hb
              rcases List.mem_append.mp hb with hb' | hb'
              · exact (hmem b hb').1
              · rcases List.mem_cons.mp hb' with e | hb''
                · subst e; decide
                · exact asciiSpace_ne_60 (hw2 b hb''))
            (by intro b hb; simp at hb; subst hb; exact hhead a rfl)
            (by simp)
            hr2,
            hTrim, if_neg (by simp)]
        obtain ⟨cs2', p, rem', heq, hAtp, hremp, hcont⟩ :=
          ih cs2 hsz2 hwf2 hna2 path (i + 1) d _ r2 tail (acc ++ [text (a :: ct)]) hp1
            (by rw [hrest2, List.dropWhile_append_of_pos hw2]) htail
        refine ⟨text (a :: ct) :: cs2', p, rem', ?_, hAtp, hremp, ?_⟩
        · rw [equivList, heq]
          exact (Bool.and_true _).trans (equiv_text _)
        · intro x F0 h
          obtain ⟨F, hF⟩ := hcont x F0 (by
            intro fuel hf
            have := h fuel hf
            simpa [List.append_assoc] using this)
          refine ⟨F + 1, fun fuel hf => ?_⟩
          obtain ⟨f, rfl⟩ : ∃ f, fuel = f + 1 := ⟨fuel - 1, by omega⟩
          rw [hstep f]
          exact hF f (by omega)
      | ElementNode =>
        obtain ⟨htag, hattrs, rfl, hwfc, hnac⟩ := hcwf
        have hszc : sizeList children < n := by
          have := sizeList_children_lt .ElementNode tag attrs children [] cs2
          omega
        rw [printChildren, printNode_element] at hrem
        have hperm := horder (path ++ [i]) attrs
        generalize order (path ++ [i]) attrs = A at hrem hperm
        have hAnodup : (A.map Prod.fst).Nodup := (hperm.map Prod.fst).nodup_iff.mpr hattrs.1
        have hAok : ∀ nv ∈ A, (∀ b ∈ nv.1, isAlnum b = true) ∧ ∀ b ∈ nv.2, b ≠ 34 :=
          fun nv hnv => hattrs.2 nv (hperm.mem_iff.1 hnv)
        have hrem' : rem.dropWhile asciiSpace =
            60 :: (tag ++ (attributesText A ++ 62 :: 10 ::
              (printChildren order (path ++ [i]) 0 children (d + 1) ++
                (Repeat (ascii "  ") d ++ 60 :: 47 :: (tag ++ 62 :: 10 ::
                  (printChildren order path (i + 1) cs2 d ++ tail)))))) := by
          rw [hrem]
          simp only [List.append_assoc]
          rw [List.dropWhile_append_of_pos (Repeat_spaces d)]
          simp only [List.cons_append]
          rw [dropWhile_stop _ (show asciiSpace 60 = false from rfl)]
          simp
        obtain ⟨w, hw, rfl⟩ := split_of_dropWhile hrem'
        have h0 := hAt.advance
        have hq := h0.next.advance
        have hgt := hq.advance
        generalize pos + w.length = q0 at h0 hq hgt
        generalize q0 + 1 + tag.length = qa at hq hgt
        generalize qa + (attributesText A).length = pg at hgt
        have h1 := hgt.next
        -- the children, up to the closing tag
        obtain ⟨children', pc, remc, heqc, hAtc, hremc, hcontc⟩ :=
          ih children hszc hwfc hnac (path ++ [i]) 0 (d + 1) _ _
            (Repeat (ascii "  ") d ++ 60 :: 47 :: (tag ++ 62 :: 10 ::
              (printChildren order path (i + 1) cs2 d ++ tail))) [] h1
            (by rw [List.dropWhile_cons_of_pos (show asciiSpace 10 = true from rfl)])
            (by
              rw [List.dropWhile_append_of_pos (Repeat_spaces d),
                dropWhile_stop _ (show asciiSpace 60 = false from rfl)]
              intro b hb
              simp at hb
              exact hb.symm)
        have hremc' : remc.dropWhile asciiSpace = 60 :: 47 :: (tag ++ 62 :: 10 ::
              (printChildren order path (i + 1) cs2 d ++ tail)) := by
          rw [hremc, List.dropWhile_append_of_pos (Repeat_spaces d),
            dropWhile_stop _ (show asciiSpace 60 = false from rfl)]
        obtain ⟨wc, hwc, rfl⟩ := split_of_dropWhile hremc'
        have hp3 := hAtc.advance.next.next.advance
        generalize pc + wc.length + 1 + 1 + tag.length = p3 at hp3
        have hclose : ∀ f, parseNodes html (f + 1) pc children' =
            .ret (.ok (rootNode children'), p3 + 1) := fun f =>
          parseNodes_close f children' hAtc hp3 (fun b hb => asciiSpace_isSpace (hwc b hb)) htag
            (by simp; decide)
        obtain ⟨Fc, hFc⟩ := hcontc _ 1 (by
          intro fuel hf
          obtain ⟨f, rfl⟩ : ∃ f, fuel = f + 1 := ⟨fuel - 1, by omega⟩
          rw [List.nil_append]
          exact hclose f)
        -- the attributes
        have hattr : ∀ f, parseAttributes html (f + 1 + A.length) qa [] = .ret (A, pg) := by
          intro f
          have := parseAttributes_list hgt A f _ [] hq (fun nv hnv => (hAok nv hnv).1)
            (fun nv hnv => (hAok nv hnv).2)
          rw [foldl_mapSet_fresh A [] (by simpa using hAnodup)] at this
          simpa using this
        have hrest : ∀ b, (attributesText A ++ 62 :: 10 ::
            (printChildren order (path ++ [i]) 0 children (d + 1) ++
              (Repeat (ascii "  ") d ++ 60 :: 47 :: (tag ++ 62 :: 10 ::
                (printChildren order path (i + 1) cs2 d ++ tail))))).head? = some b →
            isAlnum b = false ∧ b ≠ 47 := by
          intro b hb
          cases A with
          | nil => simp [attributesText] at hb; subst hb; decide
          | cons nv A' =>
            simp [attributesText, attributeText, show ascii " " = [32] from rfl] at hb
            subst hb; decide
        have hE : ∀ f, max Fc A.length ≤ f → parseElement html (f + 1) q0 =
            .ret (.ok (element tag A children'), p3 + 1) := by
          intro f hf
          have hA := hattr (f - A.length)
          rw [show f - A.length + 1 + A.length = f + 1 by omega] at hA
          exact parseElement_open f h0 hq htag (fun b hb => (hrest b hb).1) hA hgt.get
            (hFc f (by omega))
        -- the siblings that follow
        obtain ⟨cs2', p, rem', heq, hAtp, hremp, hcont⟩ :=
          ih cs2 hsz2 hwf2 hna2 path (i + 1) d _ _ tail (acc ++ [element tag A children'])
            hp3.next
            (by rw [List.dropWhile_cons_of_pos (show asciiSpace 10 = true from rfl)]) htail
        refine ⟨element tag A children' :: cs2', p, rem', ?_, hAtp, hremp, ?_⟩
        · rw [equivList, heq]
          simp [element, Node.equiv, mapEquiv_perm hperm hattrs.1, heqc]
        · intro x F0 h
          obtain ⟨F2, hF2⟩ := hcont x F0 (by
            intro fuel hf
            have := h fuel hf
            simpa [List.append_assoc] using this)
          refine ⟨max (max Fc A.length + 1) F2 + 1, fun fuel hf => ?_⟩
          obtain ⟨f, rfl⟩ : ∃ f, fuel = f + 1 + 1 := ⟨fuel - 2, by omega⟩
          have hb0 : ∃ b, (tag ++ (attributesText A ++ 62 :: 10 ::
              (printChildren order (path ++ [i]) 0 children (d + 1) ++
                (Repeat (ascii "  ") d ++ 60 :: 47 :: (tag ++ 62 :: 10 ::
                  (printChildren order path (i + 1) cs2 d ++ tail)))))).head? = some b ∧
              b ≠ 47 := by
            cases tag with
            | nil =>
              cases hh : (attributesText A ++ 62 :: 10 ::
                (printChildren order (path ++ [i]) 0 children (d + 1) ++
                  (Repeat (ascii "  ") d ++ 60 :: 47 :: ([] ++ 62 :: 10 ::
                    (printChildren order path (i + 1) cs2 d ++ tail))))).head? with
              | none => cases A <;> simp [attributesText, attributeText,
                  show ascii " " = [32] from rfl] at hh
              | some b => exact ⟨b, by simpa using hh, (hrest b hh).2⟩
            | cons t0 tg => exact ⟨t0, rfl, isAlnum_not_47 (htag t0 (by simp))⟩
          obtain ⟨b, hb0, hb47⟩ := hb0
          rw [parseNodes_elem (f + 1) acc hAt h0 (fun b hb => asciiSpace_isSpace (hw b hb))
            hb0 hb47 (hE f (by omega))]
          exact hF2 (f + 1) (by omega)


/-- Printing does not depend on how the paths handed to `order` are named. -/
theorem printChildren_shift
    (order : List Nat → List (List Nat × List Nat) → List (List Nat × List Nat)) :
    ∀ (n : Nat) (cs : List Node), sizeList cs < n → ∀ (path : List Nat) (i d : Nat),
      printChildren (fun p m => order (p.drop 1) m) (0 :: path) i cs d =
        printChildren order path i cs d := by
  intro n
  induction n with
  | zero => intro cs h; omega
  | succ n ih =>
    intro cs hsize path i d
    cases cs with
    | nil => rw [printChildren, printChildren]
    | cons c cs2 =>
      have hsz2 : sizeList cs2 < n := by
        have := sizeList_cons_lt c cs2
        omega
      rw [printChildren, printChildren, ih cs2 hsz2]
      congr 1
      obtain ⟨t, tag, attrs, children, content⟩ := c
      cases t with
      | TextNode => rw [printNode_text, printNode_text]
      | ElementNode =>
        have hszc : sizeList children < n := by
          have := sizeList_children_lt .ElementNode tag attrs children content cs2
          omega
        rw [printNode_element, printNode_element, List.cons_append, ih children hszc]
        rfl

/-- The tree `Parse` returns for an ASCII buffer is a `root` element over
well-shaped children. -/
theorem Parse_wf {s : List Nat} (hs : ∀ b ∈ s, b < 128) {fuel : Nat} {T : Node}
    (hT : Parse fuel s = .ret (.ok T)) :
    ∃ ch, T = rootNode ch ∧ WFList ch ∧ NoAdjText ch := by
  unfold Parse at hT
  split at hT
  · rename_i r p heq
    cases hT
    exact (productions_wf s hs fuel).1 _ _ _ _ heq ⟨by simp [WFList], List.chain'_nil, by simp⟩
  · cases hT
  · cases hT

/-- C5, as amended: for every ASCII buffer `s` on which `Parse` returns a tree
`T` (the well-formed buffers among them), every text the serializer can emit
for `T` at depth 0, whatever the order in which it visits the attribute maps,
parses to a root with one more element `root` wrapped around the tree: the
result is structurally equal, attributes compared as mappings, to a root whose
only child is `T`. -/
theorem Parse_printNode_wraps (s : List Nat) (hs : ∀ b ∈ s, b < 128) (fuel : Nat) (T : Node)
    (hT : Parse fuel s = .ret (.ok T))
    (order : List Nat → List (List Nat × List Nat) → List (List Nat × List Nat))
    (horder : ∀ path m, (order path m).Perm m) :
    ∃ T' N, (∀ fuel', N ≤ fuel' → Parse fuel' (printNode order [] T 0) = .ret (.ok T')) ∧
      T'.equiv (rootNode [T]) = true := by
  obtain ⟨ch, rfl, hwf, hna⟩ := Parse_wf hs hT
  have hTwf : WFList [rootNode ch] := by
    simp only [WFList, rootNode, Node.WF, and_true]
    exact ⟨by decide, AttrsOK_nil, trivial, hwf, hna⟩
  have hprint : printChildren (fun p m => order (p.drop 1) m) [] 0 [rootNode ch] 0 ++ [] =
      printNode order [] (rootNode ch) 0 := by
    rw [printChildren, printChildren, List.append_nil, List.append_nil, List.nil_append,
      rootNode, printNode_element, printNode_element,
      printChildren_shift order _ ch (Nat.lt_succ_self _)]
    rfl
  obtain ⟨cs', p, rem', heq, hAt, hrem, hcont⟩ :=
    parse_printChildren (fun p m => order (p.drop 1) m) (fun p m => horder _ m)
      (printNode order [] (rootNode ch) 0)
      (sizeList [rootNode ch] + 1) [rootNode ch] (Nat.lt_succ_self _) hTwf
      (List.chain'_singleton _) [] 0 0 0 _ [] [] (At.start _)
      (by rw [hprint]) (by simp)
  have hws : ∀ b ∈ rem', asciiSpace b = true := by
    simpa [List.dropWhile_eq_nil_iff] using hrem
  obtain ⟨F, hF⟩ := hcont (.ok (rootNode cs'), (printNode order [] (rootNode ch) 0).length) 2 (by
    intro fuel hf
    obtain ⟨f, rfl⟩ : ∃ f, fuel = f + 2 := ⟨fuel - 2, by omega⟩
    rw [List.nil_append]
    by_cases hnil : rem' = []
    · subst hnil
      have hp := hAt.length_eq
      simp only [List.length_nil, Nat.add_zero] at hp
      rw [parseNodes_end _ (f + 1) p cs' (by omega), hp]
    · exact parseNodes_trailing f cs' hAt (fun b hb => asciiSpace_isSpace (hws b hb)) hnil)
  refine ⟨rootNode cs', F, fun fuel' hf => Parse_of_parseNodes (hF fuel' hf), ?_⟩
  simp [rootNode, Node.equiv, mapEquiv]
  simpa [rootNode] using heq

theorem Parse_printNode_wraps_witness :
    ∃ T' N, (∀ fuel', N ≤ fuel' →
        Parse fuel' (printNode (fun _ m => m) []
          (rootNode [element (ascii "a") [(ascii "x", ascii "1")] [text (ascii "hi")]]) 0) =
          .ret (.ok T')) ∧
      T'.equiv
        (rootNode [rootNode [element (ascii "a") [(ascii "x", ascii "1")] [text (ascii "hi")]]])
        = true :=
  Parse_printNode_wraps (ascii "<a x=\"1\">hi</a>") (by decide) 5 _ rfl (fun _ m => m)
    (fun _ _ => List.Perm.refl _)

/-- C5 fails as stated: `Parse` on `<a></a>` returns the tree root → `a`; the
serializer prints the root as an element of its own, so parsing its output
returns root → `root` → `a`, which is not structurally equal to the tree.
Outside ASCII the extra root is not the only difference: the text `85 78`
(hex) that `Parse` builds from `<a>` `E2 80 80 85 78` `</a>` is printed and
parsed back as `78`. -/
theorem Parse_printNode_not_identity :
    Parse 3 (ascii "<a></a>") = .ret (.ok (rootNode [element (ascii "a") [] []])) ∧
    printNode (fun _ m => m) [] (rootNode [element (ascii "a") [] []]) 0 =
      ascii "<root>\n  <a>\n  </a>\n</root>\n" ∧
    Parse 5 (ascii "<root>\n  <a>\n  </a>\n</root>\n") =
      .ret (.ok (rootNode [rootNode [element (ascii "a") [] []]])) ∧
    (rootNode [rootNode [element (ascii "a") [] []]]).equiv
      (rootNode [element (ascii "a") [] []]) = false ∧
    Parse 4 (ascii "<a>" ++ [226, 128, 128, 133, 120] ++ ascii "</a>") =
      .ret (.ok (rootNode [element (ascii "a") [] [text [133, 120]]])) ∧
    Parse 6 (printNode (fun _ m => m) []
        (rootNode [element (ascii "a") [] [text [133, 120]]]) 0) =
      .ret (.ok (rootNode [rootNode [element (ascii "a") [] [text [120]]]])) ∧
    (rootNode [rootNode [element (ascii "a") [] [text [120]]]]).equiv
      (rootNode [rootNode [element (ascii "a") [] [text [133, 120]]]]) = false :=
  ⟨rfl, rfl, rfl, rfl, rfl, rfl, rfl⟩

/-! ## The scanning operations at any cursor inside the buffer -/

theorem slice_takeWhile (f : Nat → Bool) (html : List Nat) (pos : Nat) (h : pos ≤ html.length) :
    slice html pos (pos + ((html.drop pos).takeWhile f).length) =
      .ret ((html.drop pos).takeWhile f) := by
  have h1 := (List.takeWhile_sublist f (l := html.drop pos)).length_le
  have h2 := List.length_drop pos html
  unfold slice
  rw [if_pos ⟨by omega, by omega⟩, Nat.add_sub_cancel_left, take_length_takeWhile]

/-- Inside the buffer `parseTagName` returns the run of letters and digits at
the cursor and stops right after it. -/
theorem parseTagName_eq (html : List Nat) (pos : Nat) (h : pos ≤ html.length) :
    parseTagName html pos =
      .ret ((html.drop pos).takeWhile isAlnum,
        pos + ((html.drop pos).takeWhile isAlnum).length) := by
  unfold parseTagName
  simp only [scanWhile_eq isAlnum html _ pos (le_refl _), slice_takeWhile isAlnum html pos h]

/-- At a double quote `parseAttributeValue` returns the bytes up to the next
double quote (or the end) and moves the cursor one past where they stop. -/
theorem parseAttributeValue_eq (html : List Nat) (pos : Nat) (h : html[pos]? = some 34) :
    parseAttributeValue html pos =
      .ret ((html.drop (pos + 1)).takeWhile (fun b => b != 34),
        pos + 1 + ((html.drop (pos + 1)).takeWhile (fun b => b != 34)).length + 1) := by
  have hlt : pos < html.length := (List.getElem?_eq_some_iff.mp h).1
  unfold parseAttributeValue
  simp only [h, scanWhile_eq _ html _ (pos + 1) (le_refl _),
    slice_takeWhile _ html (pos + 1) (by omega)]

theorem parseAttributeValue_other (html : List Nat) (pos : Nat) (h : html[pos]? ≠ some 34) :
    parseAttributeValue html pos = .ret ([], pos) := by
  unfold parseAttributeValue
  split
  · rename_i heq; exact absurd heq h
  · rfl

theorem parseText_eq (html : List Nat) (pos : Nat) (h : pos ≤ html.length) :
    parseText html pos =
      .ret (if TrimSpace ((html.drop pos).takeWhile (fun b => b != 60)) = [] then none
          else some (text (TrimSpace ((html.drop pos).takeWhile (fun b => b != 60)))),
        pos + ((html.drop pos).takeWhile (fun b => b != 60)).length) := by
  unfold parseText
  simp only [scanWhile_eq _ html _ pos (le_refl _), slice_takeWhile _ html pos h]
  split <;> rfl

theorem skipWhitespace_eq (html : List Nat) (pos : Nat) :
    skipWhitespace html pos = pos + ((html.drop pos).takeWhile isSpace).length :=
  scanWhile_eq isSpace html _ pos (le_refl _)

theorem getElem?_drop_takeWhile (f : Nat → Bool) (L : List Nat) :
    ∀ b, L[(L.takeWhile f).length]? = some b → f b = false := by
  intro b hb
  have h1 := List.head?_dropWhile_not f L
  rw [← drop_length_takeWhile f L, List.head?_drop, hb] at h1
  simpa using h1

theorem getElem?_lt_takeWhile (f : Nat → Bool) (L : List Nat) (j : Nat)
    (hj : j < (L.takeWhile f).length) : ∃ b, L[j]? = some b ∧ f b = true := by
  have hsplit := List.takeWhile_append_dropWhile f L
  refine ⟨(L.takeWhile f)[j], ?_, List.mem_takeWhile_imp (List.getElem_mem _)⟩
  conv_lhs => rw [← hsplit]
  rw [List.getElem?_append_left hj, List.getElem?_eq_getElem hj]


/-! ## C16, C19, C20: closing tag at top level, quoted values, tag names -/

/-- C16: a closing tag met at top level ends the whole parse.  For every
string `rest`, `Parse` on `</` followed by `rest` returns, without panic and
without a failure, a root with no children: whatever follows the stray closing
tag is dropped. -/
theorem Parse_stray_close (rest : List Nat) (n : Nat) :
    Parse (n + 1) (ascii "</" ++ rest) = .ret (.ok (rootNode [])) := by
  have e : ascii "</" ++ rest = 60 :: 47 :: rest := rfl
  rw [e]
  have h0 : (60 :: 47 :: rest)[0]? = some 60 := rfl
  have h1 : (60 :: 47 :: rest)[0 + 1]? = some 47 := by simp
  unfold Parse
  rw [parseNodes, if_pos (by simp)]
  simp only [skipWhitespace_stay h0 (show isSpace 60 = false from rfl), h0, h1,
    parseTagName_eq (60 :: 47 :: rest) (0 + 2) (by simp)]
  rfl

/-- C20: inside the buffer `parseTagName` returns the bytes from the cursor `p`
up to `q` and leaves the cursor at `q`, the first position from `p` on that is
the end of the buffer or holds a byte that is neither letter nor digit: the
name is the longest run of letters and digits at `p`; it is empty exactly when
`p` is the end or the byte at `p` is neither letter nor digit, and then the
cursor stays at `p`. -/
theorem parseTagName_maximal_run (html : List Nat) (p : Nat) (hp : p ≤ html.length) :
    ∃ name q, parseTagName html p = .ret (name, q) ∧
      name = (html.drop p).take (q - p) ∧ p ≤ q ∧ q ≤ html.length ∧
      (∀ j, p ≤ j → j < q → ∃ b, html[j]? = some b ∧ isAlnum b = true) ∧
      (q = html.length ∨ ∃ b, html[q]? = some b ∧ isAlnum b = false) ∧
      (name = [] ↔ (p = html.length ∨ ∃ b, html[p]? = some b ∧ isAlnum b = false)) ∧
      (name = [] → q = p) := by
  have hlen := (List.takeWhile_sublist isAlnum (l := html.drop p)).length_le
  have hdl := List.length_drop p html
  have hq : (p = html.length ∨ ∃ b, html[p]? = some b ∧ isAlnum b = false) ↔
      (html.drop p).takeWhile isAlnum = [] := by
    constructor
    · rintro (h | ⟨b, hb, hbf⟩)
      · rw [h, List.drop_length]; rfl
      · obtain ⟨hlt, hget⟩ := List.getElem?_eq_some_iff.mp hb
        rw [List.drop_eq_getElem_cons hlt, hget, List.takeWhile_cons, hbf]
        rfl
    · intro h
      by_cases hlt : p < html.length
      · right
        refine ⟨html[p], List.getElem?_eq_getElem hlt, ?_⟩
        rw [List.drop_eq_getElem_cons hlt, List.takeWhile_cons] at h
        by_contra hne
        simp only [Bool.not_eq_false] at hne
        rw [hne] at h
        cases h
      · left; omega
  refine ⟨_, _, parseTagName_eq html p hp, ?_, by omega, by omega, ?_, ?_, hq.symm, ?_⟩
  · rw [Nat.add_sub_cancel_left, take_length_takeWhile]
  · intro j hj1 hj2
    obtain ⟨b, hb, hbt⟩ := getElem?_lt_takeWhile isAlnum (html.drop p) (j - p) (by omega)
    refine ⟨b, ?_, hbt⟩
    rw [List.getElem?_drop, show p + (j - p) = j by omega] at hb
    exact hb
  · by_cases hlt : p + ((html.drop p).takeWhile isAlnum).length < html.length
    · right
      refine ⟨html[p + ((html.drop p).takeWhile isAlnum).length],
        List.getElem?_eq_getElem hlt, ?_⟩
      apply getElem?_drop_takeWhile isAlnum (html.drop p)
      rw [List.getElem?_drop, List.getElem?_eq_getElem hlt]
    · left; omega
  · intro h
    rw [h]; rfl

theorem parseTagName_maximal_run_witness :
    ∃ name q, parseTagName (ascii "<img src>") 1 = .ret (name, q) ∧
      name = ((ascii "<img src>").drop 1).take (q - 1) ∧ 1 ≤ q ∧
      q ≤ (ascii "<img src>").length ∧
      (∀ j, 1 ≤ j → j < q → ∃ b, (ascii "<img src>")[j]? = some b ∧ isAlnum b = true) ∧
      (q = (ascii "<img src>").length ∨
        ∃ b, (ascii "<img src>")[q]? = some b ∧ isAlnum b = false) ∧
      (name = [] ↔ (1 = (ascii "<img src>").length ∨
        ∃ b, (ascii "<img src>")[1]? = some b ∧ isAlnum b = false)) ∧
      (name = [] → q = 1) :=
  parseTagName_maximal_run (ascii "<img src>") 1 (by decide)

theorem takeWhile_eq_take (f : Nat → Bool) :
    ∀ (k : Nat) (L : List Nat) (x : Nat), L[k]? = some x → f x = false →
      (∀ j, j < k → ∀ y, L[j]? = some y → f y = true) → L.takeWhile f = L.take k := by
  intro k
  induction k with
  | zero =>
    intro L x hx hfx _
    cases L with
    | nil => rfl
    | cons a t =>
      simp at hx
      subst hx
      simp [List.takeWhile_cons, hfx]
  | succ k ih =>
    intro L x hx hfx hall
    cases L with
    | nil => rfl
    | cons a t =>
      have ha : f a = true := hall 0 (by omega) a (by simp)
      simp only [List.takeWhile_cons, ha, if_true, List.take_succ_cons]
      rw [ih t x (by simpa using hx) hfx (fun j hj y hy => hall (j + 1) (by omega) y
        (by simpa using hy))]

/-- C19: inside the buffer, when the cursor `p` is at the end or at a byte
other than `"`, `parseAttributeValue` returns the empty string and leaves the
cursor at `p`; when the byte at `p` is `"` and `q` is the first later position
holding `"`, it returns the bytes strictly between `p` and `q`, none of which
is `"`, and leaves the cursor at `q + 1`. -/
theorem parseAttributeValue_quoted (html : List Nat) (p : Nat) (hp : p ≤ html.length) :
    ((p = html.length ∨ ∃ b, html[p]? = some b ∧ b ≠ 34) →
      parseAttributeValue html p = .ret ([], p)) ∧
    (∀ q, html[p]? = some 34 → p < q → html[q]? = some 34 →
      (∀ j, p < j → j < q → html[j]? ≠ some 34) →
      parseAttributeValue html p = .ret ((html.drop (p + 1)).take (q - (p + 1)), q + 1) ∧
        ∀ b ∈ (html.drop (p + 1)).take (q - (p + 1)), b ≠ 34) := by
  constructor
  · rintro (h | ⟨b, hb, hb34⟩)
    · apply parseAttributeValue_other
      rw [h, List.getElem?_eq_none (le_refl _)]
      simp
    · apply parseAttributeValue_other
      rw [hb]
      simpa using hb34
  · intro q h34 hpq hq hmin
    have hqlt : q < html.length := (List.getElem?_eq_some_iff.mp hq).1
    have htw : (html.drop (p + 1)).takeWhile (fun b => b != 34) =
        (html.drop (p + 1)).take (q - (p + 1)) := by
      apply takeWhile_eq_take _ (q - (p + 1)) _ 34
      · rw [List.getElem?_drop, show p + 1 + (q - (p + 1)) = q by omega]; exact hq
      · rfl
      · intro j hj y hy
        rw [List.getElem?_drop] at hy
        have := hmin (p + 1 + j) (by omega) (by omega)
        rw [hy] at this
        simpa using this
    have hl : ((html.drop (p + 1)).take (q - (p + 1))).length = q - (p + 1) := by
      rw [List.length_take, List.length_drop]; omega
    refine ⟨?_, ?_⟩
    · rw [parseAttributeValue_eq html p h34, htw, hl,
        show p + 1 + (q - (p + 1)) + 1 = q + 1 by omega]
    · intro b hb
      rw [← htw] at hb
      simpa using List.mem_takeWhile_imp hb

theorem parseAttributeValue_quoted_witness :
    parseAttributeValue (ascii "<a b=\"c d\" e>") 5 = .ret (ascii "c d", 10) ∧
    parseAttributeValue (ascii "<a b=\"c d\" e>") 3 = .ret ([], 3) :=
  ⟨((parseAttributeValue_quoted (ascii "<a b=\"c d\" e>") 5 (by decide)).2 9 rfl (by decide) rfl
      (by intro j h1 h2; interval_cases j <;> decide)).1,
    (parseAttributeValue_quoted (ascii "<a b=\"c d\" e>") 3 (by decide)).1
      (Or.inr ⟨98, rfl, by decide⟩)⟩

/-! ## C15: a quoted value without its closing quote -/

/-- Without a closing quote `parseAttributeValue` returns the rest of the
buffer and leaves the cursor one past the end of the buffer. -/
theorem parseAttributeValue_unterminated (html : List Nat) (p : Nat)
    (h34 : html[p]? = some 34) (hno : ∀ j, p < j → html[j]? ≠ some 34) :
    parseAttributeValue html p = .ret (html.drop (p + 1), html.length + 1) := by
  have hlt : p < html.length := (List.getElem?_eq_some_iff.mp h34).1
  have htw : (html.drop (p + 1)).takeWhile (fun b => b != 34) = html.drop (p + 1) := by
    rw [List.takeWhile_eq_self_iff]
    intro x hx
    obtain ⟨i, hi, hxi⟩ := List.getElem_of_mem hx
    have := hno (p + 1 + i) (by omega)
    rw [← List.getElem?_drop, List.getElem?_eq_getElem hi, hxi] at this
    simpa using this
  rw [parseAttributeValue_eq html p h34, htw, List.length_drop,
    show p + 1 + (html.length - (p + 1)) + 1 = html.length + 1 by omega]

/-- C15 fails on the code: in `<a b="c` the quote at index 5 is never closed;
`parseAttributeValue` returns `c` but its unguarded `p.pos++` leaves the
cursor at 8, one past the end of the buffer of length 7, where the claim has
it stay at the end.  `Parse` still returns the element with `b` set to `c`. -/
theorem parseAttributeValue_cursor_past_end :
    parseAttributeValue (ascii "<a b=\"c") 5 = .ret (ascii "c", 8) ∧
    (ascii "<a b=\"c").length = 7 ∧
    Parse 3 (ascii "<a b=\"c") =
      .ret (.ok (rootNode [element (ascii "a") [(ascii "b", ascii "c")] []])) :=
  ⟨rfl, rfl, rfl⟩

/-! ## C17: white space before the `>` of an opening tag -/

/-- One round of the attribute loop over a name that no `=` follows. -/
theorem parseAttributes_bare {html : List Nat} {pos p : Nat} {w name rest : List Nat}
    (fuel : Nat) (m : List (List Nat × List Nat))
    (h : At html pos (w ++ (name ++ rest))) (hp : At html p rest)
    (hw : ∀ b ∈ w, isSpace b = true) (hn : ∀ b ∈ name, isAlnum b = true)
    (hr : ∀ b, rest.head? = some b → isAlnum b = false ∧ isSpace b = false ∧ b ≠ 61)
    (hfirst : ∃ b, html[pos]? = some b ∧ b ≠ 62) :
    parseAttributes html (fuel + 1) pos m = parseAttributes html fuel p (mapSet m name []) := by
  have h1 : At html (pos + w.length) (name ++ rest) := h.advance
  have e : p = pos + w.length + name.length := At.unique hp h1.advance
  obtain ⟨b, hget, hb⟩ := hfirst
  have hsk : skipWhitespace html pos = pos + w.length := by
    refine skipWhitespace_at h hw ?_
    cases name with
    | cons b n' => intro b' hb'; simp at hb'; subst hb'; exact isAlnum_not_space (hn _ (by simp))
    | nil => intro b' hb'; exact (hr b' (by simpa using hb')).2.1
  rw [parseAttributes]
  simp only [hget, hsk, parseTagName_at h1 hn (fun b hb => (hr b hb).1), ← e]
  cases rest with
  | nil => simp only [At.get_nil hp]
  | cons c r =>
    have hc := (hr c rfl).2.2
    simp only [hp.get]
    split
    · rename_i heq; simp at heq; exact absurd heq hc
    · rfl

theorem isSpace_not_alnum {b : Nat} (h : isSpace b = true) : isAlnum b = false := by
  cases hb : isAlnum b with
  | false => rfl
  | true => rw [isAlnum_not_space hb] at h; cases h

/-- C17: for a non-empty alphanumeric tag name `t` and a non-empty string `w`
of white space, `Parse` on `<t`, `w`, `>` returns a root whose only child is
the element `t` without children whose attribute map holds exactly the empty
name with the empty value. -/
theorem Parse_space_before_gt (t w : List Nat) (ht : t ≠ [])
    (htt : ∀ x ∈ t, isAlnum x = true) (hw : w ≠ []) (hww : ∀ x ∈ w, isSpace x = true)
    (fuel : Nat) (hf : 3 ≤ fuel) :
    Parse fuel (ascii "<" ++ t ++ w ++ ascii ">") =
      .ret (.ok (rootNode [element t [([], [])] []])) := by
  obtain ⟨n, rfl⟩ : ∃ n, fuel = n + 3 := ⟨fuel - 3, by omega⟩
  have e : ascii "<" ++ t ++ w ++ ascii ">" = 60 :: (t ++ (w ++ ([] ++ [62]))) := by
    simp [show ascii "<" = [60] from rfl, show ascii ">" = [62] from rfl]
  rw [e]
  generalize hh : 60 :: (t ++ (w ++ ([] ++ [62]))) = html
  have h0 : At html 0 (60 :: (t ++ (w ++ ([] ++ [62])))) := hh ▸ At.start _
  have h1 := h0.next.advance
  have h2 := h1.advance.advance
  have h3 := h2.next
  obtain ⟨t0, ht0, ht47⟩ := head_of_alnum (w ++ ([] ++ [62])) ht htt
  obtain ⟨w0, w', rfl⟩ := List.exists_cons_of_ne_nil hw
  have hw0 := hww w0 (by simp)
  have kA : parseAttributes html (n + 1 + 1) (0 + 1 + t.length) [] =
      .ret ([([], [])], 0 + 1 + t.length + (w0 :: w').length + ([] : List Nat).length) := by
    rw [parseAttributes_bare (n + 1) [] h1 h2 hww (by simp) (by simp; decide)
      ⟨w0, At.get (show At html _ (w0 :: (w' ++ ([] ++ [62]))) from h1), isSpace_not_62 hw0⟩,
      parseAttributes_done n _ (Or.inr h2.get)]
    rfl
  have kN := parseNodes_end html n
    (0 + 1 + t.length + (w0 :: w').length + ([] : List Nat).length + 1) []
    (by have := h3.length_eq; simp at this ⊢; omega)
  have k2 := parseElement_open (n + 1) h0 h1 htt
    (by intro b hb; simp at hb; subst hb; exact isSpace_not_alnum hw0) kA h2.get kN
  have k3 := parseNodes_elem (w := []) (n + 1 + 1) [] h0 h0 (by simp) ht0 ht47 k2
  rw [parseNodes_end html (n + 1) _ _
    (by have := h3.length_eq; simp at this ⊢; omega)] at k3
  exact Parse_of_parseNodes k3

theorem Parse_space_before_gt_witness :
    Parse 3 (ascii "<br >") = .ret (.ok (rootNode [element (ascii "br") [([], [])] []])) :=
  Parse_space_before_gt (ascii "br") (ascii " ") (by decide) (by decide) (by decide)
    (by decide) 3 (by decide)


/-! ## C14: the cursor never moves back -/

theorem skipWhitespace_ge (html : List Nat) (pos : Nat) : pos ≤ skipWhitespace html pos := by
  rw [skipWhitespace_eq]; omega

theorem parseTagName_ge {html : List Nat} {pos p : Nat} {name : List Nat}
    (h : parseTagName html pos = .ret (name, p)) : pos ≤ p := by
  have := (parseTagName_ret h).2.1
  omega

theorem parseAttributeValue_ge {html : List Nat} {pos p : Nat} {v : List Nat}
    (h : parseAttributeValue html pos = .ret (v, p)) : pos ≤ p := by
  by_cases h34 : html[pos]? = some 34
  · rw [parseAttributeValue_eq html pos h34] at h
    cases h
    omega
  · rw [parseAttributeValue_other html pos h34] at h
    cases h
    exact le_refl _

theorem parseText_ge {html : List Nat} {pos p : Nat} {n : Option Node}
    (h : parseText html pos = .ret (n, p)) : pos ≤ p := by
  by_cases hp : pos ≤ html.length
  · rw [parseText_eq html pos hp] at h
    cases h
    omega
  · unfold parseText at h
    dsimp only at h
    split at h
    · rename_i s heq
      exact absurd (slice_scanWhile heq).2 hp
    · cases h
    · cases h

theorem parseAttributes_ge (html : List Nat) :
    ∀ (fuel pos : Nat) (m m' : List (List Nat × List Nat)) (p : Nat),
      parseAttributes html fuel pos m = .ret (m', p) → pos ≤ p := by
  intro fuel
  induction fuel with
  | zero => intro pos m m' p h; simp [parseAttributes] at h
  | succ fuel ih =>
    intro pos m m' p h
    rw [parseAttributes] at h
    split at h
    · cases h; exact le_refl _
    · cases h; exact le_refl _
    · dsimp only at h
      have h0 := skipWhitespace_ge html pos
      split at h
      · rename_i name p1 hname
        have h1 := parseTagName_ge hname
        split at h
        · split at h
          · rename_i value p2 hval
            have h2 := parseAttributeValue_ge hval
            have h3 := ih _ _ _ _ h
            omega
          · cases h
          · cases h
        · have h3 := ih _ _ _ _ h
          omega
      · cases h
      · cases h

theorem productions_ge (html : List Nat) :
    ∀ fuel : Nat,
      (∀ pos children r p, parseNodes html fuel pos children = .ret (r, p) → pos ≤ p) ∧
      (∀ pos r p, parseElement html fuel pos = .ret (r, p) → pos ≤ p) := by
  intro fuel
  induction fuel with
  | zero =>
    constructor
    · intro pos children r p h; simp [parseNodes] at h
    · intro pos r p h; simp [parseElement] at h
  | succ fuel ih =>
    constructor
    · intro pos children r p h
      rw [parseNodes] at h
      split at h
      · dsimp only at h
        have h0 := skipWhitespace_ge html pos
        split at h
        · split at h
          · cases h
          · split at h
            · rename_i nm p1 hname
              have h1 := parseTagName_ge hname
              cases h
              omega
            · cases h
            · cases h
          · split at h
            · rename_i child p1 hE
              have h1 := ih.2 _ _ _ hE
              have h2 := ih.1 _ _ _ _ h
              omega
            · rename_i err p1 hE
              have h1 := ih.2 _ _ _ hE
              cases h
              omega
            · cases h
            · cases h
        · split at h
          · rename_i textNode p1 hT
            have h1 := parseText_ge hT
            have h2 := ih.1 _ _ _ _ h
            omega
          · rename_i p1 hT
            have h1 := parseText_ge hT
            have h2 := ih.1 _ _ _ _ h
            omega
          · cases h
          · cases h
      · cases h; exact le_refl _
    · intro pos r p h
      rw [parseElement] at h
      split at h
      · rename_i tag p1 hname
        have h1 := parseTagName_ge hname
        split at h
        · rename_i attrs p2 hA
          have h2 := parseAttributes_ge html _ _ _ _ _ hA
          split at h
          · split at h
            · rename_i childNodes p3 hN
              have h3 := ih.1 _ _ _ _ hN
              cases h
              omega
            · rename_i err p3 hN
              have h3 := ih.1 _ _ _ _ hN
              cases h
              omega
            · cases h
            · cases h
          · cases h
            omega
        · cases h
        · cases h
      · cases h
      · cases h

/-- C14: the cursor never moves back.  From every cursor position `pos` of
every buffer, `skipWhitespace` ends at a position `≥ pos`; `parseAttributeValue`
returns and ends at a position `≥ pos`; `parseTagName` and `parseText` return
whenever `pos` is inside the buffer, and end at a position `≥ pos` whenever
they return; and whenever `parseAttributes`, `parseElement` or `parseNodes`
returns, it ends at a position `≥ pos`. -/
theorem cursor_monotone (html : List Nat) (fuel pos : Nat) :
    pos ≤ skipWhitespace html pos ∧
    (∃ v p, parseAttributeValue html pos = .ret (v, p) ∧ pos ≤ p) ∧
    ((pos ≤ html.length → ∃ name p, parseTagName html pos = .ret (name, p)) ∧
      ∀ name p, parseTagName html pos = .ret (name, p) → pos ≤ p) ∧
    ((pos ≤ html.length → ∃ n p, parseText html pos = .ret (n, p)) ∧
      ∀ n p, parseText html pos = .ret (n, p) → pos ≤ p) ∧
    (∀ m m' p, parseAttributes html fuel pos m = .ret (m', p) → pos ≤ p) ∧
    (∀ r p, parseElement html fuel pos = .ret (r, p) → pos ≤ p) ∧
    (∀ children r p, parseNodes html fuel pos children = .ret (r, p) → pos ≤ p) := by
  refine ⟨skipWhitespace_ge html pos, ?_, ⟨?_, fun _ _ h => parseTagName_ge h⟩,
    ⟨?_, fun _ _ h => parseText_ge h⟩, fun m m' p h => parseAttributes_ge html fuel pos m m' p h,
    (productions_ge html fuel).2 pos, (productions_ge html fuel).1 pos⟩
  · by_cases h34 : html[pos]? = some 34
    · exact ⟨_, _, parseAttributeValue_eq html pos h34, by omega⟩
    · exact ⟨_, _, parseAttributeValue_other html pos h34, le_refl _⟩
  · intro hp
    exact ⟨_, _, parseTagName_eq html pos hp⟩
  · intro hp
    exact ⟨_, _, parseText_eq html pos hp⟩

theorem cursor_monotone_witness :
    parseNodes (ascii "<a>x</a>  ") 3 3 [] = .ret (.ok (rootNode [text (ascii "x")]), 8) ∧
      (3 : Nat) ≤ 8 ∧
    parseElement (ascii "<a>x</a>  ") 4 0 =
      .ret (.ok (element (ascii "a") [] [text (ascii "x")]), 8) ∧ (0 : Nat) ≤ 8 :=
  ⟨rfl,
    (cursor_monotone (ascii "<a>x</a>  ") 3 3).2.2.2.2.2.2 []
      (.ok (rootNode [text (ascii "x")])) 8 rfl,
    rfl,
    (cursor_monotone (ascii "<a>x</a>  ") 4 0).2.2.2.2.2.1
      (.ok (element (ascii "a") [] [text (ascii "x")])) 8 rfl⟩

/-! ## C12: the end of the buffer closes the open elements -/

theorem openTags_cons_append (t : List Nat) (ts : List (List Nat)) (X : List Nat) :
    openTags (t :: ts) ++ X = 60 :: (t ++ 62 :: (openTags ts ++ X)) := by
  simp [openTags, show ascii "<" = [60] from rfl, show ascii ">" = [62] from rfl]

theorem closeTags_cons_append (t : List Nat) (ts : List (List Nat)) (X : List Nat) :
    closeTags (t :: ts) ++ X = closeTags ts ++ 60 :: 47 :: (t ++ 62 :: X) := by
  simp [closeTags, show ascii "</" = [60, 47] from rfl, show ascii ">" = [62] from rfl]

/-- Text without `<` up to the end of the buffer. -/
theorem parseNodes_text_to_end {html : List Nat} {pos : Nat} {c : List Nat} (f : Nat)
    (h : At html pos c) (hc : ∀ b ∈ c, b ≠ 60) :
    parseNodes html (f + 2) pos [] = .ret (.ok (rootNode (textChildren c)), html.length) := by
  have hsplit := List.takeWhile_append_dropWhile isSpace c
  have hw : ∀ b ∈ c.takeWhile isSpace, isSpace b = true := fun b hb => List.mem_takeWhile_imp hb
  have hd0 : ∀ b, (c.dropWhile isSpace).head? = some b → isSpace b = false := by
    intro b hb
    have := List.head?_dropWhile_not isSpace c
    rw [hb] at this
    simpa using this
  have hdm : ∀ b ∈ c.dropWhile isSpace, b ≠ 60 :=
    fun b hb => hc b ((List.dropWhile_sublist _).subset hb)
  unfold textChildren
  generalize c.takeWhile isSpace = w at hsplit hw
  generalize c.dropWhile isSpace = d at hsplit hd0 hdm
  subst hsplit
  have hlen := h.length_eq
  by_cases hd : d = []
  · subst hd
    simp only [List.append_nil] at h hlen
    have hT : TrimSpace [] = [] := rfl
    rw [if_pos hT]
    by_cases hwn : w = []
    · subst hwn
      simp only [List.length_nil, Nat.add_zero] at hlen
      rw [parseNodes_end html (f + 1) pos [] (by omega), hlen]
    · exact parseNodes_trailing f [] h hw hwn
  · have h' : At html pos (w ++ (d ++ [])) := by simpa using h
    have hp : At html (pos + w.length + d.length) [] := h'.advance.advance
    have hpl := hp.length_eq
    simp only [List.length_nil, Nat.add_zero] at hpl
    rw [parseNodes_text (f + 1) [] h' hp hw hdm hd0 hd (by simp),
      parseNodes_end html f _ _ (by omega), hpl]
    by_cases ht : TrimSpace d = [] <;> simp [ht]

/-- Text without `<` up to a closing tag. -/
theorem parseNodes_text_to_close {html : List Nat} {pos p : Nat} {c t rest : List Nat} (f : Nat)
    (h : At html pos (c ++ 60 :: 47 :: (t ++ 62 :: rest))) (hp : At html p (62 :: rest))
    (hc : ∀ b ∈ c, b ≠ 60) (ht : ∀ b ∈ t, isAlnum b = true) :
    parseNodes html (f + 2) pos [] = .ret (.ok (rootNode (textChildren c)), p + 1) := by
  have hsplit := List.takeWhile_append_dropWhile isSpace c
  have hw : ∀ b ∈ c.takeWhile isSpace, isSpace b = true := fun b hb => List.mem_takeWhile_imp hb
  have hd0 : ∀ b, (c.dropWhile isSpace).head? = some b → isSpace b = false := by
    intro b hb
    have := List.head?_dropWhile_not isSpace c
    rw [hb] at this
    simpa using this
  have hdm : ∀ b ∈ c.dropWhile isSpace, b ≠ 60 :=
    fun b hb => hc b ((List.dropWhile_sublist _).subset hb)
  unfold textChildren
  generalize c.takeWhile isSpace = w at hsplit hw
  generalize c.dropWhile isSpace = d at hsplit hd0 hdm
  subst hsplit
  by_cases hd : d = []
  · subst hd
    simp only [List.append_nil] at h
    have hT : TrimSpace [] = [] := rfl
    rw [if_pos hT]
    exact parseNodes_close (f + 1) [] h hp hw ht (by simp; decide)
  · have h' : At html pos (w ++ (d ++ 60 :: 47 :: (t ++ 62 :: rest))) := by simpa using h
    have hp1 := h'.advance.advance
    rw [parseNodes_text (f + 1) [] h' hp1 hw hdm hd0 hd (by simp),
      parseNodes_close (w := []) f _ hp1 hp (by simp) ht (by simp; decide)]
    by_cases ht : TrimSpace d = [] <;> simp [ht]

theorem parseNodes_unclosed {html : List Nat} {c : List Nat} (hc : ∀ b ∈ c, b ≠ 60) :
    ∀ (ts : List (List Nat)) (pos f : Nat),
      (∀ t ∈ ts, t ≠ [] ∧ ∀ b ∈ t, isAlnum b = true) →
      At html pos (openTags ts ++ c) →
      parseNodes html (f + 2 * ts.length + 2) pos [] =
        .ret (.ok (rootNode (nest ts (textChildren c))), html.length) := by
  intro ts
  induction ts with
  | nil =>
    intro pos f _ h
    exact parseNodes_text_to_end f (by simpa [openTags] using h) hc
  | cons t ts ih =>
    intro pos f hts h
    rw [openTags_cons_append] at h
    obtain ⟨ht, htt⟩ := hts t (by simp)
    obtain ⟨t0, ht0, ht47⟩ := head_of_alnum (62 :: (openTags ts ++ c)) ht htt
    have hq := h.next.advance.next
    have hN := ih _ f (fun t' ht' => hts t' (by simp [ht'])) hq
    have hE := parseElement_plain (f + 2 * ts.length + 2) h hq htt hN
    have hlen := h.length_eq
    rw [show f + 2 * (t :: ts).length + 2 = (f + 2 * ts.length + 2 + 1) + 1 by
        simp only [List.length_cons]; omega,
      parseNodes_elem (w := []) _ [] h h (by simp) ht0 ht47 hE,
      parseNodes_end html _ _ _ (le_refl _)]
    rfl

theorem parseNodes_closed {html : List Nat} {c : List Nat} (hc : ∀ b ∈ c, b ≠ 60) :
    ∀ (ts : List (List Nat)) (pos p f : Nat) (t rest : List Nat),
      (∀ t ∈ ts, t ≠ [] ∧ ∀ b ∈ t, isAlnum b = true) → (∀ b ∈ t, isAlnum b = true) →
      At html pos (openTags ts ++ (c ++ (closeTags ts ++ 60 :: 47 :: (t ++ 62 :: rest)))) →
      At html p (62 :: rest) →
      parseNodes html (f + 2 * ts.length + 2) pos [] =
        .ret (.ok (rootNode (nest ts (textChildren c))), p + 1) := by
  intro ts
  induction ts with
  | nil =>
    intro pos p f t rest _ ht h hp
    exact parseNodes_text_to_close f (by simpa [openTags, closeTags] using h) hp hc ht
  | cons t2 ts ih =>
    intro pos p f t rest hts ht h hp
    rw [openTags_cons_append, closeTags_cons_append] at h
    obtain ⟨ht2, htt2⟩ := hts t2 (by simp)
    obtain ⟨t0, ht0, ht47⟩ := head_of_alnum (62 :: (openTags ts ++ (c ++ (closeTags ts ++
      60 :: 47 :: (t2 ++ 62 :: 60 :: 47 :: (t ++ 62 :: rest)))))) ht2 htt2
    have hq := h.next.advance.next
    have hp' := hq.advance.advance.advance.next.next.advance
    have hN := ih _ _ f t2 _ (fun t' ht' => hts t' (by simp [ht'])) htt2 hq hp'
    have hE := parseElement_plain (f + 2 * ts.length + 2) h hq htt2 hN
    rw [show f + 2 * (t2 :: ts).length + 2 = (f + 2 * ts.length + 2 + 1) + 1 by
        simp only [List.length_cons]; omega,
      parseNodes_elem (w := []) _ [] h h (by simp) ht0 ht47 hE,
      parseNodes_close (w := []) _ _ hp'.next hp (by simp) ht (by simp; decide)]
    rfl

/-- C12: the end of the buffer inside unclosed elements closes them.  For
non-empty alphanumeric tag names `t1..tn` (`n ≥ 1`) and text `c` without `<`,
`Parse` on `<t1>...<tn>` followed by `c` returns, without a failure, the tree
it returns when the closing tags `</tn>...</t1>` are appended: the elements
nested in one another around the text node of `c`, if `c` is not blank. -/
theorem Parse_implicit_closure (ts : List (List Nat)) (c : List Nat) (hne : ts ≠ [])
    (hts : ∀ t ∈ ts, t ≠ [] ∧ ∀ b ∈ t, isAlnum b = true) (hc : ∀ b ∈ c, b ≠ 60)
    (fuel : Nat) (hf : 2 * ts.length + 2 ≤ fuel) :
    Parse fuel (openTags ts ++ c) = .ret (.ok (rootNode (nest ts (textChildren c)))) ∧
    Parse fuel (openTags ts ++ c ++ closeTags ts) = Parse fuel (openTags ts ++ c) := by
  obtain ⟨f, rfl⟩ : ∃ f, fuel = f + 2 * ts.length + 2 := ⟨fuel - (2 * ts.length + 2), by omega⟩
  have h1 : Parse (f + 2 * ts.length + 2) (openTags ts ++ c) =
      .ret (.ok (rootNode (nest ts (textChildren c)))) :=
    Parse_of_parseNodes (parseNodes_unclosed hc ts 0 f hts (At.start _))
  refine ⟨h1, ?_⟩
  rw [h1]
  obtain ⟨t, ts', rfl⟩ := List.exists_cons_of_ne_nil hne
  obtain ⟨ht, htt⟩ := hts t (by simp)
  have e : openTags (t :: ts') ++ c ++ closeTags (t :: ts') =
      60 :: (t ++ 62 :: (openTags ts' ++ (c ++ (closeTags ts' ++ 60 :: 47 :: (t ++ 62 :: []))))) := by
    rw [List.append_assoc, openTags_cons_append]
    congr 3
    have := closeTags_cons_append t ts' []
    rw [List.append_nil] at this
    rw [this]
  rw [e]
  generalize hh : 60 :: (t ++ 62 :: (openTags ts' ++ (c ++ (closeTags ts' ++
    60 :: 47 :: (t ++ 62 :: []))))) = html
  have h0 : At html 0 (60 :: (t ++ 62 :: (openTags ts' ++ (c ++ (closeTags ts' ++
    60 :: 47 :: (t ++ 62 :: [])))))) := hh ▸ At.start _
  obtain ⟨t0, ht0, ht47⟩ := head_of_alnum (62 :: (openTags ts' ++ (c ++ (closeTags ts' ++
    60 :: 47 :: (t ++ 62 :: []))))) ht htt
  have hq := h0.next.advance.next
  have hp := hq.advance.advance.advance.next.next.advance
  have hN := parseNodes_closed hc ts' _ _ f t [] (fun t' ht' => hts t' (by simp [ht'])) htt hq hp
  have hE := parseElement_plain (f + 2 * ts'.length + 2) h0 hq htt hN
  have hend := hp.next.length_eq
  simp only [List.length_nil, Nat.add_zero] at hend
  have k := parseNodes_elem (w := []) (f + 2 * ts'.length + 2 + 1) [] h0 h0 (by simp) ht0 ht47 hE
  rw [parseNodes_end html (f + 2 * ts'.length + 2) _ _ (by omega)] at k
  rw [show f + 2 * (t :: ts').length + 2 = (f + 2 * ts'.length + 2 + 1) + 1 by
    simp only [List.length_cons]; omega]
  exact Parse_of_parseNodes k

theorem Parse_implicit_closure_witness :
    Parse 6 (ascii "<div><p> some text") =
      .ret (.ok (rootNode [element (ascii "div") [] [element (ascii "p") []
        [text (ascii "some text")]]])) ∧
    Parse 6 (ascii "<div><p> some text</p></div>") = Parse 6 (ascii "<div><p> some text") :=
  Parse_implicit_closure [ascii "div", ascii "p"] (ascii " some text") (by decide) (by decide)
    (by decide) 6 (by decide)

/-! ## C18: parsing the rendering wraps the tree in one more element -/

theorem mapEquiv_nil_right {a : List (List Nat × List Nat)} (h : mapEquiv a [] = true) :
    a = [] := by
  cases a with
  | nil => rfl
  | cons kv a => simp [mapEquiv, mapGet] at h

theorem equivList_singleton_element {cs : List Node} {tag : List Nat} {ch : List Node}
    (h : equivList cs [.mk .ElementNode tag [] ch []] = true) :
    ∃ ch', cs = [.mk .ElementNode tag [] ch' []] ∧ equivList ch' ch = true := by
  cases cs with
  | nil => simp [equivList] at h
  | cons x xs =>
    cases xs with
    | cons y ys => simp [equivList] at h
    | nil =>
      obtain ⟨t, tg, a, c, s⟩ := x
      simp only [equivList, Node.equiv, Bool.and_true, Bool.and_eq_true,
        decide_eq_true_eq] at h
      obtain ⟨⟨⟨⟨rfl, rfl⟩, ha⟩, hc⟩, rfl⟩ := h
      rw [mapEquiv_nil_right ha]
      exact ⟨c, rfl, hc⟩

/-- What `Parse` returns on the rendering of a tree it built from an ASCII
buffer: a root over a sequence structurally equal to the tree alone. -/
theorem Parse_printNode_children (s : List Nat) (hs : ∀ b ∈ s, b < 128) (fuel : Nat) (T : Node)
    (hT : Parse fuel s = .ret (.ok T))
    (order : List Nat → List (List Nat × List Nat) → List (List Nat × List Nat))
    (horder : ∀ path m, (order path m).Perm m) :
    ∃ cs' N, (∀ fuel', N ≤ fuel' →
        Parse fuel' (printNode order [] T 0) = .ret (.ok (rootNode cs'))) ∧
      equivList cs' [T] = true := by
  obtain ⟨ch, rfl, hwf, hna⟩ := Parse_wf hs hT
  have hTwf : WFList [rootNode ch] := by
    simp only [WFList, rootNode, Node.WF, and_true]
    exact ⟨by decide, AttrsOK_nil, trivial, hwf, hna⟩
  have hprint : printChildren (fun p m => order (p.drop 1) m) [] 0 [rootNode ch] 0 ++ [] =
      printNode order [] (rootNode ch) 0 := by
    rw [printChildren, printChildren, List.append_nil, List.append_nil, List.nil_append,
      rootNode, printNode_element, printNode_element,
      printChildren_shift order _ ch (Nat.lt_succ_self _)]
    rfl
  obtain ⟨cs', p, rem', heq, hAt, hrem, hcont⟩ :=
    parse_printChildren (fun p m => order (p.drop 1) m) (fun p m => horder _ m)
      (printNode order [] (rootNode ch) 0)
      (sizeList [rootNode ch] + 1) [rootNode ch] (Nat.lt_succ_self _) hTwf
      (List.chain'_singleton _) [] 0 0 0 _ [] [] (At.start _)
      (by rw [hprint]) (by simp)
  have hws : ∀ b ∈ rem', asciiSpace b = true := by
    simpa [List.dropWhile_eq_nil_iff] using hrem
  obtain ⟨F, hF⟩ := hcont (.ok (rootNode cs'), (printNode order [] (rootNode ch) 0).length) 2 (by
    intro fuel hf
    obtain ⟨f, rfl⟩ : ∃ f, fuel = f + 2 := ⟨fuel - 2, by omega⟩
    rw [List.nil_append]
    by_cases hnil : rem' = []
    · subst hnil
      have hp := hAt.length_eq
      simp only [List.length_nil, Nat.add_zero] at hp
      rw [parseNodes_end _ (f + 1) p cs' (by omega), hp]
    · exact parseNodes_trailing f cs' hAt (fun b hb => asciiSpace_isSpace (hws b hb)) hnil)
  exact ⟨cs', F, fun fuel' hf => Parse_of_parseNodes (hF fuel' hf), heq⟩

/-- C18: for every ASCII buffer `s` on which `Parse` returns a tree `T`,
parsing the text the serializer emits for `T` at depth 0, whatever the order
in which it visits the attribute maps, returns a root with exactly one child,
an element tagged `root` without attributes, whose children are structurally
equal to the children of `T`, attributes compared as mappings. -/
theorem Parse_printNode_extra_root (s : List Nat) (hs : ∀ b ∈ s, b < 128) (fuel : Nat)
    (T : Node) (hT : Parse fuel s = .ret (.ok T))
    (order : List Nat → List (List Nat × List Nat) → List (List Nat × List Nat))
    (horder : ∀ path m, (order path m).Perm m) :
    ∃ ch' N, (∀ fuel', N ≤ fuel' → Parse fuel' (printNode order [] T 0) =
        .ret (.ok (rootNode [.mk .ElementNode (ascii "root") [] ch' []]))) ∧
      equivList ch' T.Children = true := by
  obtain ⟨cs', N, hP, heq⟩ := Parse_printNode_children s hs fuel T hT order horder
  obtain ⟨ch, rfl, -, -⟩ := Parse_wf hs hT
  obtain ⟨ch', rfl, hch⟩ := equivList_singleton_element heq
  exact ⟨ch', N, hP, hch⟩

theorem Parse_printNode_extra_root_witness :
    ∃ ch' N, (∀ fuel', N ≤ fuel' →
        Parse fuel' (printNode (fun _ m => m) []
          (rootNode [element (ascii "a") [(ascii "x", ascii "1")] [text (ascii "hi")]]) 0) =
          .ret (.ok (rootNode [.mk .ElementNode (ascii "root") [] ch' []]))) ∧
      equivList ch'
        (rootNode [element (ascii "a") [(ascii "x", ascii "1")] [text (ascii "hi")]]).Children
        = true :=
  Parse_printNode_extra_root (ascii "<a x=\"1\">hi</a>") (by decide) 5 _ rfl (fun _ m => m)
    (fun _ _ => List.Perm.refl _)

/-! ## C13: the indentation of the printed lines -/

theorem lines_line (l s : List Nat) (h : 10 ∉ l) : lines (l ++ 10 :: s) = l :: lines s := by
  induction l with
  | nil => simp [lines]
  | cons b l ih =>
    have hb : b ≠ 10 := fun e => h (by simp [e])
    have hl : 10 ∉ l := fun e => h (by simp [e])
    rw [List.cons_append, lines, if_neg hb, ih hl]

theorem Repeat_eq_32 (d : Nat) : ∀ b ∈ Repeat (ascii "  ") d, b = 32 := by
  induction d with
  | zero => simp [Repeat]
  | succ d ih =>
    intro b hb
    rw [Repeat, List.mem_append] at hb
    rcases hb with hb | hb
    · rw [show ascii "  " = [32, 32] from rfl] at hb
      simpa using hb
    · exact ih b hb

theorem Repeat_no_newline (d : Nat) : 10 ∉ Repeat (ascii "  ") d := by
  intro h
  have := Repeat_eq_32 d 10 h
  omega

theorem attributesText_no_newline (l : List (List Nat × List Nat))
    (h : ∀ kv ∈ l, 10 ∉ kv.1 ∧ 10 ∉ kv.2) : 10 ∉ attributesText l := by
  induction l with
  | nil => simp [attributesText]
  | cons kv l ih =>
    have h1 := h kv (by simp)
    have h2 := ih (fun kv' hkv => h kv' (by simp [hkv]))
    simp only [attributesText, attributeText, show ascii " " = [32] from rfl,
      show ascii "=\"" = [61, 34] from rfl, show ascii "\"" = [34] from rfl,
      List.mem_append, List.mem_cons, List.mem_singleton, not_or]
    simp [h1.1, h1.2, h2]

/-- The lines of a printed node, given the lines of its printed children. -/
theorem lines_printNode_of
    (order : List Nat → List (List Nat × List Nat) → List (List Nat × List Nat))
    (horder : ∀ path m, (order path m).Perm m)
    (t : NodeType) (tag : List Nat) (attrs : List (List Nat × List Nat)) (children : List Node)
    (content : List Nat) (hc : (Node.mk t tag attrs children content).NoNewline)
    (hch : t = .ElementNode → ∀ (path : List Nat) (i d : Nat) (X : List Nat),
      lines (printChildren order path i children d ++ X) =
        renderChildrenLines order path i children d ++ lines X)
    (path : List Nat) (d : Nat) (X : List Nat) :
    lines (printNode order path (.mk t tag attrs children content) d ++ X) =
      renderLines order path (.mk t tag attrs children content) d ++ lines X := by
  cases t with
  | TextNode =>
    have hcont : 10 ∉ content := by simpa [Node.NoNewline] using hc
    rw [printNode_text, renderLines]
    have e : Repeat (ascii "  ") d ++ (content ++ [10]) ++ X =
        (Repeat (ascii "  ") d ++ content) ++ 10 :: X := by simp
    rw [e, lines_line _ _ (by simp [Repeat_no_newline, hcont])]
    rfl
  | ElementNode =>
    obtain ⟨htag, hattrs, -⟩ : 10 ∉ tag ∧ (∀ kv ∈ attrs, 10 ∉ kv.1 ∧ 10 ∉ kv.2) ∧
        NoNewlineList children := by simpa [Node.NoNewline] using hc
    have hA : 10 ∉ attributesText (order path attrs) :=
      attributesText_no_newline _
        (fun kv hkv => hattrs kv ((horder path attrs).mem_iff.1 hkv))
    rw [printNode_element, renderLines]
    have e : Repeat (ascii "  ") d ++ 60 :: (tag ++
          (attributesText (order path attrs) ++ 62 :: 10 ::
            (printChildren order path 0 children (d + 1) ++
              (Repeat (ascii "  ") d ++ 60 :: 47 :: (tag ++ [62, 10]))))) ++ X =
        (Repeat (ascii "  ") d ++ ascii "<" ++ tag ++
          attributesText (order path attrs) ++ ascii ">") ++ 10 ::
          (printChildren order path 0 children (d + 1) ++
            ((Repeat (ascii "  ") d ++ ascii "</" ++ tag ++ ascii ">") ++ 10 :: X)) := by
      simp [show ascii "<" = [60] from rfl, show ascii ">" = [62] from rfl,
        show ascii "</" = [60, 47] from rfl]
    rw [e, lines_line _ _ (by
        simp [Repeat_no_newline, htag, hA, show ascii "<" = [60] from rfl,
          show ascii ">" = [62] from rfl]),
      hch rfl,
      lines_line _ _ (by
        simp [Repeat_no_newline, htag, show ascii "</" = [60, 47] from rfl,
          show ascii ">" = [62] from rfl])]
    simp

theorem lines_printChildren
    (order : List Nat → List (List Nat × List Nat) → List (List Nat × List Nat))
    (horder : ∀ path m, (order path m).Perm m) :
    ∀ (n : Nat) (cs : List Node), sizeList cs < n → NoNewlineList cs →
    ∀ (path : List Nat) (i d : Nat) (X : List Nat),
      lines (printChildren order path i cs d ++ X) =
        renderChildrenLines order path i cs d ++ lines X := by
  intro n
  induction n with
  | zero => intro cs h; omega
  | succ n ih =>
    intro cs hsize hnn path i d X
    cases cs with
    | nil => simp [printChildren, renderChildrenLines]
    | cons c cs2 =>
      have hsz2 : sizeList cs2 < n := by
        have := sizeList_cons_lt c cs2
        omega
      obtain ⟨hc, hcs2⟩ : c.NoNewline ∧ NoNewlineList cs2 := by
        simpa [NoNewlineList] using hnn
      rw [printChildren, renderChildrenLines, List.append_assoc, List.append_assoc]
      obtain ⟨t, tag, attrs, children, content⟩ := c
      have hszc : sizeList children < n := by
        have := sizeList_children_lt t tag attrs children content cs2
        omega
      rw [lines_printNode_of order horder t tag attrs children content hc (by
          rintro rfl
          have : 10 ∉ tag ∧ (∀ kv ∈ attrs, 10 ∉ kv.1 ∧ 10 ∉ kv.2) ∧
            NoNewlineList children := by simpa [Node.NoNewline] using hc
          exact ih children hszc this.2.2),
        ih cs2 hsz2 hcs2]

theorem Repeat_add (s : List Nat) (a b : Nat) : Repeat s (a + b) = Repeat s a ++ Repeat s b := by
  induction a with
  | zero => simp [Repeat]
  | succ a ih => rw [show a + 1 + b = (a + b) + 1 by omega, Repeat, Repeat, ih, List.append_assoc]

theorem Repeat_prefix (s : List Nat) {e d : Nat} (h : e ≤ d) (X : List Nat) :
    Repeat s e <+: Repeat s d ++ X := by
  obtain ⟨k, rfl⟩ : ∃ k, d = e + k := ⟨d - e, by omega⟩
  rw [Repeat_add, List.append_assoc]
  exact List.prefix_append _ _

theorem prefix_renderLines_of
    (order : List Nat → List (List Nat × List Nat) → List (List Nat × List Nat))
    (t : NodeType) (tag : List Nat) (attrs : List (List Nat × List Nat)) (children : List Node)
    (content : List Nat) (e : Nat)
    (hch : ∀ (path : List Nat) (i d : Nat), e ≤ d →
      ∀ l ∈ renderChildrenLines order path i children d, Repeat (ascii "  ") e <+: l)
    (path : List Nat) (d : Nat) (he : e ≤ d) :
    ∀ l ∈ renderLines order path (.mk t tag attrs children content) d,
      Repeat (ascii "  ") e <+: l := by
  intro l hl
  cases t with
  | TextNode =>
    rw [renderLines] at hl
    simp only [List.mem_singleton] at hl
    subst hl
    exact Repeat_prefix _ he _
  | ElementNode =>
    rw [renderLines] at hl
    simp only [List.mem_cons, List.mem_append, List.not_mem_nil, or_false] at hl
    rcases hl with rfl | hl | rfl
    · simp only [List.append_assoc]
      exact Repeat_prefix _ he _
    · exact hch path 0 (d + 1) (by omega) l hl
    · simp only [List.append_assoc]
      exact Repeat_prefix _ he _

theorem prefix_renderChildrenLines
    (order : List Nat → List (List Nat × List Nat) → List (List Nat × List Nat)) (e : Nat) :
    ∀ (n : Nat) (cs : List Node), sizeList cs < n →
    ∀ (path : List Nat) (i d : Nat), e ≤ d →
      ∀ l ∈ renderChildrenLines order path i cs d, Repeat (ascii "  ") e <+: l := by
  intro n
  induction n with
  | zero => intro cs h; omega
  | succ n ih =>
    intro cs hsize path i d he l hl
    cases cs with
    | nil => simp [renderChildrenLines] at hl
    | cons c cs2 =>
      have hsz2 : sizeList cs2 < n := by
        have := sizeList_cons_lt c cs2
        omega
      obtain ⟨t, tag, attrs, children, content⟩ := c
      have hszc : sizeList children < n := by
        have := sizeList_children_lt t tag attrs children content cs2
        omega
      rw [renderChildrenLines, List.mem_append] at hl
      rcases hl with hl | hl
      · exact prefix_renderLines_of order t tag attrs children content e (ih children hszc)
          _ d he l hl
      · exact ih cs2 hsz2 path (i + 1) d he l hl

/-- C13, as amended: for every tree that prints no newline of its own (none in
a tag, an attribute name or value, or a text content), every depth `d` and
every order in which the attribute maps are visited, the lines of the text
the serializer emits are one line per text node and two per element, each
beginning with two spaces per depth level of its node, so that every emitted
line begins with `2 * d` spaces. -/
theorem printNode_lines_indented
    (order : List Nat → List (List Nat × List Nat) → List (List Nat × List Nat))
    (horder : ∀ path m, (order path m).Perm m) (path : List Nat) (n : Node) (d : Nat)
    (hn : n.NoNewline) :
    lines (printNode order path n d) = renderLines order path n d ∧
    ∀ l ∈ lines (printNode order path n d), Repeat (ascii "  ") d <+: l := by
  obtain ⟨t, tag, attrs, children, content⟩ := n
  have h1 : lines (printNode order path (.mk t tag attrs children content) d) =
      renderLines order path (.mk t tag attrs children content) d := by
    have := lines_printNode_of order horder t tag attrs children content hn (by
      rintro rfl
      have : 10 ∉ tag ∧ (∀ kv ∈ attrs, 10 ∉ kv.1 ∧ 10 ∉ kv.2) ∧
        NoNewlineList children := by simpa [Node.NoNewline] using hn
      exact lines_printChildren order horder _ children (Nat.lt_succ_self _) this.2.2)
      path d []
    simpa [lines] using this
  refine ⟨h1, ?_⟩
  rw [h1]
  exact prefix_renderLines_of order t tag attrs children content d
    (prefix_renderChildrenLines order d _ children (Nat.lt_succ_self _)) path d (le_refl _)

theorem printNode_lines_indented_witness :
    lines (printNode (fun _ m => m) []
        (rootNode [element (ascii "a") [(ascii "x", ascii "1")] [text (ascii "hi")]]) 1) =
      [ascii "  <root>", ascii "    <a x=\"1\">", ascii "      hi", ascii "    </a>",
        ascii "  </root>"] ∧
    ∀ l ∈ lines (printNode (fun _ m => m) []
        (rootNode [element (ascii "a") [(ascii "x", ascii "1")] [text (ascii "hi")]]) 1),
      Repeat (ascii "  ") 1 <+: l :=
  printNode_lines_indented (fun _ m => m) (fun _ _ => List.Perm.refl _) []
    (rootNode [element (ascii "a") [(ascii "x", ascii "1")] [text (ascii "hi")]]) 1
    (by simp [rootNode, element, text, Node.NoNewline, NoNewlineList]; decide)

/-- C13 fails as stated: `Parse` on `<p>a`, newline, `b</p>` returns a text
node whose content holds the newline; the serializer prints the content as it
is, so at depth 1 the output has the line `b`, which begins with no space. -/
theorem printNode_line_not_indented :
    Parse 4 (ascii "<p>a\nb</p>") =
      .ret (.ok (rootNode [element (ascii "p") [] [text (ascii "a\nb")]])) ∧
    lines (printNode (fun _ m => m) []
        (rootNode [element (ascii "p") [] [text (ascii "a\nb")]]) 1) =
      [ascii "  <root>", ascii "    <p>", ascii "      a", ascii "b", ascii "    </p>",
        ascii "  </root>"] ∧
    ¬ (Repeat (ascii "  ") 1 <+: ascii "b") :=
  ⟨rfl, rfl, by decide⟩

theorem isSpaceRune_RuneError : isSpaceRune RuneError = false := by decide

theorem DecodeRuneInString_ascii {b : Nat} (h : b < 128) (t : List Nat) :
    DecodeRuneInString (b :: t) = (b, 1) := by
  simp [DecodeRuneInString, h]

theorem DecodeRuneInString_lt194 {b : Nat} (h : 128 ≤ b) (h1 : b < 194) (t : List Nat) :
    DecodeRuneInString (b :: t) = (RuneError, 1) := by
  unfold DecodeRuneInString
  simp only [if_neg (show ¬ b < 128 by omega), if_pos h1]

theorem DecodeRuneInString_ge245 {b : Nat} (h : 245 ≤ b) (t : List Nat) :
    DecodeRuneInString (b :: t) = (RuneError, 1) := by
  unfold DecodeRuneInString
  simp only [if_neg (show ¬ b < 128 by omega), if_neg (show ¬ b < 194 by omega),
    if_neg (show ¬ b < 224 by omega), if_neg (show ¬ b < 240 by omega),
    if_neg (show ¬ b < 245 by omega)]

theorem DecodeRuneInString_two {b : Nat} (h : 194 ≤ b) (h1 : b < 224) (s1 : Nat)
    (t : List Nat) :
    DecodeRuneInString (b :: s1 :: t) =
      if isCont s1 then ((b % 32) * 64 + s1 % 64, 2) else (RuneError, 1) := by
  unfold DecodeRuneInString
  simp only [if_neg (show ¬ b < 128 by omega), if_neg (show ¬ b < 194 by omega), if_pos h1]

theorem DecodeRuneInString_three {b : Nat} (h : 224 ≤ b) (h1 : b < 240) (s1 s2 : Nat)
    (t : List Nat) :
    DecodeRuneInString (b :: s1 :: s2 :: t) =
      if ((if b == 224 then 160 else 128) ≤ s1 && s1 ≤ (if b == 237 then 159 else 191)) = true
      then
        if isCont s2 then ((b % 16) * 4096 + (s1 % 64) * 64 + s2 % 64, 3)
        else (RuneError, 1)
      else (RuneError, 1) := by
  unfold DecodeRuneInString
  simp only [if_neg (show ¬ b < 128 by omega), if_neg (show ¬ b < 194 by omega),
    if_neg (show ¬ b < 224 by omega), if_pos h1]

theorem DecodeRuneInString_four {b : Nat} (h : 240 ≤ b) (h1 : b < 245) (s1 s2 s3 : Nat)
    (t : List Nat) :
    DecodeRuneInString (b :: s1 :: s2 :: s3 :: t) =
      if ((if b == 240 then 144 else 128) ≤ s1 && s1 ≤ (if b == 244 then 143 else 191)) = true
      then
        if isCont s2 then
          if isCont s3 then
            ((b % 8) * 262144 + (s1 % 64) * 4096 + (s2 % 64) * 64 + s3 % 64, 4)
          else (RuneError, 1)
        else (RuneError, 1)
      else (RuneError, 1) := by
  unfold DecodeRuneInString
  simp only [if_neg (show ¬ b < 128 by omega), if_neg (show ¬ b < 194 by omega),
    if_neg (show ¬ b < 224 by omega), if_neg (show ¬ b < 240 by omega), if_pos h1]

theorem DecodeRuneInString_single {b : Nat} (h : 128 ≤ b) :
    DecodeRuneInString [b] = (RuneError, 1) := by
  unfold DecodeRuneInString
  simp only [if_neg (show ¬ b < 128 by omega)]
  split_ifs <;> rfl

theorem DecodeRuneInString_short3 {b : Nat} (h : 224 ≤ b) (s1 : Nat) :
    DecodeRuneInString [b, s1] = (RuneError, 1) := by
  unfold DecodeRuneInString
  simp only [if_neg (show ¬ b < 128 by omega), if_neg (show ¬ b < 194 by omega),
    if_neg (show ¬ b < 224 by omega)]
  split_ifs <;> rfl

theorem DecodeRuneInString_short4 {b : Nat} (h : 240 ≤ b) (s1 s2 : Nat) :
    DecodeRuneInString [b, s1, s2] = (RuneError, 1) := by
  unfold DecodeRuneInString
  simp only [if_neg (show ¬ b < 128 by omega), if_neg (show ¬ b < 194 by omega),
    if_neg (show ¬ b < 224 by omega), if_neg (show ¬ b < 240 by omega)]
  split_ifs <;> rfl

theorem not_cont_range {c lo hi : Nat} (hc : isCont c = false) (hlo : 128 ≤ lo)
    (hhi : hi ≤ 191) : ¬ ((decide (lo ≤ c) && decide (c ≤ hi)) = true) := by
  have hc2 : ¬ (128 ≤ c ∧ c ≤ 191) := by simpa [isCont] using hc
  intro h
  simp only [Bool.and_eq_true, decide_eq_true_eq] at h
  omega

/-- A byte `≥ 0x80` that no continuation byte follows decodes with width 1. -/
theorem DecodeRuneInString_boundary {b : Nat} (h : 128 ≤ b) (t : List Nat)
    (ht : ∀ c, t.head? = some c → isCont c = false) :
    DecodeRuneInString (b :: t) = (RuneError, 1) := by
  rcases t with _ | ⟨c, t⟩
  · exact DecodeRuneInString_single h
  · have hc : isCont c = false := ht c rfl
    by_cases h1 : b < 194
    · exact DecodeRuneInString_lt194 h h1 _
    by_cases h2 : b < 224
    · rw [DecodeRuneInString_two (by omega) h2, hc]
      rfl
    by_cases h5 : 245 ≤ b
    · exact DecodeRuneInString_ge245 h5 _
    rcases t with _ | ⟨c2, t⟩
    · exact DecodeRuneInString_short3 (by omega) _
    by_cases h3 : b < 240
    · rw [DecodeRuneInString_three (by omega) h3, if_neg]
      exact not_cont_range hc (by split_ifs <;> omega) (by split_ifs <;> omega)
    rcases t with _ | ⟨c3, t⟩
    · exact DecodeRuneInString_short4 (by omega) _ _
    · rw [DecodeRuneInString_four (by omega) (by omega), if_neg]
      exact not_cont_range hc (by split_ifs <;> omega) (by split_ifs <;> omega)

/-- Cutting a buffer short keeps its first code point or turns it into
`RuneError` of width 1. -/
theorem DecodeRuneInString_prefix (a b : List Nat) (ha : a ≠ []) :
    DecodeRuneInString a = DecodeRuneInString (a ++ b) ∨
      DecodeRuneInString a = (RuneError, 1) := by
  rcases a with _ | ⟨a0, a⟩
  · exact absurd rfl ha
  by_cases h0 : a0 < 128
  · left
    rw [List.cons_append, DecodeRuneInString_ascii h0, DecodeRuneInString_ascii h0]
  by_cases h1 : a0 < 194
  · right
    exact DecodeRuneInString_lt194 (by omega) h1 _
  by_cases h5 : 245 ≤ a0
  · right
    exact DecodeRuneInString_ge245 h5 _
  rcases a with _ | ⟨a1, a⟩
  · right
    exact DecodeRuneInString_single (by omega)
  by_cases h2 : a0 < 224
  · left
    rw [List.cons_append, List.cons_append, DecodeRuneInString_two (by omega) h2,
      DecodeRuneInString_two (by omega) h2]
  rcases a with _ | ⟨a2, a⟩
  · right
    exact DecodeRuneInString_short3 (by omega) _
  by_cases h3 : a0 < 240
  · left
    rw [List.cons_append, List.cons_append, List.cons_append,
      DecodeRuneInString_three (by omega) h3, DecodeRuneInString_three (by omega) h3]
  rcases a with _ | ⟨a3, a⟩
  · right
    exact DecodeRuneInString_short4 (by omega) _ _
  · left
    rw [List.cons_append, List.cons_append, List.cons_append, List.cons_append,
      DecodeRuneInString_four (by omega) (by omega),
      DecodeRuneInString_four (by omega) (by omega)]

/-- A code point decoded with width `≥ 2` is still there when bytes follow. -/
theorem DecodeRuneInString_extend (a b : List Nat) (h : 2 ≤ (DecodeRuneInString a).2) :
    DecodeRuneInString (a ++ b) = DecodeRuneInString a := by
  have ha : a ≠ [] := by
    rintro rfl
    simp [DecodeRuneInString] at h
  rcases DecodeRuneInString_prefix a b ha with h1 | h1
  · exact h1.symm
  · rw [h1] at h
    simp at h

/-- A white-space code point starts at a byte that is not a continuation byte. -/
theorem DecodeRuneInString_space_head {s : List Nat}
    (h : isSpaceRune (DecodeRuneInString s).1 = true) :
    ∃ b t, s = b :: t ∧ isCont b = false := by
  rcases s with _ | ⟨b, t⟩
  · simp [DecodeRuneInString, isSpaceRune_RuneError] at h
  · refine ⟨b, t, rfl, ?_⟩
    cases hb : isCont b with
    | false => rfl
    | true =>
      have hb2 : 128 ≤ b ∧ b ≤ 191 := by simpa [isCont] using hb
      rw [DecodeRuneInString_lt194 hb2.1 (by omega), isSpaceRune_RuneError] at h
      cases h

/-- A code point of width `≥ 2` starts at a lead byte. -/
theorem DecodeRuneInString_wide_head {s : List Nat} (h : 2 ≤ (DecodeRuneInString s).2) :
    ∃ b t, s = b :: t ∧ 194 ≤ b := by
  rcases s with _ | ⟨b, t⟩
  · simp [DecodeRuneInString] at h
  · refine ⟨b, t, rfl, ?_⟩
    by_contra hb
    by_cases h0 : b < 128
    · rw [DecodeRuneInString_ascii h0] at h
      simp at h
    · rw [DecodeRuneInString_lt194 (by omega) (by omega)] at h
      simp at h

theorem lastRuneStart_le (s : List Nat) (lim : Nat) : ∀ k, lastRuneStart s lim k ≤ k := by
  intro k
  induction k with
  | zero => simp [lastRuneStart]
  | succ k ih =>
    rw [lastRuneStart]
    split_ifs
    · exact le_refl _
    · exact le_refl _
    · omega

/-- The ways `DecodeLastRuneInString` answers on a buffer that ends with `b`. -/
theorem DecodeLastRuneInString_cases {x : List Nat} {b : Nat} (hb : x.getLast? = some b) :
    (b < 128 ∧ DecodeLastRuneInString x = (b, 1)) ∨
    (128 ≤ b ∧
      (DecodeLastRuneInString x = (RuneError, 1) ∨
        ∃ start, start < x.length ∧ start + (DecodeLastRuneInString x).2 = x.length ∧
          DecodeLastRuneInString x = DecodeRuneInString (x.drop start))) := by
  have hne : x ≠ [] := by
    rintro rfl
    simp at hb
  have hlen : 0 < x.length := List.length_pos.mpr hne
  have hget : x.getD (x.length - 1) 0 = b := by
    rw [List.getD_eq_getElem?_getD, ← List.getLast?_eq_getElem?, hb]
    rfl
  unfold DecodeLastRuneInString
  simp only [if_neg (show ¬ x.length = 0 by omega), hget]
  by_cases h0 : b < 128
  · left
    exact ⟨h0, by simp only [if_pos h0]⟩
  · right
    refine ⟨by omega, ?_⟩
    simp only [if_neg h0]
    have hstart : lastRuneStart x (x.length - 4) (x.length - 1) - 1 < x.length := by
      have := lastRuneStart_le x (x.length - 4) (x.length - 1)
      omega
    generalize lastRuneStart x (x.length - 4) (x.length - 1) - 1 = start at hstart
    rw [List.take_of_length_le (by rw [List.length_drop])]
    by_cases h1 : start + (DecodeRuneInString (x.drop start)).2 = x.length
    · right
      refine ⟨start, hstart, ?_, ?_⟩
      · simp only [ne_eq, h1, not_true_eq_false, if_false]
      · simp only [ne_eq, h1, not_true_eq_false, if_false]
    · left
      simp only [ne_eq, h1, not_false_eq_true, if_true]

theorem DecodeLastRuneInString_width {x : List Nat} (hne : x ≠ []) :
    1 ≤ (DecodeLastRuneInString x).2 ∧ (DecodeLastRuneInString x).2 ≤ x.length := by
  have hlen : 0 < x.length := List.length_pos.mpr hne
  obtain ⟨b, hb⟩ : ∃ b, x.getLast? = some b := by
    cases h : x.getLast? with
    | none => exact absurd (List.getLast?_eq_none_iff.mp h) hne
    | some b => exact ⟨b, rfl⟩
  rcases DecodeLastRuneInString_cases hb with ⟨_, h⟩ | ⟨_, h | ⟨start, h1, h2, _⟩⟩
  · rw [h]; exact ⟨le_refl _, hlen⟩
  · rw [h]; exact ⟨le_refl _, hlen⟩
  · omega

/-- Where a white-space code point found from the end starts, there is no
continuation byte. -/
theorem DecodeLastRuneInString_space {x : List Nat} (hne : x ≠ [])
    (h : isSpaceRune (DecodeLastRuneInString x).1 = true) :
    ∀ c, (x.drop (x.length - (DecodeLastRuneInString x).2)).head? = some c →
      isCont c = false := by
  obtain ⟨b, hb⟩ : ∃ b, x.getLast? = some b := by
    cases h : x.getLast? with
    | none => exact absurd (List.getLast?_eq_none_iff.mp h) hne
    | some b => exact ⟨b, rfl⟩
  intro c hc
  rcases DecodeLastRuneInString_cases hb with ⟨h0, h1⟩ | ⟨_, h1 | ⟨start, h1, h2, h3⟩⟩
  · rw [h1] at hc
    rw [List.head?_drop, ← List.getLast?_eq_getElem?, hb] at hc
    cases hc
    simp only [isCont, Bool.and_eq_false_imp, decide_eq_true_eq, decide_eq_false_iff_not]
    omega
  · rw [h1, isSpaceRune_RuneError] at h
    cases h
  · have hs : x.length - (DecodeLastRuneInString x).2 = start := by omega
    rw [hs] at hc
    rw [h3] at h
    obtain ⟨b2, t, hbt, hcont⟩ := DecodeRuneInString_space_head h
    rw [hbt] at hc
    cases hc
    exact hcont

/-- What `TrimRightFunc` computes from the offset `lastIndexFunc` returns is
the end of the code point found there. -/
theorem trimRight_cut (x y : List Nat) (hne : x ≠ [])
    (hy : ∀ c, y.head? = some c → isCont c = false) :
    (if 128 ≤ (x ++ y).getD (x.length - (DecodeLastRuneInString x).2) 0 then
        (x ++ y).take (x.length - (DecodeLastRuneInString x).2 +
          (DecodeRuneInString
            ((x ++ y).drop (x.length - (DecodeLastRuneInString x).2))).2)
      else (x ++ y).take (x.length - (DecodeLastRuneInString x).2 + 1)) = x := by
  have hlen : 0 < x.length := List.length_pos.mpr hne
  obtain ⟨i, b, rfl⟩ : ∃ i b, x = i ++ [b] := by
    rcases List.eq_nil_or_concat x with h | ⟨i, b, h⟩
    · exact absurd h hne
    · exact ⟨i, b, by simpa using h⟩
  have hb : (i ++ [b]).getLast? = some b := by simp
  have hlast : (i ++ [b] ++ y).getD i.length 0 = b := by
    rw [List.getD_eq_getElem?_getD, List.append_assoc,
      List.getElem?_append_right (le_refl _)]
    simp
  have hdrop : (i ++ [b] ++ y).drop i.length = b :: y := by simp
  have hfull : ∀ k, k = (i ++ [b]).length → (i ++ [b] ++ y).take k = i ++ [b] := by
    intro k hk
    rw [hk, List.take_left]
  rcases DecodeLastRuneInString_cases hb with ⟨h0, h1⟩ | ⟨h0, h1⟩
  · rw [h1]
    have e1 : (i ++ [b]).length - 1 = i.length := by simp
    simp only [e1, hlast, if_neg (show ¬ 128 ≤ b by omega)]
    exact hfull _ (by simp)
  · by_cases hw : (DecodeLastRuneInString (i ++ [b])).2 = 1
    · rw [hw]
      have e1 : (i ++ [b]).length - 1 = i.length := by simp
      simp only [e1, hlast, if_pos h0, hdrop, DecodeRuneInString_boundary h0 y hy]
      exact hfull _ (by simp)
    · rcases h1 with h1 | ⟨start, h1, h2, h3⟩
      · rw [h1] at hw
        exact absurd rfl hw
      · have hs : (i ++ [b]).length - (DecodeLastRuneInString (i ++ [b])).2 = start := by
          omega
        have hw2 : 2 ≤ (DecodeRuneInString ((i ++ [b]).drop start)).2 := by
          rw [← h3]
          omega
        have hd : (i ++ [b] ++ y).drop start = (i ++ [b]).drop start ++ y := by
          rw [List.drop_append_of_le_length (by omega)]
        obtain ⟨b2, t, hbt, hb2⟩ := DecodeRuneInString_wide_head hw2
        have hget : (i ++ [b] ++ y).getD start 0 = b2 := by
          rw [List.getD_eq_getElem?_getD, ← List.head?_drop, hd, hbt]
          rfl
        rw [hs, hget, if_pos (by omega), hd, DecodeRuneInString_extend _ _ hw2, ← h3]
        exact hfull _ (by omega)

theorem take_ne_nil {s : List Nat} {e : Nat} (h0 : 0 < e) (he : e ≤ s.length) :
    s.take e ≠ [] := by
  intro h
  have := congrArg List.length h
  rw [List.length_take, List.length_nil] at this
  omega

theorem lastIndexFunc_spec (s : List Nat) :
    ∀ (n i j : Nat), i ≤ s.length →
      (∀ c, (s.drop i).head? = some c → isCont c = false) →
      lastIndexFunc s n i = some j →
      ∃ e, 0 < e ∧ e ≤ s.length ∧ (∀ c, (s.drop e).head? = some c → isCont c = false) ∧
        isSpaceRune (DecodeLastRuneInString (s.take e)).1 = false ∧
        j = e - (DecodeLastRuneInString (s.take e)).2 := by
  intro n
  induction n with
  | zero => intro i j _ _ h; simp [lastIndexFunc] at h
  | succ n ih =>
    intro i j hi hb h
    rw [lastIndexFunc] at h
    split at h
    · rename_i hpos
      dsimp only at h
      have hne : s.take i ≠ [] := take_ne_nil hpos hi
      have hlen : (s.take i).length = i := by
        rw [List.length_take]
        omega
      split at h
      · rename_i hsp
        have hw := DecodeLastRuneInString_width hne
        have hc := DecodeLastRuneInString_space hne hsp
        rw [hlen] at hc hw
        refine ih _ j (by omega) ?_ h
        intro c hc2
        apply hc c
        rw [List.head?_drop] at hc2 ⊢
        rw [List.getElem?_take_of_lt (by omega)]
        exact hc2
      · rename_i hsp
        cases h
        exact ⟨i, hpos, hi, hb, by simpa using hsp, rfl⟩
    · cases h

/-- Go `strings.TrimRightFunc(s, unicode.IsSpace)` returns a prefix of `s`
whose last code point, if there is one, is not white space. -/
theorem TrimRightFunc_spec (s : List Nat) :
    TrimRightFunc s <+: s ∧
      (TrimRightFunc s ≠ [] →
        isSpaceRune (DecodeLastRuneInString (TrimRightFunc s)).1 = false) := by
  unfold TrimRightFunc
  split
  · rename_i j hj
    obtain ⟨e, he0, he, hb, hsp, rfl⟩ :=
      lastIndexFunc_spec s _ _ _ (le_refl _) (by simp) hj
    have hne : s.take e ≠ [] := take_ne_nil he0 he
    have hcut := trimRight_cut (s.take e) (s.drop e) hne hb
    rw [List.take_append_drop, List.length_take, min_eq_left he] at hcut
    rw [hcut]
    exact ⟨List.take_prefix _ _, fun _ => hsp⟩
  · exact ⟨List.nil_prefix, fun h => absurd rfl h⟩

theorem indexFunc_spec (s : List Nat) :
    ∀ (n i j : Nat), indexFunc s n i = some j →
      isSpaceRune (DecodeRuneInString (s.drop j)).1 = false := by
  intro n
  induction n with
  | zero => intro i j h; simp [indexFunc] at h
  | succ n ih =>
    intro i j h
    rw [indexFunc] at h
    split at h
    · dsimp only at h
      split at h
      · exact ih _ _ h
      · rename_i hsp
        cases h
        simpa using hsp
    · cases h

/-- Go `strings.TrimLeftFunc(s, unicode.IsSpace)` returns a suffix of `s`
whose first code point, if there is one, is not white space. -/
theorem TrimLeftFunc_spec (s : List Nat) :
    TrimLeftFunc s <:+ s ∧
      (TrimLeftFunc s ≠ [] →
        isSpaceRune (DecodeRuneInString (TrimLeftFunc s)).1 = false) := by
  unfold TrimLeftFunc
  split
  · exact ⟨List.nil_suffix, fun h => absurd rfl h⟩
  · rename_i j hj
    exact ⟨List.drop_suffix _ _, fun _ => indexFunc_spec s _ _ _ hj⟩

theorem isSpaceRune_of_not_asciiSpace {c : Nat} (h : c < 128) (hsp : asciiSpace c = false) :
    isSpaceRune c = false := by
  have := isSpace_eq_asciiSpace h
  rw [hsp] at this
  exact this

theorem trimSpaceRight_spec :
    ∀ (n : Nat) (s : List Nat), s.length ≤ n →
      trimSpaceRight n s <+: s ∧
        (trimSpaceRight n s ≠ [] →
          isSpaceRune (DecodeLastRuneInString (trimSpaceRight n s)).1 = false) := by
  intro n
  induction n with
  | zero =>
    intro s hs
    have : s = [] := List.length_eq_zero.mp (by omega)
    subst this
    exact ⟨List.prefix_refl _, fun h => absurd rfl h⟩
  | succ n ih =>
    intro s hs
    rw [trimSpaceRight]
    split
    · exact ⟨List.nil_prefix, fun h => absurd rfl h⟩
    · rename_i c hc
      split_ifs with h1 h2
      · exact TrimRightFunc_spec s
      · have hl : s.dropLast.length ≤ n := by
          rw [List.length_dropLast]
          omega
        exact ⟨(ih _ hl).1.trans (List.dropLast_prefix s), (ih _ hl).2⟩
      · refine ⟨List.prefix_refl _, fun _ => ?_⟩
        rcases DecodeLastRuneInString_cases hc with ⟨h0, h3⟩ | ⟨h0, _⟩
        · rw [h3]
          exact isSpaceRune_of_not_asciiSpace h0 (by simpa using h2)
        · omega

/-- Go `strings.TrimSpace(s)` returns a piece of `s` that, if it is not empty,
neither begins nor ends with a white-space code point, for every byte string
`s`, valid UTF-8 or not. -/
theorem TrimSpace_spec :
    ∀ s : List Nat, TrimSpace s <:+: s ∧
      (TrimSpace s ≠ [] →
        isSpaceRune (DecodeRuneInString (TrimSpace s)).1 = false ∧
        isSpaceRune (DecodeLastRuneInString (TrimSpace s)).1 = false) := by
  intro s
  induction s with
  | nil => exact ⟨by simp [TrimSpace], fun h => absurd rfl h⟩
  | cons c t ih =>
    rw [TrimSpace]
    split_ifs with h1 h2
    · have hR := TrimRightFunc_spec (TrimLeftFunc (c :: t))
      have hL := TrimLeftFunc_spec (c :: t)
      refine ⟨hR.1.isInfix.trans hL.1.isInfix, fun hne => ⟨?_, hR.2 hne⟩⟩
      obtain ⟨z, hz⟩ := hR.1
      generalize TrimLeftFunc (c :: t) = u at hz hne hL
      generalize TrimRightFunc u = r at hz hne
      have hune : u ≠ [] := by
        rintro rfl
        exact hne (List.append_eq_nil.mp hz).1
      have hu := hL.2 hune
      rcases DecodeRuneInString_prefix r z hne with h3 | h3
      · rw [h3, hz]
        exact hu
      · rw [h3]
        exact isSpaceRune_RuneError
    · exact ⟨ih.1.trans (List.suffix_cons c t).isInfix, ih.2⟩
    · have hR := trimSpaceRight_spec (c :: t).length (c :: t) (le_refl _)
      refine ⟨hR.1.isInfix, fun hne => ⟨?_, hR.2 hne⟩⟩
      obtain ⟨z, hz⟩ := hR.1
      generalize trimSpaceRight (c :: t).length (c :: t) = r at hz hne
      rcases r with _ | ⟨r0, r⟩
      · exact absurd rfl hne
      · rw [List.cons_append] at hz
        cases hz
        rw [DecodeRuneInString_ascii (by omega)]
        exact isSpaceRune_of_not_asciiSpace (by omega) (by simpa using h2)

theorem ShapedList_append (a b : List Node) :
    ShapedList (a ++ b) ↔ ShapedList a ∧ ShapedList b := by
  induction a with
  | nil => simp [ShapedList]
  | cons c cs ih => simp [ShapedList, ih, and_assoc]

theorem ShapedList_snoc {a : List Node} {c : Node} (ha : ShapedList a) (hc : c.Shaped) :
    ShapedList (a ++ [c]) :=
  (ShapedList_append a [c]).mpr ⟨ha, hc, trivial⟩

theorem Shaped_children {n : Node} (h : n.Shaped) : ShapedList n.Children := by
  obtain ⟨t, tag, attrs, children, content⟩ := n
  cases t with
  | ElementNode =>
    have : content = [] ∧ ShapedList children := by simpa [Node.Shaped] using h
    exact this.2
  | TextNode =>
    have : tag = [] ∧ attrs = [] ∧ children = [] ∧ TextShape content := by
      simpa [Node.Shaped] using h
    rw [Node.Children, this.2.2.1]
    trivial

theorem TextShape_TrimSpace {c : List Nat} (h60 : 60 ∉ c) (hne : TrimSpace c ≠ []) :
    TextShape (TrimSpace c) :=
  ⟨hne, fun h => h60 ((TrimSpace_spec c).1.subset h), ((TrimSpace_spec c).2 hne).1,
    ((TrimSpace_spec c).2 hne).2⟩

theorem parseText_shaped {html : List Nat} {pos p : Nat} {n : Node}
    (h : parseText html pos = .ret (some n, p)) : n.Shaped := by
  by_cases hp : pos ≤ html.length
  · rw [parseText_eq html pos hp] at h
    split at h
    · cases h
    · rename_i hne
      cases h
      have h60 : 60 ∉ (html.drop pos).takeWhile (fun b => b != 60) := by
        intro hm
        have := List.mem_takeWhile_imp hm
        simp at this
      have := TextShape_TrimSpace h60 hne
      simpa [text, Node.Shaped] using this
  · unfold parseText at h
    dsimp only at h
    split at h
    · rename_i s heq
      exact absurd (slice_scanWhile heq).2 hp
    · cases h
    · cases h

theorem productions_shaped (html : List Nat) :
    ∀ fuel : Nat,
      (∀ pos children r p, ShapedList children →
        parseNodes html fuel pos children = .ret (.ok r, p) → r.Shaped) ∧
      (∀ pos r p, parseElement html fuel pos = .ret (.ok r, p) → r.Shaped) := by
  intro fuel
  induction fuel with
  | zero =>
    constructor
    · intro pos children r p _ h; simp [parseNodes] at h
    · intro pos r p h; simp [parseElement] at h
  | succ fuel ih =>
    constructor
    · intro pos children r p hcs h
      rw [parseNodes] at h
      split at h
      · dsimp only at h
        split at h
        · split at h
          · cases h
          · split at h
            · cases h
              exact ⟨rfl, hcs⟩
            · cases h
            · cases h
          · split at h
            · rename_i child p1 hE
              exact ih.1 _ _ _ _ (ShapedList_snoc hcs (ih.2 _ _ _ hE)) h
            · cases h
            · cases h
            · cases h
        · split at h
          · rename_i textNode p1 hT
            exact ih.1 _ _ _ _ (ShapedList_snoc hcs (parseText_shaped hT)) h
          · exact ih.1 _ _ _ _ hcs h
          · cases h
          · cases h
      · cases h
        exact ⟨rfl, hcs⟩
    · intro pos r p h
      rw [parseElement] at h
      split at h
      · split at h
        · split at h
          · split at h
            · rename_i childNodes p3 hN
              cases h
              exact ⟨rfl, Shaped_children (ih.1 _ [] _ _ trivial hN)⟩
            · cases h
            · cases h
            · cases h
          · cases h
            exact ⟨rfl, trivial⟩
        · cases h
        · cases h
      · cases h
      · cases h

/-- C11: the invariant of the tree.  In every tree `Parse` returns, from any
buffer and with any fuel, every text node has an empty tag, no attribute and
no child, and its content is not empty, contains no `<` and neither begins nor
ends with white space (its first and its last code point, as Go decodes the
UTF-8 bytes, are not white space for `unicode.IsSpace`, the white space
`strings.TrimSpace` removes); every element node has an empty content. -/
theorem Parse_tree_invariant (fuel : Nat) (html : List Nat) (T : Node)
    (h : Parse fuel html = .ret (.ok T)) : T.Shaped := by
  unfold Parse at h
  split at h
  · rename_i r p hN
    cases h
    exact (productions_shaped html fuel).1 0 [] T p trivial hN
  · cases h
  · cases h

theorem Parse_tree_invariant_witness :
    Parse 10 (ascii "<p> " ++ [195, 169] ++ ascii " <b>ok</b> x" ++ [226, 128, 131] ++
        ascii " </p>") =
      .ret (.ok (rootNode [element (ascii "p") []
        [text [195, 169], element (ascii "b") [] [text (ascii "ok")], text (ascii "x")]])) ∧
    (rootNode [element (ascii "p") []
        [text [195, 169], element (ascii "b") [] [text (ascii "ok")],
          text (ascii "x")]]).Shaped :=
  ⟨rfl, Parse_tree_invariant 10
    (ascii "<p> " ++ [195, 169] ++ ascii " <b>ok</b> x" ++ [226, 128, 131] ++ ascii " </p>")
    _ (by rfl)⟩

end HtmlParser
